import Mathlib

/-! Selection engine of `WebCore/khtml/xml/dom_selection.cpp`.

A shallow embedding of `DOM::Selection` and of the file-local helpers of
`dom_selection.cpp`.  C++ pointers are `Option` handles (`none` is the null
pointer), a dereference of a null pointer is the fault `Fault.nullDeref`, and
the `while` loops over the node graph run on explicit fuel
(`Fault.outOfFuel` when it is exhausted).  The classes the file only
consumes (`NodeImpl`, `Position`, `CaretPosition`, `RenderObject`, the view)
are parameters, bundled in `World`.
-/

set_option linter.unusedSectionVars false
set_option linter.unusedTactic false
set_option linter.unnecessarySeqFocus false
set_option linter.unusedVariables false
set_option linter.unreachableTactic false

namespace DOM

/-! ## Faults and results -/

/-- Ways in which the embedded code can fail to return. -/
inductive Fault where
  | nullDeref
  | outOfFuel
  deriving DecidableEq, Repr

/-- Result of running embedded code. -/
abbrev Run (α : Type) := Except Fault α

deriving instance DecidableEq for Except

/-- Dereference of a pointer: a null pointer is a fault. -/
def deref {α : Type} : Option α → Run α
  | some a => .ok a
  | none => .error .nullDeref

/-! ## Node navigation (`NodeImpl`) and the tree order comparator -/

/-- Modelled from the spec: the navigation part of `Node` named in §6
(`parentNode()`, `firstChild()`, `nextSibling()`), whose declaration
(`dom_nodeimpl.h`) is not part of the sources.  A null result is `none`. -/
structure NodeAPI (N : Type) where
  parentNode : N → Option N
  firstChild : N → Option N
  nextSibling : N → Option N

section Comparator

variable {N : Type} [DecidableEq N]

/-- The loop `while (n->parentNode()) { n = n->parentNode(); depth++; }`
of `Selection::nodeIsBeforeNode`, started at a non-null `n`. -/
def depthLoop (api : NodeAPI N) : Nat → N → Nat → Run Nat
  | 0, _, _ => .error .outOfFuel
  | fuel + 1, n, depth =>
    match api.parentNode n with
    | none => .ok depth
    | some p => depthLoop api fuel p (depth + 1)

/-- The loop `while (nDepth > target) { n = n->parentNode(); nDepth--; }`
of `Selection::nodeIsBeforeNode`; every iteration dereferences `n`. -/
def climbLoop (api : NodeAPI N) (target : Nat) : Nat → Option N → Run (Option N)
  | 0, n => .ok n
  | nDepth + 1, n =>
    if nDepth + 1 > target then
      match n with
      | none => .error .nullDeref
      | some x => climbLoop api target nDepth (api.parentNode x)
    else .ok n

/-- The loop `while (n1->parentNode() != n2->parentNode()) { n1 = n1->parentNode();
n2 = n2->parentNode(); }` of `Selection::nodeIsBeforeNode`. -/
def commonParentLoop (api : NodeAPI N) : Nat → Option N → Option N → Run (N × N)
  | 0, _, _ => .error .outOfFuel
  | fuel + 1, n1, n2 =>
    match n1, n2 with
    | some a, some b =>
      if api.parentNode a ≠ api.parentNode b then
        commonParentLoop api fuel (api.parentNode a) (api.parentNode b)
      else .ok (a, b)
    | _, _ => .error .nullDeref

/-- The sibling scan `while (n) { if (n == n1) ... else if (n == n2) ...; n = n->nextSibling(); }`
of `Selection::nodeIsBeforeNode`; `result` starts as `false`. -/
def scanLoop (api : NodeAPI N) (n1 n2 : N) : Nat → Option N → Run Bool
  | 0, _ => .error .outOfFuel
  | fuel + 1, n =>
    match n with
    | none => .ok false
    | some x =>
      if x = n1 then .ok true
      else if x = n2 then .ok false
      else scanLoop api n1 n2 fuel (api.nextSibling x)

/-- Source `Selection::nodeIsBeforeNode(NodeImpl *n1, NodeImpl *n2)`.  Each loop gets
`fuel` iterations. -/
def nodeIsBeforeNode (api : NodeAPI N) (fuel : Nat) (n1 n2 : Option N) : Run Bool :=
  match n1, n2 with
  | none, _ => .ok true
  | _, none => .ok true
  | some a, some b =>
    if a = b then .ok true
    else do
      let n1Depth ← depthLoop api fuel a 0
      let n2Depth ← depthLoop api fuel b 0
      let n2' ← climbLoop api n1Depth n2Depth (some b)
      let n1' ← climbLoop api n2Depth n1Depth (some a)
      let (x, y) ← commonParentLoop api fuel n1' n2'
      let n := match api.parentNode x with
        | some p => api.firstChild p
        | none => api.firstChild x
      scanLoop api x y fuel n

end Comparator

/-! ## Finite trees -/

/-- A sibling list in first-child / next-sibling form: `cons kids rest` is a node
with child list `kids`, followed by the siblings `rest`. -/
inductive Siblings where
  | nil : Siblings
  | cons (kids : Siblings) (rest : Siblings) : Siblings
  deriving DecidableEq, Repr

namespace Siblings

/-- Child list of the `i`-th node of a sibling list. -/
def nth : Siblings → Nat → Option Siblings
  | nil, _ => none
  | cons k _, 0 => some k
  | cons _ r, i + 1 => r.nth i

/-- The child list of the node at path `p` below a node whose child list is `cs`;
`none` when `p` names no node.  The root of the tree is the empty path. -/
def kidsAt : Siblings → List Nat → Option Siblings
  | cs, [] => some cs
  | cs, i :: p =>
    match cs.nth i with
    | none => none
    | some k => kidsAt k p

/-- Number of nodes in a sibling list, descendants included. -/
def size : Siblings → Nat
  | nil => 0
  | cons k r => k.size + r.size + 1

/-- Pre-order walk of a sibling list whose first node has index `i`. -/
def walk : Siblings → Nat → List (List Nat)
  | nil, _ => []
  | cons k r, i => ([i] :: (k.walk 0).map (fun p => i :: p)) ++ r.walk (i + 1)

end Siblings

/-- A finite tree: a root node (path `[]`) with the child list `kids`; a node is
named by the child indices on the way from the root. -/
structure Tree where
  kids : Siblings
  deriving DecidableEq, Repr

namespace Tree

/-- The path names a node of the tree. -/
def isNode (t : Tree) (p : List Nat) : Bool := (t.kids.kidsAt p).isSome

/-- Pre-order (document order) walk of the tree. -/
def preorder (t : Tree) : List (List Nat) := [] :: t.kids.walk 0

/-- Node `a` is visited before node `b` in the pre-order walk. -/
def visitedBefore (t : Tree) (a b : List Nat) : Bool :=
  decide (t.preorder.indexOf a < t.preorder.indexOf b)

/-- The node navigation of a finite tree. -/
def api (t : Tree) : NodeAPI (List Nat) where
  parentNode p := if p = [] then none else some p.dropLast
  firstChild p :=
    match t.kids.kidsAt p with
    | some (.cons _ _) => some (p ++ [0])
    | _ => none
  nextSibling p :=
    match p.getLast? with
    | none => none
    | some i => if t.isNode (p.dropLast ++ [i + 1]) then some (p.dropLast ++ [i + 1]) else none

/-- Enough fuel for every loop of the comparator on this tree. -/
def fuel (t : Tree) : Nat := t.kids.size + 2

end Tree

/-! ## Positions, rectangles and the Selection record -/

/-- Modelled from the spec: `Position` (§3), a (node reference, integer offset) pair
whose class (`dom_position.h`) is not part of the sources.  Equality is identity of
(node, offset); a Position is empty when its node is null. -/
structure Position (N : Type) where
  node : Option N
  offset : Int
  deriving DecidableEq, Repr

namespace Position

variable {N : Type}

/-- Source `Position::isEmpty()`. -/
def isEmpty (p : Position N) : Bool := p.node.isNone

/-- Source `Position::notEmpty()`. -/
def notEmpty (p : Position N) : Bool := p.node.isSome

end Position

/-- Source `emptyPosition()` of `dom_selection.cpp`: the default constructed Position. -/
def emptyPosition {N : Type} : Position N := ⟨none, 0⟩

/-- Modelled from the spec: the rectangle of the caret geometry cache (§4.5), a
(left, top, width, height) quadruple (`QRect`, not part of the sources). -/
structure QRect where
  left : Int
  top : Int
  width : Int
  height : Int
  deriving DecidableEq, Repr

/-- The default constructed rectangle `QRect()`. -/
def QRect.null : QRect := ⟨0, 0, 0, 0⟩

/-- Modelled from the spec: the "degenerate" test `QRect::isEmpty()` of §4.5, a rectangle
without extent in one direction. -/
def QRect.isEmpty (r : QRect) : Bool := decide (r.width ≤ 0 ∨ r.height ≤ 0)

/-- Source `Selection::EState`. -/
inductive EState where
  | NONE | CARET | RANGE
  deriving DecidableEq, Repr

/-- Source `EAffinity`. -/
inductive EAffinity where
  | UPSTREAM | DOWNSTREAM
  deriving DecidableEq, Repr

/-- Source `Selection::EAlter`. -/
inductive EAlter where
  | MOVE | EXTEND
  deriving DecidableEq, Repr

/-- Source `Selection::EDirection`. -/
inductive EDirection where
  | FORWARD | BACKWARD | RIGHT | LEFT
  deriving DecidableEq, Repr

/-- Source `ETextGranularity`. -/
inductive ETextGranularity where
  | CHARACTER | WORD | LINE | PARAGRAPH | DOCUMENT | LINE_BOUNDARY | PARAGRAPH_BOUNDARY
  deriving DecidableEq, Repr

/-- Source `Selection::EPositionType`. -/
inductive EPositionType where
  | START | END | BASE | EXTENT
  deriving DecidableEq, Repr

/-- The data members of `DOM::Selection`. -/
structure Selection (N : Type) where
  m_base : Position N
  m_extent : Position N
  m_start : Position N
  m_end : Position N
  m_state : EState
  m_affinity : EAffinity
  m_caretRect : QRect
  m_baseIsStart : Bool
  m_needsCaretLayout : Bool
  m_modifyBiasSet : Bool
  deriving DecidableEq, Repr

/-- An inline text run of a text renderer (`khtml::InlineTextBox`): its vertical
coordinate, the offset of its first character and its length. -/
structure InlineTextBox where
  m_y : Int
  m_start : Int
  m_len : Int
  deriving DecidableEq, Repr

/-- Modelled from the spec: an external range object (§6), the start and end
boundary points produced by `toRange()` (`dom2_range.h` is not part of the sources). -/
structure Range (N : Type) where
  startContainer : Option N
  startOffset : Int
  endContainer : Option N
  endOffset : Int
  deriving DecidableEq, Repr

/-- Source `Node::TEXT_NODE`. -/
def TEXT_NODE : Nat := 3

/-- Source `Node::CDATA_SECTION_NODE`. -/
def CDATA_SECTION_NODE : Nat := 4

/-- Modelled from the spec: the consumed capabilities of §6, none of which is
defined in the sources.  `N` are node handles, `R` render object handles and `C`
the values of the class `CaretPosition`.  A document is the node returned by
`getDocument()`; parts and views are numbered.
* node: `dom`, `nodeType`, `nodeValue`, `getDocument`, `documentElement`,
  `childNodeCount`, `enclosingBlockFlowElement`, `inDocument`, `renderer`, `part`, `view`;
* `Position` adapters: `equivalentDeepPosition`, `closestRenderedPosition`,
  `upstream` and `downstream` (the flag is `StayInBlock`),
  `equivalentRangeCompliantPosition`, the word and line steps;
* `CaretPosition`: construction from a Position, `next()`, `previous()`,
  `deepEquivalent()`, `isEmpty()`, and the paragraph boundary functions;
* the word classifier `findWordBoundary(text, length, offset) -> (start, end)`;
* the render collaborator: tree navigation of render objects, the inline runs of a
  text renderer in `firstTextBox()/nextTextBox()` order, `findNextInlineTextBox`
  and the caret rectangle.
`loopFuel` bounds the iterations of each loop over the node and render graphs. -/
structure World (N R C : Type) where
  dom : NodeAPI N
  loopFuel : Nat
  nodeType : N → Nat
  nodeValue : N → List Char
  getDocument : N → Option N
  documentElement : N → Option N
  childNodeCount : N → Nat
  enclosingBlockFlowElement : N → Option N
  inDocument : N → Bool
  renderer : N → Option R
  part : N → Option Nat
  view : N → Option Nat
  equivalentDeepPosition : Position N → Position N
  closestRenderedPosition : EAffinity → Position N → Position N
  upstream : Bool → Position N → Position N
  downstream : Bool → Position N → Position N
  equivalentRangeCompliantPosition : Position N → Position N
  nextWordPosition : Position N → Position N
  previousWordPosition : Position N → Position N
  nextLinePosition : Int → Position N → Position N
  previousLinePosition : Int → Position N → Position N
  caretPosition : Position N → C
  caretNext : C → C
  caretPrevious : C → C
  caretDeepEquivalent : C → Position N
  caretIsEmpty : C → Bool
  startParagraphBoundary : Position N → C
  endParagraphBoundary : Bool → Position N → C
  findWordBoundary : List Char → Nat → Int → Int × Int
  rIsInline : R → Bool
  rIsText : R → Bool
  rParent : R → Option R
  rFirstChild : R → Option R
  rLastChild : R → Option R
  rNextSibling : R → Option R
  rPreviousSibling : R → Option R
  rElement : R → Option N
  textBoxes : R → List InlineTextBox
  findNextInlineTextBox : R → Int → Option InlineTextBox
  caretRect : R → Int → QRect

/-- The flag value `StayInBlock` of `upstream` and `downstream`. -/
def StayInBlock : Bool := true

/-- The flag value `IncludeLineBreak` of `endParagraphBoundary`. -/
def IncludeLineBreak : Bool := true

namespace Selection

variable {N R C : Type}

/-- Source `Selection::init()` on a freshly constructed object (`m_caretRect` is the
default rectangle): the result of the constructor `Selection()`. -/
def init : Selection N where
  m_base := emptyPosition
  m_extent := emptyPosition
  m_start := emptyPosition
  m_end := emptyPosition
  m_state := .NONE
  m_affinity := .DOWNSTREAM
  m_caretRect := QRect.null
  m_baseIsStart := true
  m_needsCaretLayout := true
  m_modifyBiasSet := false

/-- Source `assignBase`. -/
def assignBase (s : Selection N) (pos : Position N) : Selection N := { s with m_base := pos }

/-- Source `assignExtent`. -/
def assignExtent (s : Selection N) (pos : Position N) : Selection N := { s with m_extent := pos }

/-- Source `assignBaseAndExtent`. -/
def assignBaseAndExtent (s : Selection N) (base extent : Position N) : Selection N :=
  { s with m_base := base, m_extent := extent }

/-- Source `assignStart`. -/
def assignStart (s : Selection N) (pos : Position N) : Selection N := { s with m_start := pos }

/-- Source `assignEnd`. -/
def assignEnd (s : Selection N) (pos : Position N) : Selection N := { s with m_end := pos }

/-- Source `assignStartAndEnd`. -/
def assignStartAndEnd (s : Selection N) (start end_ : Position N) : Selection N :=
  { s with m_start := start, m_end := end_ }

/-- Source `Selection::isEmpty()`: the state is `NONE`. -/
def isEmpty (s : Selection N) : Bool := decide (s.m_state = .NONE)

/-- Source `Selection::notEmpty()`. -/
def notEmpty (s : Selection N) : Bool := !s.isEmpty

end Selection

namespace Selection

variable {N R C : Type}

/-- The copy constructor `Selection(const Selection &o)`: `init()`, then the fields
of `o`; the rectangle is copied only if `o` has had a layout. -/
def copy (o : Selection N) : Selection N :=
  { m_base := o.m_base
    m_extent := o.m_extent
    m_start := o.m_start
    m_end := o.m_end
    m_state := o.m_state
    m_affinity := o.m_affinity
    m_caretRect := if !o.m_needsCaretLayout then o.m_caretRect else QRect.null
    m_baseIsStart := o.m_baseIsStart
    m_needsCaretLayout := o.m_needsCaretLayout
    m_modifyBiasSet := o.m_modifyBiasSet }

/-- The assignment `Selection::operator=(const Selection &o)` to the object `s`. -/
def assign (s o : Selection N) : Selection N :=
  { m_base := o.m_base
    m_extent := o.m_extent
    m_start := o.m_start
    m_end := o.m_end
    m_state := o.m_state
    m_affinity := o.m_affinity
    m_caretRect := if !o.m_needsCaretLayout then o.m_caretRect else s.m_caretRect
    m_baseIsStart := o.m_baseIsStart
    m_needsCaretLayout := o.m_needsCaretLayout
    m_modifyBiasSet := o.m_modifyBiasSet }

end Selection

section Validate

variable {N R C : Type} [DecidableEq N] [DecidableEq R]

/-- The expression `pos.node()->getDocument()->updateLayout()`: the two pointers are
dereferenced; the layout pass itself is part of the collaborators, whose answers
are those of the laid out document. -/
def updateLayout (w : World N R C) (pos : Position N) : Run Unit := do
  let n ← deref pos.node
  let _ ← deref (w.getDocument n)
  pure ()

/-- The expression `pos.equivalentDeepPosition().closestRenderedPosition(affinity())`. -/
def renderedPosition (w : World N R C) (affinity : EAffinity) (pos : Position N) : Position N :=
  w.closestRenderedPosition affinity (w.equivalentDeepPosition pos)

/-- Source `Selection::validate`, "Move the selection to rendered positions, if possible"
(the statements up to the dangling check). -/
def moveToRendered (w : World N R C) (s : Selection N) : Run (Selection N) := do
  let baseAndExtentEqual := decide (s.m_base = s.m_extent)
  let (s, updatedLayout) ←
    if s.m_base.notEmpty then do
      updateLayout w s.m_base
      let s := s.assignBase (renderedPosition w s.m_affinity s.m_base)
      let s := if baseAndExtentEqual then s.assignExtent s.m_base else s
      pure (s, true)
    else pure (s, false)
  if s.m_extent.notEmpty && !baseAndExtentEqual then do
    if !updatedLayout then updateLayout w s.m_extent
    pure (s.assignExtent (renderedPosition w s.m_affinity s.m_extent))
  else pure s

/-- Source `Selection::validate`, "Make sure we do not have a dangling start or end", and
the computation of `m_baseIsStart`. -/
def orderAnchors (w : World N R C) (originalBase : Position N) (s : Selection N) :
    Run (Selection N) :=
  if s.m_base.isEmpty && s.m_extent.isEmpty then
    let s :=
      if originalBase.notEmpty then
        let pos : Position N := ⟨originalBase.node.bind w.enclosingBlockFlowElement, 0⟩
        (s.assignBaseAndExtent pos pos).assignStartAndEnd pos pos
      else s.assignStartAndEnd emptyPosition emptyPosition
    .ok { s with m_baseIsStart := true }
  else if s.m_base.isEmpty then
    .ok { s.assignBase s.m_extent with m_baseIsStart := true }
  else if s.m_extent.isEmpty then
    .ok { s.assignExtent s.m_base with m_baseIsStart := true }
  else if s.m_base.node = s.m_extent.node then
    .ok { s with m_baseIsStart := if s.m_base.offset > s.m_extent.offset then false else true }
  else do
    let before ← nodeIsBeforeNode w.dom w.loopFuel s.m_base.node s.m_extent.node
    pure { s with m_baseIsStart := if before then true else false }

/-- The word offsets of `validate`, `case WORD`, for one anchor: both are the offset
of the anchor unless it sits on a text or CDATA node, where they come from
`findWordBoundary`. -/
def wordOffsets (w : World N R C) (pos : Position N) : Int × Int :=
  match pos.node with
  | some n =>
    if w.nodeType n = TEXT_NODE ∨ w.nodeType n = CDATA_SECTION_NODE then
      w.findWordBoundary (w.nodeValue n) (w.nodeValue n).length pos.offset
    else (pos.offset, pos.offset)
  | none => (pos.offset, pos.offset)

/-- The expression `CaretPosition(node, offset).deepEquivalent()`. -/
def caretDeep (w : World N R C) (node : Option N) (offset : Int) : Position N :=
  w.caretDeepEquivalent (w.caretPosition ⟨node, offset⟩)

/-- Source `Selection::validate`, "calculate the correct start and end positions": the
`switch (granularity)`.  `lineOf` is `selectionForLine`. -/
def expandStartEnd (w : World N R C) (lineOf : Position N → Run (Selection N)) :
    ETextGranularity → Selection N → Run (Selection N)
  | .CHARACTER, s =>
    if s.m_baseIsStart then .ok (s.assignStartAndEnd s.m_base s.m_extent)
    else .ok (s.assignStartAndEnd s.m_extent s.m_base)
  | .WORD, s =>
    let baseOffsets := wordOffsets w s.m_base
    let extentOffsets := wordOffsets w s.m_extent
    if s.m_baseIsStart then
      .ok ((s.assignStart (caretDeep w s.m_base.node baseOffsets.1)).assignEnd
        (caretDeep w s.m_extent.node extentOffsets.2))
    else
      .ok ((s.assignStart (caretDeep w s.m_extent.node extentOffsets.1)).assignEnd
        (caretDeep w s.m_base.node baseOffsets.2))
  | .LINE, s | .LINE_BOUNDARY, s => do
    let baseSelection := s.copy
    let extentSelection := s.copy
    let baseLine ← lineOf s.m_base
    let baseSelection := if baseLine.notEmpty then baseSelection.assign baseLine else baseSelection
    let extentLine ← lineOf s.m_extent
    let extentSelection :=
      if extentLine.notEmpty then extentSelection.assign extentLine else extentSelection
    if s.m_baseIsStart then
      pure ((s.assignStart baseSelection.m_start).assignEnd extentSelection.m_end)
    else
      pure ((s.assignStart extentSelection.m_start).assignEnd baseSelection.m_end)
  | .PARAGRAPH, s =>
    if s.m_baseIsStart then
      .ok ((s.assignStart (w.caretDeepEquivalent (w.startParagraphBoundary s.m_base))).assignEnd
        (w.caretDeepEquivalent (w.endParagraphBoundary IncludeLineBreak s.m_extent)))
    else
      .ok ((s.assignStart (w.caretDeepEquivalent (w.startParagraphBoundary s.m_extent))).assignEnd
        (w.caretDeepEquivalent (w.endParagraphBoundary IncludeLineBreak s.m_base)))
  | .DOCUMENT, s => do
    let n ← deref s.m_start.node
    let doc ← deref (w.getDocument n)
    let de := w.documentElement doc
    let s := s.assignStart (caretDeep w de 0)
    pure (s.assignEnd (caretDeep w de (match de with
      | some e => (w.childNodeCount e : Int)
      | none => 0)))
  | .PARAGRAPH_BOUNDARY, s =>
    if s.m_baseIsStart then
      .ok ((s.assignStart (w.caretDeepEquivalent (w.startParagraphBoundary s.m_base))).assignEnd
        (w.caretDeepEquivalent (w.endParagraphBoundary false s.m_extent)))
    else
      .ok ((s.assignStart (w.caretDeepEquivalent (w.startParagraphBoundary s.m_extent))).assignEnd
        (w.caretDeepEquivalent (w.endParagraphBoundary false s.m_base)))

/-- Source `Selection::validate`, "adjust the state", and the final
`m_needsCaretLayout = true`. -/
def adjustState (w : World N R C) (s : Selection N) : Selection N :=
  let s :=
    if s.m_start.isEmpty && s.m_end.isEmpty then { s with m_state := .NONE }
    else if s.m_start = s.m_end ∨
        w.upstream StayInBlock s.m_start = w.upstream StayInBlock s.m_end then
      { s with m_state := .CARET }
    else
      let s := { s with m_state := .RANGE }
      let s := s.assignStart (w.downstream StayInBlock s.m_start)
      s.assignEnd (w.upstream StayInBlock s.m_end)
  { s with m_needsCaretLayout := true }

/-- Source `Selection::validate(ETextGranularity granularity)` with the line resolver
`lineOf` in the place of `selectionForLine`: `selectionForLine` itself ends in the
constructor `Selection(start, end)`, which runs `validate()` at the default
granularity `CHARACTER`, whose case does not consult the line resolver. -/
def validateVia (w : World N R C) (lineOf : Position N → Run (Selection N))
    (granularity : ETextGranularity) (s : Selection N) : Run (Selection N) := do
  let originalBase := s.m_base
  let s ← moveToRendered w s
  let s ← orderAnchors w originalBase s
  let s ← expandStartEnd w lineOf granularity s
  pure (adjustState w s)

/-- Source `static Position startOfFirstRunAt(RenderObject *renderNode, int y)`; one unit
of fuel per visited render object. -/
def startOfFirstRunAt (w : World N R C) (y : Int) : Nat → Option R → Run (Position N)
  | 0, _ => .error .outOfFuel
  | _ + 1, none => .ok emptyPosition
  | fuel + 1, some n =>
    match (if w.rIsText n then (w.textBoxes n).find? (fun box => box.m_y == y) else none) with
    | some box => .ok ⟨w.rElement n, box.m_start⟩
    | none => do
      let position ← startOfFirstRunAt w y fuel (w.rFirstChild n)
      if position.notEmpty then pure position
      else startOfFirstRunAt w y fuel (w.rNextSibling n)

/-- The `while (1)` loop of `endOfLastRunAt`; `recurse` is the recursive call
`endOfLastRunAt(n->firstChild(), y)`. -/
def endOfLastRunLoop (w : World N R C) (y : Int) (renderNode : R)
    (recurse : Option R → Run (Position N)) : Nat → Option R → Run (Position N)
  | 0, _ => .error .outOfFuel
  | fuel + 1, n => do
    let x ← deref n
    let position ← recurse (w.rFirstChild x)
    if position.notEmpty then pure position
    else
      match (if w.rIsText x then (w.textBoxes x).reverse.find? (fun box => box.m_y == y)
          else none) with
      | some box => pure ⟨w.rElement x, box.m_start + box.m_len⟩
      | none =>
        if x = renderNode then pure emptyPosition
        else endOfLastRunLoop w y renderNode recurse fuel (w.rPreviousSibling x)

/-- Source `static Position endOfLastRunAt(RenderObject *renderNode, int y)`; one unit of
fuel per level of recursion, and `loopFuel` iterations for each loop. -/
def endOfLastRunAt (w : World N R C) (y : Int) : Nat → Option R → Run (Position N)
  | 0, _ => .error .outOfFuel
  | _ + 1, none => .ok emptyPosition
  | fuel + 1, some renderNode =>
    let n :=
      match w.rParent renderNode with
      | some parent => w.rLastChild parent
      | none => some renderNode
    endOfLastRunLoop w y renderNode (endOfLastRunAt w y fuel) w.loopFuel n

/-- The loop `while (renderNode && renderNode->isInline()) renderNode = renderNode->parent();`
of `selectionForLine`. -/
def firstNonInline (w : World N R C) : Nat → Option R → Run (Option R)
  | 0, _ => .error .outOfFuel
  | _ + 1, none => .ok none
  | fuel + 1, some r => if w.rIsInline r then firstNonInline w fuel (w.rParent r) else .ok (some r)

/-- The constructor `Selection(const Position &base, const Position &extent)` as
`selectionForLine` runs it. -/
def lineSelection (w : World N R C) (base extent : Position N) : Run (Selection N) :=
  validateVia w (fun _ => .ok Selection.init) .CHARACTER
    (Selection.init.assignBaseAndExtent base extent)

/-- Source `static Selection selectionForLine(const Position &position)`. -/
def selectionForLine (w : World N R C) (position : Position N) : Run (Selection N) :=
  match position.node with
  | none => .ok Selection.init
  | some node =>
    if w.nodeType node = TEXT_NODE ∨ w.nodeType node = CDATA_SECTION_NODE then do
      let renderer ← deref (w.renderer node)
      match w.findNextInlineTextBox renderer position.offset with
      | none => pure Selection.init
      | some run =>
        let selectionPointY := run.m_y
        let renderNode ← firstNonInline w w.loopFuel (some renderer)
        let renderNode ← deref renderNode
        let renderNode := w.rFirstChild renderNode
        let start ← startOfFirstRunAt w selectionPointY w.loopFuel renderNode
        if start.isEmpty then pure Selection.init
        else do
          let end_ ← endOfLastRunAt w selectionPointY w.loopFuel renderNode
          if end_.isEmpty then pure Selection.init
          else lineSelection w start end_
    else .ok Selection.init

/-- Source `Selection::validate(ETextGranularity granularity)`. -/
def validate (w : World N R C) (granularity : ETextGranularity) (s : Selection N) :
    Run (Selection N) :=
  validateVia w (selectionForLine w) granularity s

end Validate

section Operations

variable {N R C : Type} [DecidableEq N] [DecidableEq R]

/-- The constructor `Selection(const Position &pos)`. -/
def Selection.ofPosition (w : World N R C) (pos : Position N) : Run (Selection N) :=
  validate w .CHARACTER (Selection.init.assignBaseAndExtent pos pos)

/-- The constructor `Selection(const Range &r)`, for a range with boundary points. -/
def Selection.ofRange (w : World N R C) (r : Range N) : Run (Selection N) :=
  let start : Position N := ⟨r.startContainer, r.startOffset⟩
  let end_ : Position N := ⟨r.endContainer, r.endOffset⟩
  validate w .CHARACTER (Selection.init.assignBaseAndExtent start end_)

/-- The constructor `Selection(const Position &base, const Position &extent)`. -/
def Selection.ofBaseExtent (w : World N R C) (base extent : Position N) : Run (Selection N) :=
  validate w .CHARACTER (Selection.init.assignBaseAndExtent base extent)

/-- Source `Selection::moveTo(const Position &base, const Position &extent)`. -/
def moveTo (w : World N R C) (base extent : Position N) (s : Selection N) : Run (Selection N) :=
  validate w .CHARACTER (s.assignBaseAndExtent base extent)

/-- Source `Selection::moveTo(const Position &pos)`. -/
def moveToPosition (w : World N R C) (pos : Position N) (s : Selection N) : Run (Selection N) :=
  moveTo w pos pos s

/-- Source `Selection::moveTo(const Selection &o)`. -/
def moveToSelection (w : World N R C) (o : Selection N) (s : Selection N) : Run (Selection N) :=
  moveTo w o.m_start o.m_end s

/-- Source `Selection::moveTo(const Range &r)`. -/
def moveToRange (w : World N R C) (r : Range N) (s : Selection N) : Run (Selection N) :=
  moveTo w ⟨r.startContainer, r.startOffset⟩ ⟨r.endContainer, r.endOffset⟩ s

/-- Source `Selection::clear()`. -/
def clear (w : World N R C) (s : Selection N) : Run (Selection N) :=
  validate w .CHARACTER (s.assignBaseAndExtent emptyPosition emptyPosition)

/-- Source `Selection::setBase`. -/
def setBase (w : World N R C) (pos : Position N) (s : Selection N) : Run (Selection N) :=
  validate w .CHARACTER (s.assignBase pos)

/-- Source `Selection::setExtent`. -/
def setExtent (w : World N R C) (pos : Position N) (s : Selection N) : Run (Selection N) :=
  validate w .CHARACTER (s.assignExtent pos)

/-- Source `Selection::setBaseAndExtent`. -/
def setBaseAndExtent (w : World N R C) (base extent : Position N) (s : Selection N) :
    Run (Selection N) :=
  validate w .CHARACTER (s.assignBaseAndExtent base extent)

/-- Source `Selection::setStart`. -/
def setStart (w : World N R C) (pos : Position N) (s : Selection N) : Run (Selection N) :=
  validate w .CHARACTER (s.assignStart pos)

/-- Source `Selection::setEnd`. -/
def setEnd (w : World N R C) (pos : Position N) (s : Selection N) : Run (Selection N) :=
  validate w .CHARACTER (s.assignEnd pos)

/-- Source `Selection::setStartAndEnd`. -/
def setStartAndEnd (w : World N R C) (start end_ : Position N) (s : Selection N) :
    Run (Selection N) :=
  validate w .CHARACTER (s.assignStartAndEnd start end_)

/-- Source `Selection::setAffinity`. -/
def setAffinity (affinity : EAffinity) (s : Selection N) : Selection N :=
  if affinity = s.m_affinity then s
  else { s with m_affinity := affinity, m_needsCaretLayout := true }

/-- Modelled from the spec: the per-document cached "x position for vertical
navigation" owned by the view collaborator (§4.4, §6): the value stored for each
part, the newest entry first; no entry is `NoXPosForVerticalArrowNavigation`. -/
abbrev PartCache := List (Nat × Int)

/-- Source `Selection::xPosForVerticalArrowNavigation(EPositionType type, bool recalc) const`;
the cache of the part is the only thing it writes. -/
def xPosForVerticalArrowNavigation (w : World N R C) (s : Selection N) (type : EPositionType)
    (recalc : Bool) (cache : PartCache) : Run (Int × PartCache) :=
  if s.m_state = .NONE then .ok (0, cache)
  else do
    let pos :=
      match type with
      | .START => s.m_start
      | .END => s.m_end
      | .BASE => s.m_base
      | .EXTENT => s.m_extent
    let n ← deref pos.node
    let doc ← deref (w.getDocument n)
    match w.part doc with
    | none => pure (0, cache)
    | some part =>
      if recalc || (cache.lookup part).isNone then do
        let r ← deref (w.renderer n)
        let x := (w.caretRect r pos.offset).left
        pure (x, (part, x) :: cache)
      else pure ((cache.lookup part).getD 0, cache)

/-- The `case DOCUMENT` of the forward helpers: `CaretPosition(de, de ? de->childNodeCount() : 0)`
for the document element `de` of the document of `start().node()`. -/
def documentEnd (w : World N R C) (s : Selection N) : Run C := do
  let n ← deref s.m_start.node
  let doc ← deref (w.getDocument n)
  let de := w.documentElement doc
  pure (w.caretPosition ⟨de, match de with
    | some e => (w.childNodeCount e : Int)
    | none => 0⟩)

/-- The `case DOCUMENT` of the backward helpers:
`CaretPosition(start().node()->getDocument()->documentElement(), 0)`. -/
def documentStart (w : World N R C) (s : Selection N) : Run C := do
  let n ← deref s.m_start.node
  let doc ← deref (w.getDocument n)
  pure (w.caretPosition ⟨w.documentElement doc, 0⟩)

/-- Source `Selection::modifyExtendingRightForward`: the candidate, the Selection as the
helper leaves it, and the cache of the part. -/
def modifyExtendingRightForward (w : World N R C) (granularity : ETextGranularity)
    (s : Selection N) (cache : PartCache) : Run (C × Selection N × PartCache) := do
  let s :=
    if !s.m_modifyBiasSet then
      { s with m_modifyBiasSet := true }.assignBaseAndExtent s.m_start s.m_end
    else s
  let pos := w.caretPosition s.m_extent
  match granularity with
  | .CHARACTER => pure (w.caretNext pos, s, cache)
  | .WORD =>
    pure (w.caretPosition (w.nextWordPosition (w.caretDeepEquivalent pos)), s, cache)
  | .PARAGRAPH | .LINE => do
    let (x, cache) ← xPosForVerticalArrowNavigation w s .EXTENT false cache
    pure (w.caretPosition (w.nextLinePosition x (w.caretDeepEquivalent pos)), s, cache)
  | .DOCUMENT => do
    let pos ← documentEnd w s
    pure (pos, s, cache)
  | .LINE_BOUNDARY => do
    let line ← selectionForLine w s.m_end
    pure (w.caretPosition line.m_end, s, cache)
  | .PARAGRAPH_BOUNDARY => pure (w.endParagraphBoundary false s.m_end, s, cache)

/-- Source `Selection::modifyMovingRightForward`. -/
def modifyMovingRightForward (w : World N R C) (granularity : ETextGranularity)
    (s : Selection N) (cache : PartCache) : Run (C × Selection N × PartCache) := do
  let s := { s with m_modifyBiasSet := false }
  match granularity with
  | .CHARACTER =>
    if s.m_state = .RANGE then pure (w.caretPosition s.m_end, s, cache)
    else pure (w.caretNext (w.caretPosition s.m_extent), s, cache)
  | .WORD => pure (w.caretPosition (w.nextWordPosition s.m_extent), s, cache)
  | .PARAGRAPH | .LINE => do
    let (x, cache) ← xPosForVerticalArrowNavigation w s .END (decide (s.m_state = .RANGE)) cache
    pure (w.caretPosition (w.nextLinePosition x s.m_end), s, cache)
  | .DOCUMENT => do
    let pos ← documentEnd w s
    pure (pos, s, cache)
  | .LINE_BOUNDARY => do
    let line ← selectionForLine w s.m_end
    pure (w.caretPosition line.m_end, s, cache)
  | .PARAGRAPH_BOUNDARY => pure (w.endParagraphBoundary false s.m_end, s, cache)

/-- Source `Selection::modifyExtendingLeftBackward`. -/
def modifyExtendingLeftBackward (w : World N R C) (granularity : ETextGranularity)
    (s : Selection N) (cache : PartCache) : Run (C × Selection N × PartCache) := do
  let s :=
    if !s.m_modifyBiasSet then
      { s with m_modifyBiasSet := true }.assignBaseAndExtent s.m_end s.m_start
    else s
  let pos := w.caretPosition s.m_extent
  match granularity with
  | .CHARACTER => pure (w.caretPrevious pos, s, cache)
  | .WORD =>
    pure (w.caretPosition (w.previousWordPosition (w.caretDeepEquivalent pos)), s, cache)
  | .PARAGRAPH | .LINE => do
    let (x, cache) ← xPosForVerticalArrowNavigation w s .EXTENT false cache
    pure (w.caretPosition (w.previousLinePosition x (w.caretDeepEquivalent pos)), s, cache)
  | .DOCUMENT => do
    let pos ← documentStart w s
    pure (pos, s, cache)
  | .LINE_BOUNDARY => do
    let line ← selectionForLine w s.m_start
    pure (w.caretPosition line.m_start, s, cache)
  | .PARAGRAPH_BOUNDARY => pure (w.startParagraphBoundary s.m_start, s, cache)

/-- Source `Selection::modifyMovingLeftBackward`. -/
def modifyMovingLeftBackward (w : World N R C) (granularity : ETextGranularity)
    (s : Selection N) (cache : PartCache) : Run (C × Selection N × PartCache) := do
  let s := { s with m_modifyBiasSet := false }
  match granularity with
  | .CHARACTER =>
    if s.m_state = .RANGE then pure (w.caretPosition s.m_start, s, cache)
    else pure (w.caretPrevious (w.caretPosition s.m_extent), s, cache)
  | .WORD => pure (w.caretPosition (w.previousWordPosition s.m_extent), s, cache)
  | .PARAGRAPH | .LINE => do
    let (x, cache) ← xPosForVerticalArrowNavigation w s .START (decide (s.m_state = .RANGE)) cache
    pure (w.caretPosition (w.previousLinePosition x s.m_start), s, cache)
  | .DOCUMENT => do
    let pos ← documentStart w s
    pure (pos, s, cache)
  | .LINE_BOUNDARY => do
    let line ← selectionForLine w s.m_start
    pure (w.caretPosition line.m_start, s, cache)
  | .PARAGRAPH_BOUNDARY =>
    pure (w.caretPosition (w.caretDeepEquivalent (w.startParagraphBoundary s.m_start)), s, cache)

/-- Source `Selection::modify`, the `switch (dir)`: the candidate position `pos` with the
Selection and the cache as the helper leaves them. -/
def modifyCandidate (w : World N R C) (alter : EAlter) (dir : EDirection)
    (granularity : ETextGranularity) (s : Selection N) (cache : PartCache) :
    Run (C × Selection N × PartCache) :=
  match dir with
  | .RIGHT | .FORWARD =>
    if alter = .EXTEND then modifyExtendingRightForward w granularity s cache
    else modifyMovingRightForward w granularity s cache
  | .LEFT | .BACKWARD =>
    if alter = .EXTEND then modifyExtendingLeftBackward w granularity s cache
    else modifyMovingLeftBackward w granularity s cache

/-- Source `Selection::modify(EAlter alter, EDirection dir, ETextGranularity granularity)`:
the returned `bool`, the Selection and the cache of the part after the call. -/
def modify (w : World N R C) (alter : EAlter) (dir : EDirection)
    (granularity : ETextGranularity) (s : Selection N) (cache : PartCache) :
    Run (Bool × Selection N × PartCache) := do
  let (pos, s, cache) ← modifyCandidate w alter dir granularity s cache
  if w.caretIsEmpty pos then pure (false, s, cache)
  else if alter = .MOVE then do
    let s ← moveToPosition w (w.caretDeepEquivalent pos) s
    pure (true, s, cache)
  else do
    let s ← setExtent w (w.caretDeepEquivalent pos) s
    pure (true, s, cache)

/-- Source `Selection::expandUsingGranularity`: the returned `bool` and the Selection. -/
def expandUsingGranularity (w : World N R C) (granularity : ETextGranularity)
    (s : Selection N) : Run (Bool × Selection N) :=
  if s.m_state = .NONE then .ok (false, s)
  else do
    let s ← validate w granularity s
    pure (true, s)

/-- Source `Selection::toRange() const`; `none` is the null range `Range()` returned for
an empty Selection. -/
def toRange (w : World N R C) (sel : Selection N) : Run (Option (Range N)) :=
  if sel.isEmpty then .ok none
  else do
    updateLayout w sel.m_start
    if sel.m_state = .CARET then
      let s := w.equivalentRangeCompliantPosition (w.upstream false sel.m_start)
      let e := s
      pure (some ⟨s.node, s.offset, e.node, e.offset⟩)
    else do
      let s := w.downstream false sel.m_start
      let e := w.upstream false sel.m_end
      let swap ←
        if s.node = e.node ∧ s.offset > e.offset then pure true
        else do
          let before ← nodeIsBeforeNode w.dom w.loopFuel s.node e.node
          pure (!before)
      let (s, e) := if swap then (e, s) else (s, e)
      let s := w.equivalentRangeCompliantPosition s
      let e := w.equivalentRangeCompliantPosition e
      pure (some ⟨s.node, s.offset, e.node, e.offset⟩)

end Operations

/-! ## The caret geometry cache -/

section CaretGeometry

variable {N R C : Type} [DecidableEq N] [DecidableEq R]

/-- Source `Selection::layoutCaret()`. -/
def layoutCaret (w : World N R C) (s : Selection N) : Run (Selection N) :=
  if s.m_state ≠ .CARET ∨ s.isEmpty = true then .ok { s with m_caretRect := QRect.null }
  else do
    let n ← deref s.m_start.node
    if !w.inDocument n then pure { s with m_caretRect := QRect.null }
    else do
      let r ← deref (w.renderer n)
      pure { s with m_caretRect := w.caretRect r s.m_start.offset, m_needsCaretLayout := false }

/-- Source `Selection::getRepaintRect() const`: the returned rectangle, and the Selection,
which the `const_cast` call of `layoutCaret()` may have written. -/
def getRepaintRect (w : World N R C) (s : Selection N) : Run (QRect × Selection N) := do
  let s ← if s.m_needsCaretLayout then layoutCaret w s else pure s
  if s.m_caretRect.isEmpty then pure (QRect.null, s)
  else
    pure (⟨s.m_caretRect.left - 1, s.m_caretRect.top - 1, s.m_caretRect.width + 2,
      s.m_caretRect.height + 2⟩, s)

/-- Source `Selection::needsCaretRepaint()`: the Selection after the call and the rectangles
passed to `v->updateContents(rect, false)`, in the order of the calls. -/
def needsCaretRepaint (w : World N R C) (s : Selection N) : Run (Selection N × List QRect) :=
  if s.isEmpty then .ok (s, [])
  else do
    let n ← deref s.m_start.node
    match w.getDocument n with
    | none => pure (s, [])
    | some doc =>
      match w.view doc with
      | none => pure (s, [])
      | some _ => do
        let (s, updates) ←
          if s.m_needsCaretLayout then do
            let (old, s) ← getRepaintRect w s
            let s ← layoutCaret w s
            pure ({ s with m_needsCaretLayout := true }, [old])
          else pure (s, [])
        let (current, s) ← getRepaintRect w s
        pure (s, updates ++ [current])

end CaretGeometry

/-- Source `Selection::setNeedsLayout(bool flag)`. -/
def setNeedsLayout {N : Type} (flag : Bool) (s : Selection N) : Selection N :=
  { s with m_needsCaretLayout := flag }

/-- Source `Selection::toRange() const`, the Range branch up to the swap: the pair `(s, e)`
as it is handed to `equivalentRangeCompliantPosition()`. -/
def toRangeEnds {N R C : Type} [DecidableEq N] (w : World N R C) (sel : Selection N) :
    Run (Position N × Position N) := do
  let s := w.downstream false sel.m_start
  let e := w.upstream false sel.m_end
  let swap ←
    if s.node = e.node ∧ s.offset > e.offset then pure true
    else do
      let before ← nodeIsBeforeNode w.dom w.loopFuel s.node e.node
      pure (!before)
  pure (if swap then (e, s) else (s, e))

/-! ## A sample document -/

/-- The tree `document(block(textA, b(textB), textC))`: the document node is `[]`,
the block `[0]`, the text nodes `[0,0]`, `[0,1,0]` and `[0,2]`. -/
def sampleTree : Tree :=
  ⟨.cons (.cons .nil (.cons (.cons .nil .nil) (.cons .nil .nil))) .nil⟩

/-- Text of the nodes of the sample document. -/
def sampleText : List Nat → List Char
  | [0, 0] => "The quick fox".toList
  | [0, 1, 0] => "jumps".toList
  | [0, 2] => "a   b".toList
  | _ => []

/-- The text nodes of the sample document. -/
def sampleIsText (n : List Nat) : Bool := n = [0, 0] ∨ n = [0, 1, 0] ∨ n = [0, 2]

/-- The text node after a text node of the sample document, in document order. -/
def sampleNextText : List Nat → Option (List Nat)
  | [0, 0] => some [0, 1, 0]
  | [0, 1, 0] => some [0, 2]
  | _ => none

/-- The text node before a text node of the sample document, in document order. -/
def samplePrevText : List Nat → Option (List Nat)
  | [0, 1, 0] => some [0, 0]
  | [0, 2] => some [0, 1, 0]
  | _ => none

/-- A character class for the sample word classifier: letters and digits, blanks,
anything else. -/
def charClass (c : Char) : Nat :=
  if c.isAlphanum then 0 else if c = ' ' then 1 else 2

/-- A word classifier for the sample document: the maximal run of characters of one
class around the character at `offset`, as `[start, end)`. -/
def sampleWordBoundary (text : List Char) (len : Nat) (offset : Int) : Int × Int :=
  let i := offset.toNat
  match text.get? i with
  | none => (offset, offset)
  | some c =>
    let before := ((text.take i).reverse.takeWhile (fun d => charClass d = charClass c)).length
    let after := ((text.drop i).takeWhile (fun d => charClass d = charClass c)).length
    (((i - before : Nat) : Int), ((min (i + after) len : Nat) : Int))

/-- The next caret position of the sample document: one character on, into the
following text node at the end of a node, empty at the end of the document. -/
def sampleNext (p : Position (List Nat)) : Position (List Nat) :=
  match p.node with
  | none => emptyPosition
  | some n =>
    if p.offset < (sampleText n).length then ⟨some n, p.offset + 1⟩
    else
      match sampleNextText n with
      | some m => ⟨some m, 1⟩
      | none => emptyPosition

/-- The previous caret position of the sample document. -/
def samplePrevious (p : Position (List Nat)) : Position (List Nat) :=
  match p.node with
  | none => emptyPosition
  | some n =>
    if 0 < p.offset then ⟨some n, p.offset - 1⟩
    else
      match samplePrevText n with
      | some m => ⟨some m, ((sampleText m).length : Int) - 1⟩
      | none => emptyPosition

/-- The sample world: the sample document, rendered on one line, every text
position rendered, with Position adapters that leave every position where it is.
Render objects are named like their nodes, a `CaretPosition` is its deep
position. -/
def sampleWorld : World (List Nat) (List Nat) (Position (List Nat)) where
  dom := sampleTree.api
  loopFuel := sampleTree.fuel
  nodeType n := if sampleIsText n then TEXT_NODE else if n = [] then 9 else 1
  nodeValue := sampleText
  getDocument _ := some []
  documentElement _ := some [0]
  childNodeCount n := if n = [] then 1 else if n = [0] then 3 else if n = [0, 1] then 1 else 0
  enclosingBlockFlowElement _ := some [0]
  inDocument _ := true
  renderer n := some n
  part _ := some 0
  view _ := some 0
  equivalentDeepPosition p := p
  closestRenderedPosition _ p := p
  upstream _ p := p
  downstream _ p := p
  equivalentRangeCompliantPosition p := p
  nextWordPosition p := p
  previousWordPosition p := p
  nextLinePosition _ _ := emptyPosition
  previousLinePosition _ _ := emptyPosition
  caretPosition p := p
  caretNext := sampleNext
  caretPrevious := samplePrevious
  caretDeepEquivalent p := p
  caretIsEmpty p := p.isEmpty
  startParagraphBoundary p := ⟨p.node, 0⟩
  endParagraphBoundary _ p := p
  findWordBoundary := sampleWordBoundary
  rIsInline r := decide (r ≠ [] ∧ r ≠ [0])
  rIsText := sampleIsText
  rParent := sampleTree.api.parentNode
  rFirstChild := sampleTree.api.firstChild
  rLastChild r := if r = [] then some [0] else if r = [0] then some [0, 2]
    else if r = [0, 1] then some [0, 1, 0] else none
  rNextSibling := sampleTree.api.nextSibling
  rPreviousSibling r := if r = [0, 1] then some [0, 0] else if r = [0, 2] then some [0, 1] else none
  rElement r := some r
  textBoxes r := if sampleIsText r then [⟨0, 0, (sampleText r).length⟩] else []
  findNextInlineTextBox r _ := if sampleIsText r then some ⟨0, 0, (sampleText r).length⟩ else none
  caretRect _ offset := ⟨offset, 0, 1, 10⟩

/-- The Selection as the four helpers of `modify` leave it before the candidate is
looked at: the `Moving` helpers clear `m_modifyBiasSet`; the `Extending` helpers,
when the flag is clear, set it and assign (base, extent) from (start, end) forward
and from (end, start) backward, and change nothing when the flag is set. -/
def modifyBias {N : Type} (alter : EAlter) (dir : EDirection) (s : Selection N) : Selection N :=
  match alter with
  | .MOVE => { s with m_modifyBiasSet := false }
  | .EXTEND =>
    if s.m_modifyBiasSet then s
    else
      match dir with
      | .RIGHT | .FORWARD =>
        { s with m_modifyBiasSet := true }.assignBaseAndExtent s.m_start s.m_end
      | .LEFT | .BACKWARD =>
        { s with m_modifyBiasSet := true }.assignBaseAndExtent s.m_end s.m_start

/-- What `validate` establishes for the anchors before it computes start and end:
base and extent are both empty (and `m_baseIsStart` is set), or both are not, and
then `m_baseIsStart` is the outcome of the offset comparison on one node and of
`nodeIsBeforeNode(base.node, extent.node)` on two. -/
def AnchorsOrdered {N R C : Type} [DecidableEq N] (w : World N R C) (s : Selection N) : Prop :=
  (s.m_base.isEmpty = true ∧ s.m_extent.isEmpty = true ∧ s.m_baseIsStart = true) ∨
  (s.m_base.notEmpty = true ∧ s.m_extent.notEmpty = true ∧
    ((s.m_base.node = s.m_extent.node ∧
        s.m_baseIsStart = (if s.m_base.offset > s.m_extent.offset then false else true)) ∨
      (s.m_base.node ≠ s.m_extent.node ∧
        nodeIsBeforeNode w.dom w.loopFuel s.m_base.node s.m_extent.node = .ok s.m_baseIsStart)))


/-- The Selection built by `Selection(Position([0,2], 5), Position([0,2], 3))` in the
sample world: base after extent in the last text node, whose text ends at offset 5. -/
def backwardSelection : Selection (List Nat) where
  m_base := ⟨some [0, 2], 5⟩
  m_extent := ⟨some [0, 2], 3⟩
  m_start := ⟨some [0, 2], 3⟩
  m_end := ⟨some [0, 2], 5⟩
  m_state := .RANGE
  m_affinity := .DOWNSTREAM
  m_caretRect := QRect.null
  m_baseIsStart := false
  m_needsCaretLayout := true
  m_modifyBiasSet := false


/-- A caret of the sample document: the Selection that `Selection(Position(n, offset))`
builds in the sample world for a text position. -/
def caretAt (n : List Nat) (offset : Int) : Selection (List Nat) where
  m_base := ⟨some n, offset⟩
  m_extent := ⟨some n, offset⟩
  m_start := ⟨some n, offset⟩
  m_end := ⟨some n, offset⟩
  m_state := .CARET
  m_affinity := .DOWNSTREAM
  m_caretRect := QRect.null
  m_baseIsStart := true
  m_needsCaretLayout := true
  m_modifyBiasSet := false

/-- A range of the sample document with base before extent, as `validate` leaves it
in the sample world. -/
def rangeOf (n : List Nat) (offset : Int) (m : List Nat) (offset2 : Int) :
    Selection (List Nat) where
  m_base := ⟨some n, offset⟩
  m_extent := ⟨some m, offset2⟩
  m_start := ⟨some n, offset⟩
  m_end := ⟨some m, offset2⟩
  m_state := .RANGE
  m_affinity := .DOWNSTREAM
  m_caretRect := QRect.null
  m_baseIsStart := true
  m_needsCaretLayout := true
  m_modifyBiasSet := false

/-- The sample world with a `downstream(StayInBlock)` that carries the end of textA
to the start of textC, past textB. -/
def crossingWorld : World (List Nat) (List Nat) (Position (List Nat)) :=
  { sampleWorld with
    downstream := fun stay p =>
      if stay = true ∧ p = ⟨some [0, 0], 13⟩ then ⟨some [0, 2], 0⟩ else p }


/-- A range of the sample document with extent before base, as `validate` leaves it
in the sample world: start and end are `(n, offset)` and `(m, offset2)`. -/
def reverseRangeOf (n : List Nat) (offset : Int) (m : List Nat) (offset2 : Int) :
    Selection (List Nat) :=
  { rangeOf n offset m offset2 with
    m_base := ⟨some m, offset2⟩, m_extent := ⟨some n, offset⟩, m_baseIsStart := false }

/-- The sample world for a document that has no document element. -/
def noElementWorld : World (List Nat) (List Nat) (Position (List Nat)) :=
  { sampleWorld with documentElement := fun _ => none }

/-- The Selections reachable through the constructors and the public operations of
`Selection`, in a fixed world; `allow g` says whether `expandUsingGranularity` may be
called with the granularity `g`. -/
inductive Reachable {N R C : Type} [DecidableEq N] [DecidableEq R] (w : World N R C)
    (allow : ETextGranularity → Bool) : Selection N → Prop where
  | init : Reachable w allow Selection.init
  | ofPosition (pos : Position N) (s' : Selection N) :
      Selection.ofPosition w pos = .ok s' → Reachable w allow s'
  | ofRange (r : Range N) (s' : Selection N) :
      Selection.ofRange w r = .ok s' → Reachable w allow s'
  | ofBaseExtent (base extent : Position N) (s' : Selection N) :
      Selection.ofBaseExtent w base extent = .ok s' → Reachable w allow s'
  | copy (s : Selection N) : Reachable w allow s → Reachable w allow s.copy
  | assign (s o : Selection N) :
      Reachable w allow s → Reachable w allow o → Reachable w allow (s.assign o)
  | setAffinity (a : EAffinity) (s : Selection N) :
      Reachable w allow s → Reachable w allow (setAffinity a s)
  | moveTo (base extent : Position N) (s s' : Selection N) :
      Reachable w allow s → moveTo w base extent s = .ok s' → Reachable w allow s'
  | clear (s s' : Selection N) : Reachable w allow s → clear w s = .ok s' → Reachable w allow s'
  | setBase (pos : Position N) (s s' : Selection N) :
      Reachable w allow s → setBase w pos s = .ok s' → Reachable w allow s'
  | setExtent (pos : Position N) (s s' : Selection N) :
      Reachable w allow s → setExtent w pos s = .ok s' → Reachable w allow s'
  | setBaseAndExtent (base extent : Position N) (s s' : Selection N) :
      Reachable w allow s → setBaseAndExtent w base extent s = .ok s' → Reachable w allow s'
  | setStart (pos : Position N) (s s' : Selection N) :
      Reachable w allow s → setStart w pos s = .ok s' → Reachable w allow s'
  | setEnd (pos : Position N) (s s' : Selection N) :
      Reachable w allow s → setEnd w pos s = .ok s' → Reachable w allow s'
  | setStartAndEnd (start end_ : Position N) (s s' : Selection N) :
      Reachable w allow s → setStartAndEnd w start end_ s = .ok s' → Reachable w allow s'
  | modify (alter : EAlter) (dir : EDirection) (g : ETextGranularity) (s s' : Selection N)
      (cache c' : PartCache) (r : Bool) :
      Reachable w allow s → modify w alter dir g s cache = .ok (r, s', c') →
      Reachable w allow s'
  | expandUsingGranularity (g : ETextGranularity) (s s' : Selection N) (r : Bool) :
      allow g = true → Reachable w allow s → expandUsingGranularity w g s = .ok (r, s') →
      Reachable w allow s'


/-- The sample world with a rendered-position resolution that is not idempotent:
`closestRenderedPosition` moves `(textC, 2)` to `(textC, 3)` and `(textC, 3)` to
`(textC, 4)`. -/
def driftingWorld : World (List Nat) (List Nat) (Position (List Nat)) :=
  { sampleWorld with
    closestRenderedPosition := fun _ p =>
      if p = ⟨some [0, 2], 2⟩ then ⟨some [0, 2], 3⟩
      else if p = ⟨some [0, 2], 3⟩ then ⟨some [0, 2], 4⟩ else p }


/-- The Selection that `expandUsingGranularity(WORD)` leaves from the caret at offset 5
of "The quick fox" in the sample world: the word "quick". -/
def quickWord : Selection (List Nat) :=
  { caretAt [0, 0] 5 with
    m_start := ⟨some [0, 0], 4⟩, m_end := ⟨some [0, 0], 9⟩, m_state := .RANGE }


/-- The sample world with `upstream` and `downstream` at the seam between textA and
textB: the start of textB is the same visible place as the end of textA, which is
its upstream position, and the end of textA has the start of textB as its downstream
position. -/
def seamWorld : World (List Nat) (List Nat) (Position (List Nat)) :=
  { sampleWorld with
    upstream := fun _ p => if p = ⟨some [0, 1, 0], 0⟩ then ⟨some [0, 0], 13⟩ else p
    downstream := fun _ p => if p = ⟨some [0, 0], 13⟩ then ⟨some [0, 1, 0], 0⟩ else p }

/-- The Position adapters met on the way through `toRange()` and back through the
constructor leave the position where it is: `upstream` and `downstream`, with and
without `StayInBlock`, `equivalentRangeCompliantPosition`, and the rendered-position
resolution of a new Selection (affinity `DOWNSTREAM`). -/
def Settled {N R C : Type} (w : World N R C) (p : Position N) : Prop :=
  w.upstream false p = p ∧ w.upstream StayInBlock p = p ∧ w.downstream false p = p ∧
    w.downstream StayInBlock p = p ∧ w.equivalentRangeCompliantPosition p = p ∧
    renderedPosition w .DOWNSTREAM p = p


/-- One next-character step as `modify(EXTEND, FORWARD, CHARACTER)` takes it from the
extent: `CaretPosition(extent).next().deepEquivalent()`. -/
def nextCharacter {N R C : Type} (w : World N R C) (p : Position N) : Position N :=
  w.caretDeepEquivalent (w.caretNext (w.caretPosition p))

/-- The Range that `modify(EXTEND, FORWARD, CHARACTER)` leaves in `seamWorld` after
extending from the end of textA to offset `k` of textB. -/
def seamRange (k : Int) : Selection (List Nat) :=
  { rangeOf [0, 0] 13 [0, 1, 0] k with
    m_start := ⟨some [0, 1, 0], 0⟩, m_modifyBiasSet := true }


/-- The sample world with the blanks of textC, "a   b", collapsed to one rendered blank:
the characters at offsets 2 and 3 are not rendered, so the positions at offsets 3 and 4
have the position at offset 2 as their upstream position, and those at offsets 2 and 3
the position at offset 4 as their downstream position. -/
def collapsedWorld : World (List Nat) (List Nat) (Position (List Nat)) :=
  { sampleWorld with
    upstream := fun _ p =>
      if p = ⟨some [0, 2], 3⟩ ∨ p = ⟨some [0, 2], 4⟩ then ⟨some [0, 2], 2⟩ else p
    downstream := fun _ p =>
      if p = ⟨some [0, 2], 2⟩ ∨ p = ⟨some [0, 2], 3⟩ then ⟨some [0, 2], 4⟩ else p }

/-- The Selection that `Selection(Position(textA, 13), Position(textB, 0))` builds in
`seamWorld`: the two anchors are the same visible place, on either side of the seam. -/
def seamCaret : Selection (List Nat) :=
  { caretAt [0, 0] 13 with m_extent := ⟨some [0, 1, 0], 0⟩, m_end := ⟨some [0, 1, 0], 0⟩ }

/-- The next word position of the sample document: the end of the run of characters of
one class that starts at the position. -/
def sampleNextWord (p : Position (List Nat)) : Position (List Nat) :=
  match p.node with
  | none => emptyPosition
  | some n => ⟨some n, (sampleWordBoundary (sampleText n) (sampleText n).length p.offset).2⟩

/-- The sample world with a word step: `nextWordPosition` is the end of the run of
characters around the position. -/
def wordWorld : World (List Nat) (List Nat) (Position (List Nat)) :=
  { sampleWorld with nextWordPosition := sampleNextWord }

/-- The candidate and the cache of the part that a helper of `modify` returns, without the
Selection. -/
def candidatePart {N C : Type} (r : Run (C × Selection N × PartCache)) : Run (C × PartCache) :=
  match r with
  | .ok x => .ok (x.1, x.2.2)
  | .error e => .error e

/-- The position is not on text content: its node is absent, or is neither a TEXT nor a
CDATA node. -/
def offText {N R C : Type} (w : World N R C) (p : Position N) : Prop :=
  ∀ n, p.node = some n → w.nodeType n ≠ TEXT_NODE ∧ w.nodeType n ≠ CDATA_SECTION_NODE

/-- The sample world in which textB has no renderer. -/
def unrenderedWorld : World (List Nat) (List Nat) (Position (List Nat)) :=
  { sampleWorld with renderer := fun n => if n = [0, 1, 0] then none else some n }

/-- The sample world in which every render object, up to the root, is inline. -/
def inlineWorld : World (List Nat) (List Nat) (Position (List Nat)) :=
  { sampleWorld with rIsInline := fun _ => true }

/-- The caret at offset 3 of "The quick fox" after `layoutCaret()`: the rectangle of
offset 3 is cached. -/
def laidOutCaret : Selection (List Nat) :=
  { caretAt [0, 0] 3 with m_caretRect := ⟨3, 0, 1, 10⟩, m_needsCaretLayout := false }

/-- The caret `laidOutCaret` after `moveTo(Position(textA, 5))`: the caret is at offset 5,
the cached rectangle is still that of offset 3, and `m_needsCaretLayout` is set. -/
def movedCaret : Selection (List Nat) :=
  { caretAt [0, 0] 5 with m_caretRect := ⟨3, 0, 1, 10⟩ }

/-- The node is `k` parent links below a node without parent. -/
inductive HasDepth {N : Type} (api : NodeAPI N) : N → Nat → Prop where
  | root (n : N) : api.parentNode n = none → HasDepth api n 0
  | step (n p : N) (k : Nat) : api.parentNode n = some p → HasDepth api p k →
      HasDepth api n (k + 1)

/-- The sample document and, next to it, a second tree that is not part of it: a detached
element (node 6) with one text child (node 7).  Nodes 0 to 5 are the document, the block,
textA, b, textB and textC. -/
def forestApi : NodeAPI (Fin 8) where
  parentNode n :=
    match n.val with
    | 1 => some 0
    | 2 => some 1
    | 3 => some 1
    | 4 => some 3
    | 5 => some 1
    | 7 => some 6
    | _ => none
  firstChild n :=
    match n.val with
    | 0 => some 1
    | 1 => some 2
    | 3 => some 4
    | 6 => some 7
    | _ => none
  nextSibling n :=
    match n.val with
    | 2 => some 3
    | 3 => some 5
    | _ => none

/-- Number of parent links above a node of `forestApi`. -/
def forestRank (n : Fin 8) : Nat :=
  match n.val with
  | 0 => 0
  | 1 => 1
  | 2 => 2
  | 3 => 2
  | 4 => 3
  | 5 => 2
  | 6 => 0
  | _ => 1

/-- Number of siblings after a node of `forestApi`. -/
def forestSiblingRank (n : Fin 8) : Nat :=
  match n.val with
  | 2 => 2
  | 3 => 1
  | _ => 0

/-- The rectangle outset by one unit on each side, the empty rectangle for an empty one:
the result of `getRepaintRect` in the words of the specification. -/
def QRect.outset (r : QRect) : QRect :=
  if r.isEmpty then QRect.null else ⟨r.left - 1, r.top - 1, r.width + 2, r.height + 2⟩

/-- The sample world after the nodes have been taken out of the document. -/
def detachedWorld : World (List Nat) (List Nat) (Position (List Nat)) :=
  { sampleWorld with inDocument := fun _ => false }

/-- The Selection `laidOutCaret` after `setExtent(Position(textA, 5))`: a Range that still
holds the rectangle of the caret at offset 3. -/
def staleRange : Selection (List Nat) :=
  { rangeOf [0, 0] 3 [0, 0] 5 with m_caretRect := ⟨3, 0, 1, 10⟩ }

/-- Start and end are where `validate` at Character granularity puts them for the base,
extent and `m_baseIsStart` of the Selection: the first and the second of base and extent
as `m_baseIsStart` orders them, taken through `downstream(StayInBlock)` and
`upstream(StayInBlock)` when the state is RANGE. -/
def Consistent {N R C : Type} (w : World N R C) (s : Selection N) : Prop :=
  (s.m_state ≠ .RANGE →
    s.m_start = (if s.m_baseIsStart then s.m_base else s.m_extent) ∧
    s.m_end = (if s.m_baseIsStart then s.m_extent else s.m_base)) ∧
  (s.m_state = .RANGE →
    s.m_start = w.downstream StayInBlock (if s.m_baseIsStart then s.m_base else s.m_extent) ∧
    s.m_end = w.upstream StayInBlock (if s.m_baseIsStart then s.m_extent else s.m_base))

/-- Base and extent as the `Extending` helpers of `modify` assign them: (start, end) forward,
(end, start) backward. -/
def Pinned {N : Type} (s : Selection N) : Prop :=
  (s.m_base = s.m_start ∧ s.m_extent = s.m_end) ∨ (s.m_base = s.m_end ∧ s.m_extent = s.m_start)

/-- The Selection `backwardSelection` after the failing `modify(EXTEND, FORWARD, CHARACTER)`:
base and extent are start and end, `m_baseIsStart` is still false. -/
def pinnedSelection : Selection (List Nat) :=
  { backwardSelection with
    m_base := ⟨some [0, 2], 3⟩, m_extent := ⟨some [0, 2], 5⟩, m_modifyBiasSet := true }

namespace Siblings

/-- Number of nodes of a sibling list, descendants not counted. -/
def length : Siblings → Nat
  | nil => 0
  | cons _ r => r.length + 1

/-- The sibling list from its `i`-th node on. -/
def drop : Siblings → Nat → Siblings
  | cs, 0 => cs
  | nil, _ + 1 => nil
  | cons _ r, i + 1 => r.drop i

/-- The node named `q` when the sibling list is not empty, no node otherwise: the head of
a sibling chain as a nullable render object. -/
def head? (sib : Siblings) (q : List Nat) : Option (List Nat) :=
  match sib with
  | nil => none
  | cons _ _ => some q

/-- The nodes of the sibling list `cs`, the children of the node `p`, from the `m`-th on,
each followed by its descendants, in the order of a forward depth-first walk. -/
def walkFrom (cs : Siblings) (p : List Nat) (m : Nat) : List (List Nat) :=
  ((cs.drop m).walk m).map (fun q => p ++ q)

end Siblings

namespace Tree

/-- The last child of a node of a finite tree. -/
def lastChild (t : Tree) (p : List Nat) : Option (List Nat) :=
  match t.kids.kidsAt p with
  | some cs => if cs.length = 0 then none else some (p ++ [cs.length - 1])
  | none => none

/-- The sibling before a node of a finite tree. -/
def previousSibling (p : List Nat) : Option (List Nat) :=
  match p.getLast? with
  | some (i + 1) => some (p.dropLast ++ [i])
  | _ => none

/-- The nodes of the sibling chain that starts at the node `first`, each followed by its
descendants, in the order of a forward depth-first walk; for the root, which has no
siblings, the whole tree. -/
def chainWalk (t : Tree) (first : List Nat) : List (List Nat) :=
  match first.getLast? with
  | none => t.preorder
  | some i =>
    match t.kids.kidsAt first.dropLast with
    | some cs => cs.walkFrom first.dropLast i
    | none => []

end Tree

/-- A world whose render objects form the finite tree `t`: navigation is that of the tree,
everything else, the labelling of the render objects included, is that of `w`. -/
def renderTreeWorld {N C : Type} (t : Tree) (w : World N (List Nat) C) :
    World N (List Nat) C :=
  { w with
    rParent := t.api.parentNode
    rFirstChild := t.api.firstChild
    rLastChild := t.lastChild
    rNextSibling := t.api.nextSibling
    rPreviousSibling := Tree.previousSibling }

/-- The inline text boxes with `m_y == y` met in a walk over the render objects `nodes`:
those of the text render objects, each with its render object, in the order of the walk
and of `nextTextBox()`.  The walk of the line span search in the words of the
specification. -/
def runsAt {N R C : Type} (w : World N R C) (y : Int) (nodes : List R) :
    List (R × InlineTextBox) :=
  nodes.flatMap (fun r =>
    if w.rIsText r then ((w.textBoxes r).filter (fun box => box.m_y == y)).map (fun box => (r, box))
    else [])

/-- The start of the first run of a list of runs, as a Position on the element of its
render object; the empty Position for no run. -/
def firstRunStart {N R C : Type} (w : World N R C) (runs : List (R × InlineTextBox)) :
    Position N :=
  match runs.head? with
  | some (r, box) => ⟨w.rElement r, box.m_start⟩
  | none => emptyPosition

/-- The end of the last run of a list of runs; the empty Position for no run. -/
def lastRunEnd {N R C : Type} (w : World N R C) (runs : List (R × InlineTextBox)) :
    Position N :=
  match runs.getLast? with
  | some (r, box) => ⟨w.rElement r, box.m_start + box.m_len⟩
  | none => emptyPosition

/-- The sample world in which the renderer of textB is anonymous: it has no element. -/
def anonymousWorld : World (List Nat) (List Nat) (Position (List Nat)) :=
  { sampleWorld with rElement := fun r => if r = [0, 1, 0] then none else some r }

/-! ## Theorems -/

section Lemmas

variable {N R C : Type} [DecidableEq N]

theorem modifyCandidate_sel [DecidableEq R] (w : World N R C) (alter : EAlter) (dir : EDirection)
    (g : ETextGranularity) (s s1 : Selection N) (cache c1 : PartCache) (pos : C)
    (h : modifyCandidate w alter dir g s cache = .ok (pos, s1, c1)) :
    s1 = modifyBias alter dir s := by
  cases dir <;> cases alter <;> cases g <;>
    simp only [modifyCandidate, modifyExtendingRightForward, modifyMovingRightForward,
      modifyExtendingLeftBackward, modifyMovingLeftBackward, bind, Except.bind, pure,
      Except.pure, reduceIte, reduceCtorEq] at h <;>
    (repeat' split at h) <;>
    simp_all [modifyBias, Selection.assignBaseAndExtent]

theorem run_bind_ok {α β : Type} (x : Run α) (f : α → Run β) (b : β) :
    (x >>= f) = .ok b ↔ ∃ a, x = .ok a ∧ f a = .ok b := by
  cases x with
  | error e => simp [bind, Except.bind]
  | ok a => simp [bind, Except.bind]

theorem run_pure_ok {α : Type} (a b : α) : (pure a : Run α) = .ok b ↔ a = b := by
  simp [pure, Except.pure]

theorem validateVia_ok (w : World N R C) (l : Position N → Run (Selection N))
    (g : ETextGranularity) (s s' : Selection N) :
    validateVia w l g s = .ok s' ↔
      ∃ s1 s2 s3, moveToRendered w s = .ok s1 ∧ orderAnchors w s.m_base s1 = .ok s2 ∧
        expandStartEnd w l g s2 = .ok s3 ∧ s' = adjustState w s3 := by
  unfold validateVia
  simp only [run_bind_ok, run_pure_ok]
  constructor
  · rintro ⟨s1, h1, s2, h2, s3, h3, h4⟩
    exact ⟨s1, s2, s3, h1, h2, h3, h4.symm⟩
  · rintro ⟨s1, s2, s3, h1, h2, h3, h4⟩
    exact ⟨s1, h1, s2, h2, s3, h3, h4.symm⟩

theorem moveToRendered_frame (w : World N R C) (s s1 : Selection N)
    (h : moveToRendered w s = .ok s1) :
    s1.m_start = s.m_start ∧ s1.m_end = s.m_end ∧ s1.m_state = s.m_state ∧
      s1.m_affinity = s.m_affinity ∧ s1.m_caretRect = s.m_caretRect ∧
      s1.m_baseIsStart = s.m_baseIsStart ∧ s1.m_needsCaretLayout = s.m_needsCaretLayout ∧
      s1.m_modifyBiasSet = s.m_modifyBiasSet := by
  unfold moveToRendered at h
  simp only [bind, Except.bind, pure, Except.pure] at h
  repeat' split at h
  all_goals first
    | (cases h; done)
    | (simp_all [Selection.assignBase, Selection.assignExtent]; done)
    | (cases h; simp_all [Selection.assignBase, Selection.assignExtent])

theorem orderAnchors_frame (w : World N R C) (ob : Position N) (s s2 : Selection N)
    (h : orderAnchors w ob s = .ok s2) :
    s2.m_state = s.m_state ∧ s2.m_affinity = s.m_affinity ∧ s2.m_caretRect = s.m_caretRect ∧
      s2.m_needsCaretLayout = s.m_needsCaretLayout ∧
      s2.m_modifyBiasSet = s.m_modifyBiasSet := by
  unfold orderAnchors at h
  simp only [bind, Except.bind, pure, Except.pure] at h
  repeat' split at h
  all_goals first
    | (cases h; done)
    | (cases h; simp_all [Selection.assignBase, Selection.assignExtent,
        Selection.assignBaseAndExtent, Selection.assignStartAndEnd]; done)

theorem expandStartEnd_frame (w : World N R C) (l : Position N → Run (Selection N))
    (g : ETextGranularity) (s s3 : Selection N) (h : expandStartEnd w l g s = .ok s3) :
    s3.m_base = s.m_base ∧ s3.m_extent = s.m_extent ∧ s3.m_state = s.m_state ∧
      s3.m_affinity = s.m_affinity ∧ s3.m_caretRect = s.m_caretRect ∧
      s3.m_baseIsStart = s.m_baseIsStart ∧ s3.m_needsCaretLayout = s.m_needsCaretLayout ∧
      s3.m_modifyBiasSet = s.m_modifyBiasSet := by
  cases g <;> simp only [expandStartEnd, bind, Except.bind, pure, Except.pure] at h <;>
    (repeat' split at h) <;>
    first
      | (cases h; done)
      | (cases h; simp_all [Selection.assignStart, Selection.assignEnd,
          Selection.assignStartAndEnd]; done)

theorem adjustState_frame (w : World N R C) (s : Selection N) :
    (adjustState w s).m_base = s.m_base ∧ (adjustState w s).m_extent = s.m_extent ∧
      (adjustState w s).m_affinity = s.m_affinity ∧
      (adjustState w s).m_caretRect = s.m_caretRect ∧
      (adjustState w s).m_baseIsStart = s.m_baseIsStart ∧
      (adjustState w s).m_needsCaretLayout = true ∧
      (adjustState w s).m_modifyBiasSet = s.m_modifyBiasSet := by
  unfold adjustState
  simp only []
  split_ifs <;> simp [Selection.assignStart, Selection.assignEnd]

theorem adjustState_none (w : World N R C) (s : Selection N) :
    (adjustState w s).m_state = .NONE ↔ (s.m_start.isEmpty = true ∧ s.m_end.isEmpty = true) := by
  unfold adjustState
  simp only []
  split_ifs <;> simp_all [Selection.assignStart, Selection.assignEnd]

theorem adjustState_range (w : World N R C) (s : Selection N)
    (h : (adjustState w s).m_state = .RANGE) :
    (adjustState w s).m_start = w.downstream StayInBlock s.m_start ∧
      (adjustState w s).m_end = w.upstream StayInBlock s.m_end := by
  unfold adjustState at h ⊢
  simp only [] at h ⊢
  split_ifs at h ⊢ <;> simp_all [Selection.assignStart, Selection.assignEnd]

theorem adjustState_not_range (w : World N R C) (s : Selection N)
    (h : (adjustState w s).m_state ≠ .RANGE) :
    (adjustState w s).m_start = s.m_start ∧ (adjustState w s).m_end = s.m_end := by
  unfold adjustState at h ⊢
  simp only [] at h ⊢
  split_ifs at h ⊢ <;> simp_all [Selection.assignStart, Selection.assignEnd]

theorem moveToRendered_fixed (w : World N R C) (s s1 : Selection N)
    (hb : s.m_base.notEmpty = true → renderedPosition w s.m_affinity s.m_base = s.m_base)
    (he : s.m_extent.notEmpty = true → renderedPosition w s.m_affinity s.m_extent = s.m_extent)
    (h : moveToRendered w s = .ok s1) : s1 = s := by
  unfold moveToRendered at h
  simp only [bind, Except.bind, pure, Except.pure] at h
  obtain ⟨b, e, st, en, sta, aff, rect, bis, ncl, bias⟩ := s
  simp only [Selection.assignBase, Selection.assignExtent] at h hb he ⊢
  repeat' split at h
  all_goals first
    | (cases h; done)
    | (cases h; simp_all; done)
    | (simp_all; done)

theorem moveToRendered_returns (w : World N R C) (s : Selection N)
    (hb : ∀ n, s.m_base.node = some n → (w.getDocument n).isSome = true)
    (he : ∀ n, s.m_extent.node = some n → (w.getDocument n).isSome = true) :
    ∃ s1, moveToRendered w s = .ok s1 := by
  unfold moveToRendered updateLayout deref
  simp only [bind, Except.bind, pure, Except.pure]
  obtain ⟨⟨bn, bo⟩, ⟨en, eo⟩, st, en', sta, aff, rect, bis, ncl, bias⟩ := s
  simp only [Selection.assignBase, Selection.assignExtent, Position.notEmpty] at hb he ⊢
  cases bn with
  | none =>
    cases en with
    | none => simp
    | some e =>
      have := he e rfl
      cases hd : w.getDocument e with
      | none => simp [hd] at this
      | some d => simp [hd]
  | some b =>
    have := hb b rfl
    cases hd : w.getDocument b with
    | none => simp [hd] at this
    | some d =>
      simp only [hd, Option.isSome_some, if_true]
      split <;> split <;> exact ⟨_, rfl⟩

theorem orderAnchors_shape (w : World N R C) (ob : Position N) (s s2 : Selection N)
    (h : orderAnchors w ob s = .ok s2) : AnchorsOrdered w s2 := by
  unfold orderAnchors at h
  obtain ⟨⟨bn, bo⟩, ⟨en, eo⟩, st, en', sta, aff, rect, bis, ncl, bias⟩ := s
  simp only [Selection.assignBase, Selection.assignExtent, Selection.assignBaseAndExtent,
    Selection.assignStartAndEnd, Position.isEmpty, Position.notEmpty] at h
  cases bn with
  | none =>
    cases en with
    | none =>
      simp only [Option.isNone_none, Bool.and_self, if_true] at h
      cases h
      unfold AnchorsOrdered
      simp only [Position.isEmpty, Position.notEmpty]
      split
      · cases hb : ob.node.bind w.enclosingBlockFlowElement with
        | none => simp [hb]
        | some x => simp [hb]
      · simp
    | some e =>
      simp at h
      cases h
      unfold AnchorsOrdered
      simp [Position.isEmpty, Position.notEmpty]
  | some b =>
    cases en with
    | none =>
      simp at h
      cases h
      unfold AnchorsOrdered
      simp [Position.isEmpty, Position.notEmpty]
    | some e =>
      simp only [Option.isNone_some, Bool.and_self, Bool.false_eq_true, if_false] at h
      split at h
      · cases h
        unfold AnchorsOrdered
        simp_all [Position.isEmpty, Position.notEmpty]
      · rename_i hne
        rw [run_bind_ok] at h
        obtain ⟨before, hbf, h⟩ := h
        rw [run_pure_ok] at h
        subst h
        unfold AnchorsOrdered
        simp only [Position.isEmpty, Position.notEmpty]
        right
        refine ⟨rfl, rfl, Or.inr ⟨hne, ?_⟩⟩
        rw [hbf]
        cases before <;> simp

theorem orderAnchors_again (w : World N R C) (s : Selection N) (h : AnchorsOrdered w s) :
    ∃ p q, orderAnchors w s.m_base s = .ok (s.assignStartAndEnd p q) := by
  unfold orderAnchors
  obtain ⟨⟨bn, bo⟩, ⟨en, eo⟩, st, en', sta, aff, rect, bis, ncl, bias⟩ := s
  unfold AnchorsOrdered at h
  simp only [Selection.assignBase, Selection.assignExtent, Selection.assignBaseAndExtent,
    Selection.assignStartAndEnd, Position.isEmpty, Position.notEmpty] at h ⊢
  rcases h with ⟨h1, h2, h3⟩ | ⟨h1, h2, h3⟩
  · simp only [Option.isNone_iff_eq_none] at h1 h2
    subst h1 h2 h3
    exact ⟨emptyPosition, emptyPosition, by simp⟩
  · cases bn with
    | none => simp at h1
    | some b =>
      cases en with
      | none => simp at h2
      | some e =>
        refine ⟨st, en', ?_⟩
        simp only [Option.isNone_some, Bool.and_self, Bool.false_eq_true, if_false]
        rcases h3 with ⟨h3, h4⟩ | ⟨h3, h4⟩
        · simp only [h3, if_true]
          rw [h4]
        · simp only [h3, if_false, h4, bind, Except.bind, pure, Except.pure]
          cases bis <;> simp

theorem validate_frame [DecidableEq R] (w : World N R C) (g : ETextGranularity)
    (s s' : Selection N) (h : validate w g s = .ok s') :
    s'.m_affinity = s.m_affinity ∧ s'.m_caretRect = s.m_caretRect ∧
      s'.m_modifyBiasSet = s.m_modifyBiasSet ∧ s'.m_needsCaretLayout = true := by
  obtain ⟨s1, s2, s3, h1, h2, h3, rfl⟩ := (validateVia_ok w _ g s s').1 h
  have f1 := moveToRendered_frame w s s1 h1
  have f2 := orderAnchors_frame w _ s1 s2 h2
  have f3 := expandStartEnd_frame w _ g s2 s3 h3
  have f4 := adjustState_frame w s3
  refine ⟨?_, ?_, ?_, f4.2.2.2.2.2.1⟩
  · rw [f4.2.2.1, f3.2.2.2.1, f2.2.1, f1.2.2.2.1]
  · rw [f4.2.2.2.1, f3.2.2.2.2.1, f2.2.2.1, f1.2.2.2.2.1]
  · rw [f4.2.2.2.2.2.2, f3.2.2.2.2.2.2.2, f2.2.2.2.2, f1.2.2.2.2.2.2.2]

theorem validate_none [DecidableEq R] (w : World N R C) (g : ETextGranularity)
    (s s' : Selection N) (h : validate w g s = .ok s') (hs : s'.m_state = .NONE) :
    s'.m_start.isEmpty = true ∧ s'.m_end.isEmpty = true := by
  obtain ⟨s1, s2, s3, h1, h2, h3, rfl⟩ := (validateVia_ok w _ g s s').1 h
  have hn := (adjustState_none w s3).1 hs
  have hr := adjustState_not_range w s3 (by rw [hs]; decide)
  rw [hr.1, hr.2]
  exact hn

theorem validate_character [DecidableEq R] (w : World N R C) (s s' : Selection N)
    (h : validate w .CHARACTER s = .ok s') :
    AnchorsOrdered w s' ∧
      (s'.m_state = .RANGE →
        s'.m_start = w.downstream StayInBlock (if s'.m_baseIsStart then s'.m_base else s'.m_extent) ∧
        s'.m_end = w.upstream StayInBlock (if s'.m_baseIsStart then s'.m_extent else s'.m_base)) ∧
      (s'.m_state ≠ .RANGE →
        s'.m_start = (if s'.m_baseIsStart then s'.m_base else s'.m_extent) ∧
        s'.m_end = (if s'.m_baseIsStart then s'.m_extent else s'.m_base)) ∧
      (s'.m_state = .NONE ↔ (s'.m_base.isEmpty = true ∧ s'.m_extent.isEmpty = true)) := by
  obtain ⟨s1, s2, s3, h1, h2, h3, rfl⟩ := (validateVia_ok w _ .CHARACTER s s').1 h
  have sh := orderAnchors_shape w _ s1 s2 h2
  have f3 := expandStartEnd_frame w _ .CHARACTER s2 s3 h3
  have f4 := adjustState_frame w s3
  have hse : s3.m_start = (if s2.m_baseIsStart then s2.m_base else s2.m_extent) ∧
      s3.m_end = (if s2.m_baseIsStart then s2.m_extent else s2.m_base) := by
    simp only [expandStartEnd] at h3
    split at h3 <;> cases h3 <;> simp_all [Selection.assignStartAndEnd]
  have hb : (adjustState w s3).m_base = s2.m_base := by rw [f4.1, f3.1]
  have he : (adjustState w s3).m_extent = s2.m_extent := by rw [f4.2.1, f3.2.1]
  have hbis : (adjustState w s3).m_baseIsStart = s2.m_baseIsStart := by
    rw [f4.2.2.2.2.1, f3.2.2.2.2.2.1]
  refine ⟨?_, ?_, ?_, ?_⟩
  · unfold AnchorsOrdered at sh ⊢
    rw [hb, he, hbis]
    exact sh
  · intro hr
    have := adjustState_range w s3 hr
    rw [this.1, this.2, hb, he, hbis, hse.1, hse.2]
    exact ⟨rfl, rfl⟩
  · intro hr
    have := adjustState_not_range w s3 hr
    rw [this.1, this.2, hb, he, hbis, hse.1, hse.2]
    exact ⟨rfl, rfl⟩
  · rw [adjustState_none, hb, he, hse.1, hse.2]
    cases s2.m_baseIsStart <;> simp [and_comm]

theorem moveToRendered_equal (w : World N R C) (s s1 : Selection N)
    (heq : s.m_base = s.m_extent) (h : moveToRendered w s = .ok s1) :
    s1.m_base = s1.m_extent := by
  unfold moveToRendered at h
  simp only [bind, Except.bind, pure, Except.pure] at h
  obtain ⟨b, e, st, en, sta, aff, rect, bis, ncl, bias⟩ := s
  simp only [Selection.assignBase, Selection.assignExtent] at h heq ⊢
  subst heq
  repeat' split at h
  all_goals first
    | (cases h; done)
    | (cases h; simp_all; done)
    | (simp_all; done)

theorem orderAnchors_equal (w : World N R C) (ob : Position N) (s s2 : Selection N)
    (heq : s.m_base = s.m_extent) (h : orderAnchors w ob s = .ok s2) :
    s2.m_base = s2.m_extent ∧ s2.m_baseIsStart = true := by
  unfold orderAnchors at h
  obtain ⟨b, e, st, en, sta, aff, rect, bis, ncl, bias⟩ := s
  simp only [Selection.assignBase, Selection.assignExtent, Selection.assignBaseAndExtent,
    Selection.assignStartAndEnd] at h heq ⊢
  subst heq
  simp only [bind, Except.bind, pure, Except.pure] at h
  repeat' split at h
  all_goals first
    | (cases h; done)
    | (cases h; simp_all; done)
    | (simp_all; done)

theorem validate_character_caret [DecidableEq R] (w : World N R C) (s s' : Selection N)
    (heq : s.m_base = s.m_extent) (h : validate w .CHARACTER s = .ok s') :
    s'.m_base = s'.m_extent ∧ s'.m_start = s'.m_base ∧ s'.m_end = s'.m_base ∧
      s'.m_state ≠ .RANGE ∧ s'.m_baseIsStart = true := by
  have hc := validate_character w s s' h
  obtain ⟨s1, s2, s3, h1, h2, h3, rfl⟩ := (validateVia_ok w _ .CHARACTER s s').1 h
  have hc := And.intro hc.1 (And.intro hc.2.1 hc.2.2.1)
  have e1 := moveToRendered_equal w s s1 heq h1
  have e2 := orderAnchors_equal w _ s1 s2 e1 h2
  have f3 := expandStartEnd_frame w _ .CHARACTER s2 s3 h3
  have f4 := adjustState_frame w s3
  have hb : (adjustState w s3).m_base = s2.m_base := by rw [f4.1, f3.1]
  have he : (adjustState w s3).m_extent = s2.m_extent := by rw [f4.2.1, f3.2.1]
  have hbis : (adjustState w s3).m_baseIsStart = true := by
    rw [f4.2.2.2.2.1, f3.2.2.2.2.2.1, e2.2]
  have hse : s3.m_start = s3.m_end := by
    simp only [expandStartEnd] at h3
    split at h3 <;> cases h3 <;> simp_all [Selection.assignStartAndEnd]
  have hnr : (adjustState w s3).m_state ≠ .RANGE := by
    unfold adjustState
    simp only []
    split_ifs <;> simp_all
  have := hc.2.2 hnr
  rw [hbis] at this
  simp only [if_true] at this
  refine ⟨by rw [hb, he, e2.1], this.1, ?_, hnr, hbis⟩
  rw [this.2, hb, he, e2.1]

theorem modify_ok [DecidableEq R] (w : World N R C) (alter : EAlter) (dir : EDirection)
    (g : ETextGranularity) (s s' : Selection N) (cache c' : PartCache) (r : Bool)
    (h : modify w alter dir g s cache = .ok (r, s', c')) :
    ∃ pos, modifyCandidate w alter dir g s cache = .ok (pos, modifyBias alter dir s, c') ∧
      (r = false → w.caretIsEmpty pos = true ∧ s' = modifyBias alter dir s) ∧
      (r = true → w.caretIsEmpty pos = false ∧
        (alter = .MOVE →
          moveToPosition w (w.caretDeepEquivalent pos) (modifyBias alter dir s) = .ok s') ∧
        (alter = .EXTEND →
          setExtent w (w.caretDeepEquivalent pos) (modifyBias alter dir s) = .ok s')) := by
  unfold modify at h
  rw [run_bind_ok] at h
  obtain ⟨⟨pos, s1, c1⟩, hc, h⟩ := h
  have hs := modifyCandidate_sel w alter dir g s s1 cache c1 pos hc
  subst hs
  simp only at h
  cases hemp : w.caretIsEmpty pos with
  | true =>
    simp only [hemp, if_true, run_pure_ok, Prod.mk.injEq] at h
    obtain ⟨rfl, rfl, rfl⟩ := h
    exact ⟨pos, hc, fun _ => ⟨hemp, rfl⟩, fun hr => (by cases hr)⟩
  | false =>
    simp only [hemp, Bool.false_eq_true, if_false] at h
    cases alter with
    | MOVE =>
      simp only [if_true, run_bind_ok, run_pure_ok, Prod.mk.injEq] at h
      obtain ⟨s2, h2, rfl, rfl, rfl⟩ := h
      exact ⟨pos, hc, fun hr => (by cases hr), fun _ => ⟨hemp, fun _ => h2, fun ha => (by cases ha)⟩⟩
    | EXTEND =>
      simp only [reduceCtorEq, if_false, run_bind_ok, run_pure_ok, Prod.mk.injEq] at h
      obtain ⟨s2, h2, rfl, rfl, rfl⟩ := h
      exact ⟨pos, hc, fun hr => (by cases hr), fun _ => ⟨hemp, fun ha => (by cases ha), fun _ => h2⟩⟩

theorem validate_character_none [DecidableEq R] (w : World N R C) (s s' : Selection N)
    (allowed : Prop) (h : validate w .CHARACTER s = .ok s') :
    (s'.m_state = .NONE → s'.m_start.isEmpty = true ∧ s'.m_end.isEmpty = true) ∧
      (allowed → s'.m_state = .NONE → s'.m_base.isEmpty = true ∧ s'.m_extent.isEmpty = true) :=
  ⟨validate_none w .CHARACTER s s' h, fun _ hs => (validate_character w s s' h).2.2.2.1 hs⟩

theorem reachable_invariant [DecidableEq R] (w : World N R C) (allow : ETextGranularity → Bool)
    (s : Selection N) (h : Reachable w allow s) :
    (s.m_state = .NONE → s.m_start.isEmpty = true ∧ s.m_end.isEmpty = true) ∧
      ((∀ g, allow g = true → g = .CHARACTER) → s.m_state = .NONE →
        s.m_base.isEmpty = true ∧ s.m_extent.isEmpty = true) := by
  induction h with
  | init => exact ⟨fun _ => ⟨rfl, rfl⟩, fun _ _ => ⟨rfl, rfl⟩⟩
  | ofPosition pos s' h => exact validate_character_none w _ s' _ h
  | ofRange r s' h => exact validate_character_none w _ s' _ h
  | ofBaseExtent b e s' h => exact validate_character_none w _ s' _ h
  | copy s _ ih => exact ih
  | assign s o _ _ _ ih => exact ih
  | setAffinity a s _ ih =>
    unfold setAffinity
    split
    · exact ih
    · exact ih
  | moveTo b e s s' _ h _ => exact validate_character_none w _ s' _ h
  | clear s s' _ h _ => exact validate_character_none w _ s' _ h
  | setBase p s s' _ h _ => exact validate_character_none w _ s' _ h
  | setExtent p s s' _ h _ => exact validate_character_none w _ s' _ h
  | setBaseAndExtent b e s s' _ h _ => exact validate_character_none w _ s' _ h
  | setStart p s s' _ h _ => exact validate_character_none w _ s' _ h
  | setEnd p s s' _ h _ => exact validate_character_none w _ s' _ h
  | setStartAndEnd b e s s' _ h _ => exact validate_character_none w _ s' _ h
  | modify alter dir g s s' cache c' r _ h ih =>
    obtain ⟨pos, _, hf, ht⟩ := modify_ok w alter dir g s s' cache c' r h
    cases r with
    | false =>
      obtain ⟨_, rfl⟩ := hf rfl
      cases alter <;> cases dir <;> cases hb : s.m_modifyBiasSet <;>
        simp only [modifyBias, Selection.assignBaseAndExtent, hb, Bool.false_eq_true,
          if_false, if_true] <;>
        first
          | exact ih
          | exact ⟨ih.1, fun _ hs => ih.1 hs⟩
          | exact ⟨ih.1, fun _ hs => ⟨(ih.1 hs).2, (ih.1 hs).1⟩⟩
    | true =>
      obtain ⟨_, hm, hx⟩ := ht rfl
      cases alter with
      | MOVE => exact validate_character_none w _ s' _ (hm rfl)
      | EXTEND => exact validate_character_none w _ s' _ (hx rfl)
  | expandUsingGranularity g s s' r hg _ h ih =>
    unfold expandUsingGranularity at h
    split at h
    · cases h
      exact ih
    · rw [run_bind_ok] at h
      obtain ⟨s2, h2, h⟩ := h
      rw [run_pure_ok] at h
      cases h
      refine ⟨validate_none w g s s' h2, fun hall hs => ?_⟩
      have := hall g hg
      subst this
      exact (validate_character w s s' h2).2.2.2.1 hs

theorem expandStartEnd_anchors (w : World N R C) (l : Position N → Run (Selection N))
    (g : ETextGranularity)
    (hg : g = .CHARACTER ∨ g = .WORD ∨ g = .PARAGRAPH ∨ g = .PARAGRAPH_BOUNDARY)
    (a b s3 : Selection N) (hb : a.m_base = b.m_base) (he : a.m_extent = b.m_extent)
    (hbis : a.m_baseIsStart = b.m_baseIsStart) (h : expandStartEnd w l g a = .ok s3) :
    expandStartEnd w l g b = .ok (b.assignStartAndEnd s3.m_start s3.m_end) := by
  rcases hg with rfl | rfl | rfl | rfl <;>
    simp only [expandStartEnd] at h ⊢ <;>
    rw [← hb, ← he, ← hbis] <;>
    split at h <;> cases h <;>
    simp_all [Selection.assignStart, Selection.assignEnd, Selection.assignStartAndEnd]

theorem adjustState_again (w : World N R C) (s3 : Selection N) :
    adjustState w ((adjustState w s3).assignStartAndEnd s3.m_start s3.m_end) =
      adjustState w s3 := by
  unfold adjustState
  simp only [Selection.assignStartAndEnd, Selection.assignStart, Selection.assignEnd]
  split_ifs <;> simp_all

theorem validate_again [DecidableEq R] (w : World N R C) (g : ETextGranularity)
    (hg : g = .CHARACTER ∨ g = .WORD ∨ g = .PARAGRAPH ∨ g = .PARAGRAPH_BOUNDARY)
    (s s1 : Selection N) (h : validate w g s = .ok s1)
    (hb : s1.m_base.notEmpty = true → renderedPosition w s1.m_affinity s1.m_base = s1.m_base)
    (he : s1.m_extent.notEmpty = true →
      renderedPosition w s1.m_affinity s1.m_extent = s1.m_extent)
    (hdb : ∀ n, s1.m_base.node = some n → (w.getDocument n).isSome = true)
    (hde : ∀ n, s1.m_extent.node = some n → (w.getDocument n).isSome = true) :
    validate w g s1 = .ok s1 := by
  obtain ⟨sa, s2, s3, h1, h2, h3, rfl⟩ := (validateVia_ok w _ g s s1).1 h
  have sh := orderAnchors_shape w _ sa s2 h2
  have f3 := expandStartEnd_frame w _ g s2 s3 h3
  have f4 := adjustState_frame w s3
  have hbase : (adjustState w s3).m_base = s2.m_base := by rw [f4.1, f3.1]
  have hext : (adjustState w s3).m_extent = s2.m_extent := by rw [f4.2.1, f3.2.1]
  have hbis : (adjustState w s3).m_baseIsStart = s2.m_baseIsStart := by
    rw [f4.2.2.2.2.1, f3.2.2.2.2.2.1]
  have sh1 : AnchorsOrdered w (adjustState w s3) := by
    unfold AnchorsOrdered at sh ⊢
    rw [hbase, hext, hbis]
    exact sh
  obtain ⟨x, hx⟩ := moveToRendered_returns w (adjustState w s3) hdb hde
  have hxe := moveToRendered_fixed w _ x hb he hx
  subst hxe
  obtain ⟨p, q, hpq⟩ := orderAnchors_again w (adjustState w s3) sh1
  have hexp := expandStartEnd_anchors w (selectionForLine w) g hg s2
    ((adjustState w s3).assignStartAndEnd p q) s3 (by simp [Selection.assignStartAndEnd, hbase])
    (by simp [Selection.assignStartAndEnd, hext]) (by simp [Selection.assignStartAndEnd, hbis]) h3
  refine (validateVia_ok w _ g _ _).2 ⟨_, _, _, hx, hpq, hexp, ?_⟩
  have := adjustState_again w s3
  simp only [Selection.assignStartAndEnd] at this ⊢
  exact this.symm

theorem orderAnchors_keeps (w : World N R C) (ob : Position N) (s s2 : Selection N)
    (hb : s.m_base.notEmpty = true) (he : s.m_extent.notEmpty = true)
    (h : orderAnchors w ob s = .ok s2) :
    s2.m_base = s.m_base ∧ s2.m_extent = s.m_extent ∧ s2.m_start = s.m_start ∧
      s2.m_end = s.m_end := by
  unfold orderAnchors at h
  obtain ⟨⟨bn, bo⟩, ⟨en, eo⟩, st, en', sta, aff, rect, bis, ncl, bias⟩ := s
  simp only [Position.notEmpty, Option.isSome_iff_exists] at hb he
  obtain ⟨b, rfl⟩ := hb
  obtain ⟨e, rfl⟩ := he
  simp only [Position.isEmpty, Option.isNone_some, Bool.and_self, Bool.false_eq_true,
    if_false] at h
  split at h
  · cases h
    exact ⟨rfl, rfl, rfl, rfl⟩
  · rw [run_bind_ok] at h
    obtain ⟨before, _, h⟩ := h
    rw [run_pure_ok] at h
    subst h
    exact ⟨rfl, rfl, rfl, rfl⟩

theorem orderAnchors_returns (w : World N R C) (ob : Position N) (s : Selection N)
    (hcmp : s.m_base.notEmpty = true → s.m_extent.notEmpty = true →
      s.m_base.node ≠ s.m_extent.node →
      ∃ b, nodeIsBeforeNode w.dom w.loopFuel s.m_base.node s.m_extent.node = .ok b) :
    ∃ s2, orderAnchors w ob s = .ok s2 := by
  unfold orderAnchors
  split
  · exact ⟨_, rfl⟩
  · split
    · exact ⟨_, rfl⟩
    · split
      · exact ⟨_, rfl⟩
      · split
        · exact ⟨_, rfl⟩
        · rename_i h1 h2 h3 h4
          have hb : s.m_base.notEmpty = true := by
            cases hn : s.m_base.node <;> simp_all [Position.isEmpty, Position.notEmpty]
          have he : s.m_extent.notEmpty = true := by
            cases hn : s.m_extent.node <;> simp_all [Position.isEmpty, Position.notEmpty]
          obtain ⟨b, hb'⟩ := hcmp hb he h4
          rw [hb']
          exact ⟨_, rfl⟩

theorem expandStartEnd_returns (w : World N R C) (l : Position N → Run (Selection N))
    (g : ETextGranularity)
    (hg : g = .CHARACTER ∨ g = .WORD ∨ g = .PARAGRAPH ∨ g = .PARAGRAPH_BOUNDARY)
    (s : Selection N) : ∃ s3, expandStartEnd w l g s = .ok s3 := by
  rcases hg with rfl | rfl | rfl | rfl <;> simp only [expandStartEnd] <;>
    split <;> exact ⟨_, rfl⟩

theorem validate_returns [DecidableEq R] (w : World N R C) (g : ETextGranularity)
    (hg : g = .CHARACTER ∨ g = .WORD ∨ g = .PARAGRAPH ∨ g = .PARAGRAPH_BOUNDARY)
    (s : Selection N)
    (hRb : s.m_base.notEmpty = true → renderedPosition w s.m_affinity s.m_base = s.m_base)
    (hRe : s.m_extent.notEmpty = true →
      renderedPosition w s.m_affinity s.m_extent = s.m_extent)
    (hdb : ∀ n, s.m_base.node = some n → (w.getDocument n).isSome = true)
    (hde : ∀ n, s.m_extent.node = some n → (w.getDocument n).isSome = true)
    (hcmp : s.m_base.notEmpty = true → s.m_extent.notEmpty = true →
      s.m_base.node ≠ s.m_extent.node →
      ∃ b, nodeIsBeforeNode w.dom w.loopFuel s.m_base.node s.m_extent.node = .ok b) :
    ∃ s', validate w g s = .ok s' := by
  obtain ⟨x, hx⟩ := moveToRendered_returns w s hdb hde
  have hxe := moveToRendered_fixed w _ x hRb hRe hx
  subst hxe
  obtain ⟨s2, h2⟩ := orderAnchors_returns w x.m_base x hcmp
  obtain ⟨s3, h3⟩ := expandStartEnd_returns w (selectionForLine w) g hg s2
  exact ⟨_, (validateVia_ok w _ g _ _).2 ⟨_, _, _, hx, h2, h3, rfl⟩⟩

theorem validate_keeps [DecidableEq R] (w : World N R C) (g : ETextGranularity)
    (s s' : Selection N) (h : validate w g s = .ok s')
    (hb : s.m_base.notEmpty = true) (he : s.m_extent.notEmpty = true)
    (hRb : renderedPosition w s.m_affinity s.m_base = s.m_base)
    (hRe : renderedPosition w s.m_affinity s.m_extent = s.m_extent) :
    s'.m_base = s.m_base ∧ s'.m_extent = s.m_extent := by
  obtain ⟨s1, s2, s3, h1, h2, h3, rfl⟩ := (validateVia_ok w _ g s s').1 h
  have hxe := moveToRendered_fixed w _ s1 (fun _ => hRb) (fun _ => hRe) h1
  subst hxe
  have k := orderAnchors_keeps w _ s1 s2 hb he h2
  have f3 := expandStartEnd_frame w _ g s2 s3 h3
  have f4 := adjustState_frame w s3
  exact ⟨by rw [f4.1, f3.1, k.1], by rw [f4.2.1, f3.2.1, k.2.1]⟩

theorem extend_step [DecidableEq R] (w : World N R C) (s s' : Selection N)
    (c c' : PartCache)
    (h : modify w .EXTEND .FORWARD .CHARACTER s c = .ok (true, s', c')) :
    setExtent w (nextCharacter w (modifyBias .EXTEND .FORWARD s).m_extent)
      (modifyBias .EXTEND .FORWARD s) = .ok s' := by
  obtain ⟨pos, hc, _, ht⟩ := modify_ok w .EXTEND .FORWARD .CHARACTER s s' c c' true h
  have hx := (ht rfl).2.2 rfl
  have hpos : pos = w.caretNext (w.caretPosition (modifyBias .EXTEND .FORWARD s).m_extent) := by
    simp only [modifyCandidate, modifyExtendingRightForward, if_true, bind, Except.bind,
      pure, Except.pure] at hc
    cases hb : s.m_modifyBiasSet <;>
      simp only [hb, modifyBias, Bool.not_false, Bool.not_true, if_true, Bool.false_eq_true,
        if_false, Selection.assignBaseAndExtent, Except.ok.injEq, Prod.mk.injEq] at hc ⊢ <;>
      exact hc.1.symm
  rw [hpos] at hx
  exact hx

theorem extend_step_settled [DecidableEq R] (w : World N R C) (s s' : Selection N)
    (c c' : PartCache) (B E : Position N)
    (h : modify w .EXTEND .FORWARD .CHARACTER s c = .ok (true, s', c'))
    (hB : (modifyBias .EXTEND .FORWARD s).m_base = B)
    (hE : (modifyBias .EXTEND .FORWARD s).m_extent = E)
    (hBn : B.notEmpty = true) (hRB : renderedPosition w s.m_affinity B = B)
    (hdn : (nextCharacter w E).notEmpty = true)
    (hRd : renderedPosition w s.m_affinity (nextCharacter w E) = nextCharacter w E) :
    s'.m_base = B ∧ s'.m_extent = nextCharacter w E ∧ s'.m_modifyBiasSet = true ∧
      s'.m_affinity = s.m_affinity := by
  have hx := extend_step w s s' c c' h
  rw [hE] at hx
  unfold setExtent at hx
  have haff : (modifyBias .EXTEND .FORWARD s).m_affinity = s.m_affinity := by
    cases hb : s.m_modifyBiasSet <;> simp [modifyBias, Selection.assignBaseAndExtent, hb]
  have hbias : (modifyBias .EXTEND .FORWARD s).m_modifyBiasSet = true := by
    cases hb : s.m_modifyBiasSet <;> simp [modifyBias, Selection.assignBaseAndExtent, hb]
  have hk := validate_keeps w .CHARACTER _ s' hx
    (by simpa [Selection.assignExtent, hB] using hBn)
    (by simpa [Selection.assignExtent] using hdn)
    (by simpa [Selection.assignExtent, hB, haff] using hRB)
    (by simpa [Selection.assignExtent, haff] using hRd)
  have hf := validate_frame w .CHARACTER _ s' hx
  simp only [Selection.assignExtent] at hk hf
  exact ⟨by rw [hk.1, hB], hk.2, by rw [hf.2.2.1, hbias], by rw [hf.1, haff]⟩

theorem validate_word [DecidableEq R] (w : World N R C) (s s' : Selection N)
    (h : validate w .WORD s = .ok s') :
    AnchorsOrdered w s' ∧
      (s'.m_state ≠ .RANGE →
        s'.m_start = caretDeep w (if s'.m_baseIsStart then s'.m_base else s'.m_extent).node
          (wordOffsets w (if s'.m_baseIsStart then s'.m_base else s'.m_extent)).1 ∧
        s'.m_end = caretDeep w (if s'.m_baseIsStart then s'.m_extent else s'.m_base).node
          (wordOffsets w (if s'.m_baseIsStart then s'.m_extent else s'.m_base)).2) ∧
      (s'.m_state = .RANGE →
        s'.m_start = w.downstream StayInBlock
          (caretDeep w (if s'.m_baseIsStart then s'.m_base else s'.m_extent).node
            (wordOffsets w (if s'.m_baseIsStart then s'.m_base else s'.m_extent)).1) ∧
        s'.m_end = w.upstream StayInBlock
          (caretDeep w (if s'.m_baseIsStart then s'.m_extent else s'.m_base).node
            (wordOffsets w (if s'.m_baseIsStart then s'.m_extent else s'.m_base)).2)) := by
  obtain ⟨s1, s2, s3, h1, h2, h3, rfl⟩ := (validateVia_ok w _ .WORD s s').1 h
  have sh := orderAnchors_shape w _ s1 s2 h2
  have f3 := expandStartEnd_frame w _ .WORD s2 s3 h3
  have f4 := adjustState_frame w s3
  have hse : s3.m_start = caretDeep w (if s2.m_baseIsStart then s2.m_base else s2.m_extent).node
        (wordOffsets w (if s2.m_baseIsStart then s2.m_base else s2.m_extent)).1 ∧
      s3.m_end = caretDeep w (if s2.m_baseIsStart then s2.m_extent else s2.m_base).node
        (wordOffsets w (if s2.m_baseIsStart then s2.m_extent else s2.m_base)).2 := by
    simp only [expandStartEnd] at h3
    split at h3 <;> cases h3 <;> simp_all [Selection.assignStart, Selection.assignEnd]
  have hb : (adjustState w s3).m_base = s2.m_base := by rw [f4.1, f3.1]
  have he : (adjustState w s3).m_extent = s2.m_extent := by rw [f4.2.1, f3.2.1]
  have hbis : (adjustState w s3).m_baseIsStart = s2.m_baseIsStart := by
    rw [f4.2.2.2.2.1, f3.2.2.2.2.2.1]
  refine ⟨?_, ?_, ?_⟩
  · unfold AnchorsOrdered at sh ⊢
    rw [hb, he, hbis]
    exact sh
  · intro hr
    have := adjustState_not_range w s3 hr
    rw [this.1, this.2, hb, he, hbis, hse.1, hse.2]
    exact ⟨rfl, rfl⟩
  · intro hr
    have := adjustState_range w s3 hr
    rw [this.1, this.2, hb, he, hbis, hse.1, hse.2]
    exact ⟨rfl, rfl⟩

theorem adjustState_caret (w : World N R C) (s : Selection N)
    (h : (adjustState w s).m_state = .CARET) :
    ¬ (s.m_start.isEmpty = true ∧ s.m_end.isEmpty = true) ∧
      (s.m_start = s.m_end ∨
        w.upstream StayInBlock s.m_start = w.upstream StayInBlock s.m_end) := by
  unfold adjustState at h
  simp only [] at h
  split_ifs at h with h1 h2 <;> simp_all [Selection.assignStart, Selection.assignEnd]

theorem validate_caret [DecidableEq R] (w : World N R C) (g : ETextGranularity)
    (s s' : Selection N) (h : validate w g s = .ok s') (hs : s'.m_state = .CARET) :
    ¬ (s'.m_start.isEmpty = true ∧ s'.m_end.isEmpty = true) ∧
      (s'.m_start = s'.m_end ∨
        w.upstream StayInBlock s'.m_start = w.upstream StayInBlock s'.m_end) := by
  obtain ⟨s1, s2, s3, h1, h2, h3, rfl⟩ := (validateVia_ok w _ g s s').1 h
  have hc := adjustState_caret w s3 hs
  have hr := adjustState_not_range w s3 (by rw [hs]; decide)
  rw [hr.1, hr.2]
  exact hc

theorem validate_equal_anchors [DecidableEq R] (w : World N R C) (g : ETextGranularity)
    (s s' : Selection N) (heq : s.m_base = s.m_extent) (h : validate w g s = .ok s') :
    s'.m_base = s'.m_extent := by
  obtain ⟨s1, s2, s3, h1, h2, h3, rfl⟩ := (validateVia_ok w _ g s s').1 h
  have e1 := moveToRendered_equal w s s1 heq h1
  have e2 := orderAnchors_equal w _ s1 s2 e1 h2
  have f3 := expandStartEnd_frame w _ g s2 s3 h3
  have f4 := adjustState_frame w s3
  rw [f4.1, f4.2.1, f3.1, f3.2.1, e2.1]

theorem expandUsingGranularity_ok [DecidableEq R] (w : World N R C) (g : ETextGranularity)
    (s s' : Selection N) (r : Bool) (h : expandUsingGranularity w g s = .ok (r, s')) :
    (s.m_state = .NONE ∧ r = false ∧ s' = s) ∨
      (s.m_state ≠ .NONE ∧ r = true ∧ validate w g s = .ok s') := by
  unfold expandUsingGranularity at h
  split at h
  · rename_i hn
    cases h
    exact Or.inl ⟨hn, rfl, rfl⟩
  · rename_i hn
    rw [run_bind_ok] at h
    obtain ⟨s2, h2, h⟩ := h
    rw [run_pure_ok] at h
    cases h
    exact Or.inr ⟨hn, rfl, h2⟩

theorem xPos_congr (w : World N R C) (s t : Selection N) (type : EPositionType)
    (recalc : Bool) (c : PartCache) (hstate : s.m_state = t.m_state)
    (hpos : (match type with
        | .START => s.m_start
        | .END => s.m_end
        | .BASE => s.m_base
        | .EXTENT => s.m_extent) =
      (match type with
        | .START => t.m_start
        | .END => t.m_end
        | .BASE => t.m_base
        | .EXTENT => t.m_extent)) :
    xPosForVerticalArrowNavigation w s type recalc c =
      xPosForVerticalArrowNavigation w t type recalc c := by
  unfold xPosForVerticalArrowNavigation
  rw [hstate]
  simp only [hpos]

theorem moveForward_edge [DecidableEq R] (w : World N R C) (g : ETextGranularity)
    (s t : Selection N) (c : PartCache)
    (hg : g = .LINE ∨ g = .PARAGRAPH ∨ g = .LINE_BOUNDARY ∨ g = .PARAGRAPH_BOUNDARY ∨
      (g = .CHARACTER ∧ s.m_state = .RANGE))
    (hstate : s.m_state = t.m_state) (hend : s.m_end = t.m_end) :
    candidatePart (modifyMovingRightForward w g s c) =
      candidatePart (modifyMovingRightForward w g t c) := by
  have hx : xPosForVerticalArrowNavigation w { s with m_modifyBiasSet := false } .END
        (decide (s.m_state = .RANGE)) c =
      xPosForVerticalArrowNavigation w { t with m_modifyBiasSet := false } .END
        (decide (t.m_state = .RANGE)) c := by
    rw [xPos_congr w { s with m_modifyBiasSet := false } { t with m_modifyBiasSet := false }
      .END (decide (s.m_state = .RANGE)) c hstate hend, hstate]
  rcases hg with rfl | rfl | rfl | rfl | ⟨rfl, hr⟩
  · simp only [modifyMovingRightForward, bind, Except.bind, pure, Except.pure]
    rw [hx]
    cases xPosForVerticalArrowNavigation w { t with m_modifyBiasSet := false } .END
      (decide (t.m_state = .RANGE)) c <;> simp [candidatePart, hend]
  · simp only [modifyMovingRightForward, bind, Except.bind, pure, Except.pure]
    rw [hx]
    cases xPosForVerticalArrowNavigation w { t with m_modifyBiasSet := false } .END
      (decide (t.m_state = .RANGE)) c <;> simp [candidatePart, hend]
  · simp only [modifyMovingRightForward, bind, Except.bind, pure, Except.pure, hend]
    cases selectionForLine w t.m_end <;> simp [candidatePart]
  · simp [modifyMovingRightForward, bind, Except.bind, pure, Except.pure, hend, candidatePart]
  · have ht : t.m_state = .RANGE := by rw [← hstate]; exact hr
    simp [modifyMovingRightForward, bind, Except.bind, pure, Except.pure, hr, ht, hend, candidatePart]

theorem moveBackward_edge [DecidableEq R] (w : World N R C) (g : ETextGranularity)
    (s t : Selection N) (c : PartCache)
    (hg : g = .LINE ∨ g = .PARAGRAPH ∨ g = .LINE_BOUNDARY ∨ g = .PARAGRAPH_BOUNDARY ∨
      (g = .CHARACTER ∧ s.m_state = .RANGE))
    (hstate : s.m_state = t.m_state) (hstart : s.m_start = t.m_start) :
    candidatePart (modifyMovingLeftBackward w g s c) =
      candidatePart (modifyMovingLeftBackward w g t c) := by
  have hx : xPosForVerticalArrowNavigation w { s with m_modifyBiasSet := false } .START
        (decide (s.m_state = .RANGE)) c =
      xPosForVerticalArrowNavigation w { t with m_modifyBiasSet := false } .START
        (decide (t.m_state = .RANGE)) c := by
    rw [xPos_congr w { s with m_modifyBiasSet := false } { t with m_modifyBiasSet := false }
      .START (decide (s.m_state = .RANGE)) c hstate hstart, hstate]
  rcases hg with rfl | rfl | rfl | rfl | ⟨rfl, hr⟩
  · simp only [modifyMovingLeftBackward, bind, Except.bind, pure, Except.pure]
    rw [hx]
    cases xPosForVerticalArrowNavigation w { t with m_modifyBiasSet := false } .START
      (decide (t.m_state = .RANGE)) c <;> simp [candidatePart, hstart]
  · simp only [modifyMovingLeftBackward, bind, Except.bind, pure, Except.pure]
    rw [hx]
    cases xPosForVerticalArrowNavigation w { t with m_modifyBiasSet := false } .START
      (decide (t.m_state = .RANGE)) c <;> simp [candidatePart, hstart]
  · simp only [modifyMovingLeftBackward, bind, Except.bind, pure, Except.pure, hstart]
    cases selectionForLine w t.m_start <;> simp [candidatePart]
  · simp [modifyMovingLeftBackward, bind, Except.bind, pure, Except.pure, hstart, candidatePart]
  · have ht : t.m_state = .RANGE := by rw [← hstate]; exact hr
    simp [modifyMovingLeftBackward, bind, Except.bind, pure, Except.pure, hr, ht, hstart, candidatePart]

theorem move_extent [DecidableEq R] (w : World N R C) (g : ETextGranularity)
    (s t : Selection N) (c : PartCache)
    (hg : g = .WORD ∨ (g = .CHARACTER ∧ s.m_state ≠ .RANGE))
    (hstate : s.m_state = t.m_state) (hext : s.m_extent = t.m_extent) :
    candidatePart (modifyMovingRightForward w g s c) =
        candidatePart (modifyMovingRightForward w g t c) ∧
      candidatePart (modifyMovingLeftBackward w g s c) =
        candidatePart (modifyMovingLeftBackward w g t c) := by
  rcases hg with rfl | ⟨rfl, hr⟩
  · simp [modifyMovingRightForward, modifyMovingLeftBackward, bind, Except.bind, pure,
      Except.pure, hext, candidatePart]
  · have ht : t.m_state ≠ .RANGE := by rw [← hstate]; exact hr
    simp [modifyMovingRightForward, modifyMovingLeftBackward, bind, Except.bind, pure,
      Except.pure, hr, ht, hext, candidatePart]

theorem move_document [DecidableEq R] (w : World N R C) (s t : Selection N) (c : PartCache)
    (hnode : s.m_start.node = t.m_start.node) :
    candidatePart (modifyMovingRightForward w .DOCUMENT s c) =
        candidatePart (modifyMovingRightForward w .DOCUMENT t c) ∧
      candidatePart (modifyMovingLeftBackward w .DOCUMENT s c) =
        candidatePart (modifyMovingLeftBackward w .DOCUMENT t c) := by
  simp only [modifyMovingRightForward, modifyMovingLeftBackward, documentEnd, documentStart,
    bind, Except.bind, pure, Except.pure, hnode, deref]
  cases t.m_start.node with
  | none => exact ⟨rfl, rfl⟩
  | some n => cases hd : w.getDocument n <;> simp [hd, candidatePart]

theorem selectionForLine_offText [DecidableEq R] (w : World N R C) (p : Position N)
    (h : offText w p) : selectionForLine w p = .ok Selection.init := by
  unfold selectionForLine
  cases hn : p.node with
  | none => rfl
  | some n =>
    have := h n hn
    simp only []
    rw [if_neg (by intro hx; rcases hx with hx | hx; exact this.1 hx; exact this.2 hx)]

theorem expandStartEnd_line_offText [DecidableEq R] (w : World N R C) (g : ETextGranularity)
    (hg : g = .LINE ∨ g = .LINE_BOUNDARY) (s : Selection N)
    (hb : offText w s.m_base) (he : offText w s.m_extent) :
    expandStartEnd w (selectionForLine w) g s = .ok s := by
  have h1 := selectionForLine_offText w s.m_base hb
  have h2 := selectionForLine_offText w s.m_extent he
  rcases hg with rfl | rfl <;>
    simp [expandStartEnd, h1, h2, bind, Except.bind, pure, Except.pure, Selection.notEmpty,
      Selection.isEmpty, Selection.init, Selection.copy, Selection.assignStart,
      Selection.assignEnd]

theorem orderAnchors_startEnd (w : World N R C) (ob : Position N) (s s2 : Selection N)
    (hne : ¬ (s.m_base.isEmpty = true ∧ s.m_extent.isEmpty = true))
    (h : orderAnchors w ob s = .ok s2) :
    s2.m_start = s.m_start ∧ s2.m_end = s.m_end := by
  unfold orderAnchors at h
  simp only [bind, Except.bind, pure, Except.pure] at h
  repeat' split at h
  all_goals first
    | (cases h; done)
    | (simp_all; done)
    | (cases h; simp_all [Selection.assignBase, Selection.assignExtent]; done)

theorem moveToRendered_startEnd (w : World N R C) (s : Selection N) (a b : Position N) :
    moveToRendered w (s.assignStartAndEnd a b) =
      (moveToRendered w s).map (fun t => t.assignStartAndEnd a b) := by
  unfold moveToRendered
  simp only [Selection.assignStartAndEnd, Selection.assignBase, Selection.assignExtent, bind,
    Except.bind, pure, Except.pure, Except.map]
  by_cases hb : s.m_base.notEmpty = true <;> by_cases heq : s.m_base = s.m_extent <;>
    simp only [hb, heq, if_true, if_false, decide_True, decide_False, Bool.not_true,
      Bool.not_false, Bool.and_false, Bool.and_true, Bool.false_eq_true]
  all_goals (cases updateLayout w s.m_extent <;> try cases updateLayout w s.m_base) <;>
    (try split_ifs) <;> first | rfl | simp_all

theorem orderAnchors_startEnd_in (w : World N R C) (l : Position N → Run (Selection N))
    (ob : Position N) (s : Selection N) (a b : Position N) :
    (orderAnchors w ob (s.assignStartAndEnd a b) >>= expandStartEnd w l .CHARACTER) =
      (orderAnchors w ob s >>= expandStartEnd w l .CHARACTER) := by
  unfold orderAnchors
  simp only [Selection.assignStartAndEnd, Selection.assignBase, Selection.assignExtent,
    Selection.assignBaseAndExtent, bind, Except.bind, pure, Except.pure]
  by_cases hb : s.m_base.isEmpty = true <;> by_cases he : s.m_extent.isEmpty = true <;>
    by_cases hn : s.m_base.node = s.m_extent.node <;> by_cases ho : ob.notEmpty = true <;>
    simp only [hb, he, hn, ho, if_true, if_false, Bool.and_true, Bool.and_false, Bool.and_self,
      Bool.false_eq_true, expandStartEnd, Selection.assignStartAndEnd]
  all_goals (try cases nodeIsBeforeNode w.dom w.loopFuel s.m_base.node s.m_extent.node) <;>
    (try split_ifs) <;> first | rfl | simp_all

theorem validate_character_startEnd [DecidableEq R] (w : World N R C) (s : Selection N)
    (a b : Position N) :
    validate w .CHARACTER (s.assignStartAndEnd a b) = validate w .CHARACTER s := by
  unfold validate validateVia
  simp only [moveToRendered_startEnd]
  cases h : moveToRendered w s with
  | error e => rfl
  | ok s1 =>
    have := congrArg (fun x => x >>= fun v => (pure (adjustState w v) : Run (Selection N)))
      (orderAnchors_startEnd_in w (selectionForLine w) s.m_base s1 a b)
    simp only [bind_assoc] at this
    exact this

theorem Siblings.nth_size (cs : Siblings) (i : Nat) (k : Siblings) (h : cs.nth i = some k) :
    i + k.size < cs.size := by
  induction cs generalizing i with
  | nil => simp [Siblings.nth] at h
  | cons k1 r _ ihr =>
    cases i with
    | zero =>
      simp only [Siblings.nth, Option.some.injEq] at h
      subst h
      simp only [Siblings.size]
      omega
    | succ i =>
      simp only [Siblings.nth] at h
      have := ihr i h
      simp only [Siblings.size]
      omega

theorem Siblings.nth_below (cs : Siblings) (i j : Nat) (h : (cs.nth i).isSome = true)
    (hj : j ≤ i) : (cs.nth j).isSome = true := by
  induction cs generalizing i j with
  | nil => simp [Siblings.nth] at h
  | cons k1 r _ ihr =>
    cases j with
    | zero => simp [Siblings.nth]
    | succ j =>
      cases i with
      | zero => omega
      | succ i =>
        simp only [Siblings.nth] at h ⊢
        exact ihr i j h (by omega)

theorem Siblings.kidsAt_append (cs : Siblings) (p q : List Nat) :
    cs.kidsAt (p ++ q) = (cs.kidsAt p).bind (fun k => k.kidsAt q) := by
  induction p generalizing cs with
  | nil => simp [Siblings.kidsAt]
  | cons i p ih =>
    simp only [List.cons_append, Siblings.kidsAt]
    cases cs.nth i with
    | none => simp
    | some k => simp [ih]

theorem Siblings.kidsAt_size (cs : Siblings) (p : List Nat) (k : Siblings)
    (h : cs.kidsAt p = some k) : p.length + k.size ≤ cs.size := by
  induction p generalizing cs with
  | nil =>
    simp only [Siblings.kidsAt, Option.some.injEq] at h
    subst h
    simp
  | cons i p ih =>
    simp only [Siblings.kidsAt] at h
    cases hn : cs.nth i with
    | none => simp [hn] at h
    | some k1 =>
      simp only [hn] at h
      have h1 := ih k1 h
      have h2 := Siblings.nth_size cs i k1 hn
      simp only [List.length_cons]
      omega

theorem Siblings.kidsAt_snoc (cs : Siblings) (c : List Nat) (i : Nat) :
    cs.kidsAt (c ++ [i]) = (cs.kidsAt c).bind (fun k => k.nth i) := by
  rw [Siblings.kidsAt_append]
  cases cs.kidsAt c with
  | none => rfl
  | some k =>
    simp only [Option.bind, Siblings.kidsAt]
    cases k.nth i <;> rfl

theorem Tree.isNode_prefix (t : Tree) (p q : List Nat) (h : t.isNode (p ++ q) = true) :
    t.isNode p = true := by
  unfold Tree.isNode at h ⊢
  rw [Siblings.kidsAt_append] at h
  cases hk : t.kids.kidsAt p with
  | none => simp [hk] at h
  | some k => rfl

theorem Tree.isNode_length (t : Tree) (p : List Nat) (h : t.isNode p = true) :
    p.length ≤ t.kids.size := by
  unfold Tree.isNode at h
  cases hk : t.kids.kidsAt p with
  | none => simp [hk] at h
  | some k =>
    have := Siblings.kidsAt_size t.kids p k hk
    omega

theorem Tree.isNode_index (t : Tree) (c : List Nat) (i : Nat) (h : t.isNode (c ++ [i]) = true) :
    c.length + i < t.kids.size := by
  unfold Tree.isNode at h
  rw [Siblings.kidsAt_snoc] at h
  cases hk : t.kids.kidsAt c with
  | none => simp [hk] at h
  | some k =>
    simp only [hk, Option.bind] at h
    cases hn : k.nth i with
    | none => simp [hn] at h
    | some k1 =>
      have h1 := Siblings.kidsAt_size t.kids c k hk
      have h2 := Siblings.nth_size k i k1 hn
      omega

theorem Tree.isNode_sibling (t : Tree) (c : List Nat) (i j : Nat)
    (h : t.isNode (c ++ [i]) = true) (hj : j ≤ i) : t.isNode (c ++ [j]) = true := by
  unfold Tree.isNode at h ⊢
  rw [Siblings.kidsAt_snoc] at h ⊢
  cases hk : t.kids.kidsAt c with
  | none => simp [hk] at h
  | some k =>
    simp only [hk, Option.bind] at h ⊢
    exact Siblings.nth_below k i j h hj

theorem Tree.parentNode_snoc (t : Tree) (c : List Nat) (i : Nat) :
    t.api.parentNode (c ++ [i]) = some c := by
  simp [Tree.api]

theorem Tree.firstChild_of_child (t : Tree) (c : List Nat) (i : Nat)
    (h : t.isNode (c ++ [i]) = true) : t.api.firstChild c = some (c ++ [0]) := by
  unfold Tree.isNode at h
  rw [Siblings.kidsAt_snoc] at h
  simp only [Tree.api]
  cases hk : t.kids.kidsAt c with
  | none => simp [hk] at h
  | some k =>
    cases k with
    | nil => simp [hk, Siblings.nth] at h
    | cons a b => rfl

theorem Tree.nextSibling_snoc (t : Tree) (c : List Nat) (i : Nat) :
    t.api.nextSibling (c ++ [i]) =
      if t.isNode (c ++ [i + 1]) then some (c ++ [i + 1]) else none := by
  simp [Tree.api]

theorem Tree.depthLoop_eq (t : Tree) (fuel : Nat) (p : List Nat) (d : Nat)
    (h : p.length < fuel) : depthLoop t.api fuel p d = .ok (d + p.length) := by
  induction fuel generalizing p d with
  | zero => omega
  | succ fuel ih =>
    rcases List.eq_nil_or_concat p with rfl | ⟨c, i, rfl⟩
    · simp [depthLoop, Tree.api]
    · simp only [depthLoop, List.concat_eq_append, Tree.parentNode_snoc]
      rw [ih c (d + 1) (by simp at h; omega)]
      simp
      omega

theorem Tree.climbLoop_eq (t : Tree) (target : Nat) (k : Nat) (p : List Nat)
    (hk : p.length = k) :
    climbLoop t.api target k (some p) = .ok (some (p.take target)) := by
  induction k generalizing p with
  | zero =>
    have : p = [] := List.length_eq_zero.1 hk
    subst this
    simp [climbLoop]
  | succ k ih =>
    rcases List.eq_nil_or_concat p with rfl | ⟨c, i, rfl⟩
    · simp at hk
    · simp only [List.concat_eq_append, List.length_append, List.length_singleton,
        Nat.add_right_cancel_iff] at hk
      simp only [climbLoop, List.concat_eq_append]
      split
      · rename_i hgt
        simp only [Tree.parentNode_snoc]
        rw [ih c hk]
        rw [List.take_append_of_le_length (by omega)]
      · rename_i hle
        rw [List.take_of_length_le (by simp; omega)]

theorem commonParentLoop_same {N : Type} [DecidableEq N] (api : NodeAPI N) (fuel : Nat) (x : N) :
    commonParentLoop api (fuel + 1) (some x) (some x) = .ok (x, x) := by
  simp [commonParentLoop]

theorem Tree.commonParentLoop_eq (t : Tree) (c : List Nat) (i j : Nat) (hij : i ≠ j)
    (m : Nat) (x y : List Nat) (hx : x.length = m) (hy : y.length = m) (fuel : Nat)
    (hf : m < fuel) :
    commonParentLoop t.api fuel (some (c ++ i :: x)) (some (c ++ j :: y)) =
      .ok (c ++ [i], c ++ [j]) := by
  induction m generalizing x y fuel with
  | zero =>
    have hx0 : x = [] := List.length_eq_zero.1 hx
    have hy0 : y = [] := List.length_eq_zero.1 hy
    subst hx0 hy0
    cases fuel with
    | zero => omega
    | succ fuel => simp [commonParentLoop, Tree.parentNode_snoc]
  | succ m ih =>
    cases fuel with
    | zero => omega
    | succ fuel =>
      rcases List.eq_nil_or_concat x with rfl | ⟨x1, u, rfl⟩
      · simp at hx
      rcases List.eq_nil_or_concat y with rfl | ⟨y1, v, rfl⟩
      · simp at hy
      simp only [List.concat_eq_append, List.length_append, List.length_singleton,
        Nat.add_right_cancel_iff] at hx hy
      have e1 : c ++ i :: List.concat x1 u = (c ++ i :: x1) ++ [u] := by simp
      have e2 : c ++ j :: List.concat y1 v = (c ++ j :: y1) ++ [v] := by simp
      rw [e1, e2]
      simp only [commonParentLoop, Tree.parentNode_snoc]
      have hne : (some (c ++ i :: x1) : Option (List Nat)) ≠ some (c ++ j :: y1) := by
        intro h
        simp only [Option.some.injEq, List.append_cancel_left_eq, List.cons.injEq] at h
        exact hij h.1
      simp only [ne_eq, hne, not_false_eq_true, if_true]
      exact ih x1 y1 hx hy fuel (by omega)

theorem Tree.scanLoop_hit (t : Tree) (c : List Nat) (i j : Nat)
    (hi : t.isNode (c ++ [i]) = true) (hj : t.isNode (c ++ [j]) = true)
    (fuel k : Nat) (hki : k ≤ i) (hkj : k ≤ j) (hf : min i j < fuel + k) :
    scanLoop t.api (c ++ [i]) (c ++ [j]) fuel (some (c ++ [k])) = .ok (decide (i ≤ j)) := by
  induction fuel generalizing k with
  | zero => omega
  | succ fuel ih =>
    simp only [scanLoop, List.append_cancel_left_eq, List.cons.injEq, and_true]
    by_cases h1 : k = i
    · subst h1
      simp [hkj]
    · by_cases h2 : k = j
      · subst h2
        have : ¬ i ≤ k := by omega
        simp [h1, this]
      · simp only [h1, h2, if_false, Tree.nextSibling_snoc]
        have hn : t.isNode (c ++ [k + 1]) = true :=
          Tree.isNode_sibling t c i (k + 1) hi (by omega)
        simp only [hn, if_true]
        exact ih (k + 1) (by omega) (by omega) (by omega)

theorem Tree.scanLoop_miss (t : Tree) (c x y : List Nat)
    (hx : ∀ k, x ≠ c ++ [k]) (hy : ∀ k, y ≠ c ++ [k])
    (fuel k : Nat) (hk : t.isNode (c ++ [k]) = true) (hf : t.kids.size < fuel + k) :
    scanLoop t.api x y fuel (some (c ++ [k])) = .ok false := by
  induction fuel generalizing k with
  | zero =>
    have := Tree.isNode_index t c k hk
    omega
  | succ fuel ih =>
    have hlt := Tree.isNode_index t c k hk
    simp only [scanLoop, (hx k).symm, (hy k).symm, if_false, Tree.nextSibling_snoc]
    by_cases hn : t.isNode (c ++ [k + 1]) = true
    · simp only [hn, if_true]
      exact ih (k + 1) hn (by omega)
    · simp only [hn, Bool.false_eq_true, if_false]
      cases fuel with
      | zero => omega
      | succ fuel => simp [scanLoop]

theorem Tree.nodeIsBeforeNode_climbed (t : Tree) (a b : List Nat) (ha : t.isNode a = true)
    (hb : t.isNode b = true) (hne : a ≠ b) :
    nodeIsBeforeNode t.api t.fuel (some a) (some b) =
      (commonParentLoop t.api t.fuel (some (a.take b.length)) (some (b.take a.length)) >>=
        fun xy => scanLoop t.api xy.1 xy.2 t.fuel
          (match t.api.parentNode xy.1 with
            | some p => t.api.firstChild p
            | none => t.api.firstChild xy.1)) := by
  have la := Tree.isNode_length t a ha
  have lb := Tree.isNode_length t b hb
  simp only [nodeIsBeforeNode, hne, if_false, bind, Except.bind]
  rw [Tree.depthLoop_eq t t.fuel a 0 (by unfold Tree.fuel; omega),
    Tree.depthLoop_eq t t.fuel b 0 (by unfold Tree.fuel; omega)]
  simp only [Nat.zero_add]
  rw [Tree.climbLoop_eq t a.length b.length b rfl, Tree.climbLoop_eq t b.length a.length a rfl]
  simp only []
  cases commonParentLoop t.api t.fuel (some (a.take b.length)) (some (b.take a.length)) with
  | error e => rfl
  | ok xy =>
    obtain ⟨x, y⟩ := xy
    simp only []
    cases t.api.parentNode x <;> rfl

theorem Tree.comparator_ancestor (t : Tree) (a b : List Nat) (x y : List Nat)
    (hx : t.isNode x = true) (hy : t.isNode y = true) (hne : x ≠ y)
    (hxa : x.take y.length = a) (hya : y.take x.length = a) (ha : t.isNode a = true) :
    nodeIsBeforeNode t.api t.fuel (some x) (some y) = .ok (decide (a ≠ [])) := by
  rw [Tree.nodeIsBeforeNode_climbed t x y hx hy hne, hxa, hya]
  have hfuel : t.fuel = (t.kids.size + 1) + 1 := rfl
  rw [hfuel, commonParentLoop_same]
  simp only [bind, Except.bind]
  rcases List.eq_nil_or_concat a with rfl | ⟨c, i, rfl⟩
  · simp only [Tree.api, if_true, ne_eq, not_true_eq_false, decide_False]
    cases hk : t.kids.kidsAt [] with
    | none => simp [scanLoop]
    | some k =>
      cases k with
      | nil => simp [scanLoop]
      | cons k1 r =>
        simp only [List.nil_append]
        have h0 : t.isNode ([] ++ [0]) = true := by
          simp only [Siblings.kidsAt, Option.some.injEq] at hk
          simp [Tree.isNode, Siblings.kidsAt, hk, Siblings.nth]
        have := Tree.scanLoop_miss t [] [] [] (by simp) (by simp) (t.kids.size + 1 + 1) 0 h0
          (by omega)
        simpa using this
  · simp only [List.concat_eq_append] at ha ⊢
    simp only [Tree.parentNode_snoc, Tree.firstChild_of_child t c i ha]
    have hi := Tree.isNode_index t c i ha
    rw [Tree.scanLoop_hit t c i i ha ha _ 0 (by omega) (by omega) (by simp; omega)]
    simp

theorem Tree.comparator_apart (t : Tree) (c : List Nat) (i j : Nat) (x y : List Nat)
    (hij : i ≠ j) (ha : t.isNode (c ++ i :: x) = true) (hb : t.isNode (c ++ j :: y) = true) :
    nodeIsBeforeNode t.api t.fuel (some (c ++ i :: x)) (some (c ++ j :: y)) =
      .ok (decide (i < j)) := by
  have hne : c ++ i :: x ≠ c ++ j :: y := by
    intro h
    simp only [List.append_cancel_left_eq, List.cons.injEq] at h
    exact hij h.1
  rw [Tree.nodeIsBeforeNode_climbed t _ _ ha hb hne]
  have t1 : (c ++ i :: x).take (c ++ j :: y).length = c ++ i :: x.take y.length := by
    rw [List.length_append, List.length_cons, List.take_append, List.take_succ_cons]
  have t2 : (c ++ j :: y).take (c ++ i :: x).length = c ++ j :: y.take x.length := by
    rw [List.length_append, List.length_cons, List.take_append, List.take_succ_cons]
  rw [t1, t2]
  have hci : t.isNode (c ++ [i]) = true :=
    Tree.isNode_prefix t (c ++ [i]) x (by simpa using ha)
  have hcj : t.isNode (c ++ [j]) = true :=
    Tree.isNode_prefix t (c ++ [j]) y (by simpa using hb)
  have la := Tree.isNode_length t _ ha
  have li := Tree.isNode_index t c i hci
  simp only [List.length_append, List.length_cons] at la
  rw [Tree.commonParentLoop_eq t c i j hij (min x.length y.length) _ _
    (by simp [List.length_take]; omega) (by simp [List.length_take]) t.fuel
    (by unfold Tree.fuel; omega)]
  simp only [bind, Except.bind, Tree.parentNode_snoc, Tree.firstChild_of_child t c i hci]
  rw [Tree.scanLoop_hit t c i j hci hcj _ 0 (by omega) (by omega)
    (by unfold Tree.fuel; omega)]
  congr 1
  simp only [decide_eq_decide]
  omega

theorem indexOf_cons_ne' {α : Type} [BEq α] [LawfulBEq α] {a b : α} (l : List α) (h : b ≠ a) :
    List.indexOf a (b :: l) = List.indexOf a l + 1 := by
  have hbe : (b == a) = false := by simpa using h
  simp only [List.indexOf_cons, hbe, cond_false]
theorem indexOf_append_mem' {α : Type} [BEq α] [LawfulBEq α] {a : α} {l₁ l₂ : List α}
    (h : a ∈ l₁) : List.indexOf a (l₁ ++ l₂) = List.indexOf a l₁ := by
  induction l₁ with
  | nil => simp at h
  | cons b l ih =>
    by_cases hb : b = a
    · subst hb
      simp [List.indexOf_cons]
    · have : a ∈ l := by
        rcases List.mem_cons.1 h with h1 | h1
        · exact absurd h1.symm hb
        · exact h1
      rw [List.cons_append, indexOf_cons_ne' _ hb, indexOf_cons_ne' _ hb, ih this]
theorem indexOf_append_not_mem' {α : Type} [BEq α] [LawfulBEq α] {a : α} {l₁ l₂ : List α}
    (h : a ∉ l₁) : List.indexOf a (l₁ ++ l₂) = l₁.length + List.indexOf a l₂ := by
  induction l₁ with
  | nil => simp
  | cons b l ih =>
    have hb : b ≠ a := fun e => h (by simp [e])
    have hl : a ∉ l := fun e => h (by simp [e])
    rw [List.cons_append, indexOf_cons_ne' _ hb, ih hl, List.length_cons]
    omega
theorem indexOf_lt_length' {α : Type} [BEq α] [LawfulBEq α] {a : α} {l : List α}
    (h : a ∈ l) : List.indexOf a l < l.length := by
  induction l with
  | nil => simp at h
  | cons b l ih =>
    by_cases hb : b = a
    · subst hb
      simp [List.indexOf_cons]
    · have : a ∈ l := by
        rcases List.mem_cons.1 h with h1 | h1
        · exact absurd h1.symm hb
        · exact h1
      rw [indexOf_cons_ne' _ hb, List.length_cons]
      have := ih this
      omega


theorem indexOf_map_cons (l : List (List Nat)) (s : Nat) (p : List Nat) :
    List.indexOf (s :: p) (l.map (fun q => s :: q)) = List.indexOf p l := by
  induction l with
  | nil => simp
  | cons a l ih =>
    simp only [List.map_cons, List.indexOf_cons, ih]
    by_cases h : a = p <;> simp [h]

theorem Siblings.mem_walk (cs : Siblings) (s h : Nat) (q : List Nat) :
    (h :: q) ∈ cs.walk s ↔ s ≤ h ∧ (cs.kidsAt ((h - s) :: q)).isSome = true := by
  induction cs generalizing s h q with
  | nil => simp [Siblings.walk, Siblings.kidsAt, Siblings.nth]
  | cons k r ihk ihr =>
    simp only [Siblings.walk, List.mem_append, List.mem_cons, List.cons.injEq, List.mem_map]
    rw [ihr]
    by_cases hs : h = s
    · subst hs
      simp only [Siblings.kidsAt, Nat.sub_self, Siblings.nth, true_and, le_refl]
      cases q with
      | nil => simp [Siblings.kidsAt]
      | cons h' q' =>
        have := ihk 0 h' q'
        simp only [Nat.zero_le, true_and, Nat.sub_zero] at this
        simp [this]
    · by_cases hlt : s < h
      · have e1 : h - s = (h - (s + 1)) + 1 := by omega
        rw [e1]
        simp only [Siblings.kidsAt, Siblings.nth]
        constructor
        · rintro ((⟨h1, _⟩ | ⟨a, _, h1, _⟩) | ⟨_, h2⟩)
          · omega
          · omega
          · exact ⟨by omega, h2⟩
        · rintro ⟨_, h2⟩
          exact Or.inr ⟨by omega, h2⟩
      · constructor
        · rintro ((⟨h1, _⟩ | ⟨a, _, h1, _⟩) | ⟨h1, _⟩) <;> omega
        · rintro ⟨h1, _⟩
          omega

theorem Siblings.walk_order (cs : Siblings) (s : Nat) (c : List Nat) (i j : Nat)
    (x y : List Nat) (hij : i < j) (hp : (c ++ i :: x) ∈ cs.walk s)
    (hq : (c ++ j :: y) ∈ cs.walk s) :
    List.indexOf (c ++ i :: x) (cs.walk s) < List.indexOf (c ++ j :: y) (cs.walk s) := by
  induction cs generalizing s c with
  | nil => simp [Siblings.walk] at hp
  | cons k r ihk ihr =>
    have hA : ∀ p ∈ ([s] :: (k.walk 0).map (fun q => s :: q)), ∃ q, p = s :: q := by
      intro p hp
      simp only [List.mem_cons, List.mem_map] at hp
      rcases hp with rfl | ⟨a, _, rfl⟩
      · exact ⟨[], rfl⟩
      · exact ⟨a, rfl⟩
    have hB : ∀ h q, (h :: q) ∈ r.walk (s + 1) → s + 1 ≤ h := fun h q hm =>
      ((Siblings.mem_walk r (s + 1) h q).1 hm).1
    simp only [Siblings.walk] at hp hq ⊢
    cases c with
    | nil =>
      simp only [List.nil_append] at hp hq ⊢
      by_cases his : i = s
      · subst his
        have hpA : (i :: x) ∈ ([i] :: (k.walk 0).map (fun q => i :: q)) := by
          rcases List.mem_append.1 hp with h | h
          · exact h
          · have := hB i x h
            omega
        have hqA : (j :: y) ∉ ([i] :: (k.walk 0).map (fun q => i :: q)) := by
          intro h
          obtain ⟨q, hq'⟩ := hA _ h
          simp only [List.cons.injEq] at hq'
          omega
        rw [indexOf_append_mem' hpA, indexOf_append_not_mem' hqA]
        have := indexOf_lt_length' hpA
        omega
      · have hpA : (i :: x) ∉ ([s] :: (k.walk 0).map (fun q => s :: q)) := by
          intro h
          obtain ⟨q, hq'⟩ := hA _ h
          simp only [List.cons.injEq] at hq'
          omega
        have hqA : (j :: y) ∉ ([s] :: (k.walk 0).map (fun q => s :: q)) := by
          intro h
          obtain ⟨q, hq'⟩ := hA _ h
          simp only [List.cons.injEq] at hq'
          have hpB : (i :: x) ∈ r.walk (s + 1) := by
            rcases List.mem_append.1 hp with h | h
            · exact absurd h hpA
            · exact h
          have := hB i x hpB
          omega
        have hpB : (i :: x) ∈ r.walk (s + 1) := by
          rcases List.mem_append.1 hp with h | h
          · exact absurd h hpA
          · exact h
        have hqB : (j :: y) ∈ r.walk (s + 1) := by
          rcases List.mem_append.1 hq with h | h
          · exact absurd h hqA
          · exact h
        rw [indexOf_append_not_mem' hpA, indexOf_append_not_mem' hqA]
        have := ihr (s + 1) [] hpB hqB
        simp only [List.nil_append] at this
        omega
    | cons h c =>
      have e1 : (h :: c) ++ i :: x = h :: (c ++ i :: x) := rfl
      have e2 : (h :: c) ++ j :: y = h :: (c ++ j :: y) := rfl
      rw [e1] at hp ⊢
      rw [e2] at hq ⊢
      by_cases hhs : h = s
      · subst hhs
        have hpA : (h :: (c ++ i :: x)) ∈ ([h] :: (k.walk 0).map (fun q => h :: q)) := by
          rcases List.mem_append.1 hp with h1 | h1
          · exact h1
          · have := hB _ _ h1
            omega
        have hqA : (h :: (c ++ j :: y)) ∈ ([h] :: (k.walk 0).map (fun q => h :: q)) := by
          rcases List.mem_append.1 hq with h1 | h1
          · exact h1
          · have := hB _ _ h1
            omega
        rw [indexOf_append_mem' hpA, indexOf_append_mem' hqA]
        have n1 : ([h] : List Nat) ≠ h :: (c ++ i :: x) := by simp
        have n2 : ([h] : List Nat) ≠ h :: (c ++ j :: y) := by simp
        rw [indexOf_cons_ne' _ n1, indexOf_cons_ne' _ n2, indexOf_map_cons,
          indexOf_map_cons]
        have hp' : (c ++ i :: x) ∈ k.walk 0 := by
          simp only [List.mem_cons, List.mem_map, List.cons.injEq, true_and] at hpA
          rcases hpA with h1 | ⟨a, ha, rfl⟩
          · simp at h1
          · exact ha
        have hq' : (c ++ j :: y) ∈ k.walk 0 := by
          simp only [List.mem_cons, List.mem_map, List.cons.injEq, true_and] at hqA
          rcases hqA with h1 | ⟨a, ha, rfl⟩
          · simp at h1
          · exact ha
        have := ihk 0 c hp' hq'
        omega
      · have hpA : (h :: (c ++ i :: x)) ∉ ([s] :: (k.walk 0).map (fun q => s :: q)) := by
          intro h1
          obtain ⟨q, hq'⟩ := hA _ h1
          simp only [List.cons.injEq] at hq'
          exact hhs hq'.1
        have hqA : (h :: (c ++ j :: y)) ∉ ([s] :: (k.walk 0).map (fun q => s :: q)) := by
          intro h1
          obtain ⟨q, hq'⟩ := hA _ h1
          simp only [List.cons.injEq] at hq'
          exact hhs hq'.1
        have hpB : (h :: (c ++ i :: x)) ∈ r.walk (s + 1) := by
          rcases List.mem_append.1 hp with h1 | h1
          · exact absurd h1 hpA
          · exact h1
        have hqB : (h :: (c ++ j :: y)) ∈ r.walk (s + 1) := by
          rcases List.mem_append.1 hq with h1 | h1
          · exact absurd h1 hqA
          · exact h1
        rw [indexOf_append_not_mem' hpA, indexOf_append_not_mem' hqA]
        have := ihr (s + 1) (h :: c) hpB hqB
        simp only [List.cons_append] at this
        omega

theorem Tree.mem_preorder (t : Tree) (p : List Nat) : p ∈ t.preorder ↔ t.isNode p = true := by
  unfold Tree.preorder Tree.isNode
  cases p with
  | nil => simp [Siblings.kidsAt]
  | cons h q =>
    simp only [List.mem_cons, reduceCtorEq, false_or]
    rw [Siblings.mem_walk]
    simp

theorem Tree.visitedBefore_apart (t : Tree) (c : List Nat) (i j : Nat) (x y : List Nat)
    (hij : i ≠ j) (ha : t.isNode (c ++ i :: x) = true) (hb : t.isNode (c ++ j :: y) = true) :
    t.visitedBefore (c ++ i :: x) (c ++ j :: y) = decide (i < j) := by
  have ma := (Tree.mem_preorder t _).2 ha
  have mb := (Tree.mem_preorder t _).2 hb
  have wa : (c ++ i :: x) ∈ t.kids.walk 0 := by
    unfold Tree.preorder at ma
    rcases List.mem_cons.1 ma with h | h
    · simp at h
    · exact h
  have wb : (c ++ j :: y) ∈ t.kids.walk 0 := by
    unfold Tree.preorder at mb
    rcases List.mem_cons.1 mb with h | h
    · simp at h
    · exact h
  have na : ([] : List Nat) ≠ c ++ i :: x := by simp
  have nb : ([] : List Nat) ≠ c ++ j :: y := by simp
  unfold Tree.visitedBefore Tree.preorder
  rw [indexOf_cons_ne' _ na, indexOf_cons_ne' _ nb]
  rcases Nat.lt_or_gt_of_ne hij with h | h
  · have := Siblings.walk_order t.kids 0 c i j x y h wa wb
    simp only [decide_eq_decide]
    omega
  · have := Siblings.walk_order t.kids 0 c j i y x h wb wa
    simp only [decide_eq_decide]
    omega

theorem apart_paths (a b : List Nat) (hab : ¬ a <+: b) (hba : ¬ b <+: a) :
    ∃ c i j x y, a = c ++ i :: x ∧ b = c ++ j :: y ∧ i ≠ j := by
  induction a generalizing b with
  | nil => exact absurd (List.nil_prefix) hab
  | cons h a ih =>
    cases b with
    | nil => exact absurd (List.nil_prefix) hba
    | cons g b =>
      by_cases hg : h = g
      · subst hg
        have h1 : ¬ a <+: b := fun hp => hab ((List.prefix_cons_inj h).2 hp)
        have h2 : ¬ b <+: a := fun hp => hba ((List.prefix_cons_inj h).2 hp)
        obtain ⟨c, i, j, x, y, e1, e2, hij⟩ := ih b h1 h2
        exact ⟨h :: c, i, j, x, y, by simp [e1], by simp [e2], hij⟩
      · exact ⟨[], h, g, a, b, rfl, rfl, hg⟩

theorem hasDepth_exists (api : NodeAPI N) (rk : N → Nat)
    (hp : ∀ n p, api.parentNode n = some p → rk p < rk n) (n : N) :
    ∃ k, HasDepth api n k ∧ k ≤ rk n := by
  have key : ∀ r n, rk n = r → ∃ k, HasDepth api n k ∧ k ≤ rk n := by
    intro r
    induction r using Nat.strong_induction_on with
    | _ r ih =>
      intro n hr
      cases hpn : api.parentNode n with
      | none => exact ⟨0, HasDepth.root n hpn, Nat.zero_le _⟩
      | some p =>
        have hlt := hp n p hpn
        obtain ⟨k, hk, hle⟩ := ih (rk p) (by omega) p rfl
        exact ⟨k + 1, HasDepth.step n p k hpn hk, by omega⟩
  exact key (rk n) n rfl

theorem depthLoop_hasDepth (api : NodeAPI N) (n : N) (k : Nat) (h : HasDepth api n k)
    (fuel d : Nat) (hf : k < fuel) : depthLoop api fuel n d = .ok (d + k) := by
  induction h generalizing fuel d with
  | root n hn =>
    cases fuel with
    | zero => omega
    | succ fuel => simp [depthLoop, hn]
  | step n p k hn _ ih =>
    cases fuel with
    | zero => omega
    | succ fuel =>
      simp only [depthLoop, hn]
      rw [ih fuel (d + 1) (by omega)]
      congr 1
      omega

theorem climbLoop_hasDepth (api : NodeAPI N) (n : N) (k : Nat) (h : HasDepth api n k)
    (target : Nat) :
    ∃ m, climbLoop api target k (some n) = .ok (some m) ∧ HasDepth api m (min k target) := by
  induction h with
  | root n hn => exact ⟨n, by simp [climbLoop], by simpa using HasDepth.root n hn⟩
  | step n p k hn hk ih =>
    by_cases hgt : k + 1 > target
    · obtain ⟨m, hm, hd⟩ := ih
      refine ⟨m, by simp [climbLoop, hgt, hn, hm], ?_⟩
      have : min (k + 1) target = min k target := by omega
      rw [this]
      exact hd
    · refine ⟨n, by simp [climbLoop, hgt], ?_⟩
      have : min (k + 1) target = k + 1 := by omega
      rw [this]
      exact HasDepth.step n p k hn hk

theorem commonParentLoop_hasDepth (api : NodeAPI N) (k : Nat) (x y : N)
    (hx : HasDepth api x k) (hy : HasDepth api y k) (fuel : Nat) (hf : k < fuel) :
    ∃ xy, commonParentLoop api fuel (some x) (some y) = .ok xy := by
  induction k generalizing x y fuel with
  | zero =>
    cases fuel with
    | zero => omega
    | succ fuel =>
      cases hx with
      | root _ hx0 =>
        cases hy with
        | root _ hy0 => exact ⟨(x, y), by simp [commonParentLoop, hx0, hy0]⟩
  | succ k ih =>
    cases fuel with
    | zero => omega
    | succ fuel =>
      cases hx with
      | step _ p _ hxp hpk =>
        cases hy with
        | step _ q _ hyq hqk =>
          by_cases he : api.parentNode x = api.parentNode y
          · exact ⟨(x, y), by simp [commonParentLoop, he]⟩
          · obtain ⟨xy, h⟩ := ih p q hpk hqk fuel (by omega)
            refine ⟨xy, ?_⟩
            simp only [commonParentLoop, ne_eq, he, not_false_eq_true, if_true]
            rw [hxp, hyq]
            exact h

theorem scanLoop_returns (api : NodeAPI N) (sr : N → Nat)
    (hs : ∀ n m, api.nextSibling n = some m → sr m < sr n) (x y : N) (fuel : Nat)
    (n : Option N) (h0 : 0 < fuel) (hn : ∀ m, n = some m → sr m + 1 < fuel) :
    ∃ r, scanLoop api x y fuel n = .ok r := by
  induction fuel generalizing n with
  | zero => omega
  | succ fuel ih =>
    cases n with
    | none => exact ⟨false, by simp [scanLoop]⟩
    | some m =>
      have hm := hn m rfl
      simp only [scanLoop]
      by_cases h1 : m = x
      · exact ⟨true, by simp [h1]⟩
      · by_cases h2 : m = y
        · exact ⟨false, by rw [if_neg h1, if_pos h2]⟩
        · simp only [h1, h2, if_false]
          exact ih (api.nextSibling m) (by omega) (fun m' hm' => by
            have := hs m m' hm'
            omega)

theorem toRange_of_ends [DecidableEq R] (w : World N R C) (sel : Selection N) (h : sel.m_state = .RANGE) :
    toRange w sel =
      (updateLayout w sel.m_start >>= fun _ => toRangeEnds w sel >>= fun se =>
        pure (some ⟨(w.equivalentRangeCompliantPosition se.1).node,
          (w.equivalentRangeCompliantPosition se.1).offset,
          (w.equivalentRangeCompliantPosition se.2).node,
          (w.equivalentRangeCompliantPosition se.2).offset⟩)) := by
  unfold toRange toRangeEnds
  simp only [Selection.isEmpty, h, reduceCtorEq, decide_False, Bool.false_eq_true, if_false,
    bind, Except.bind, pure, Except.pure]
  cases updateLayout w sel.m_start with
  | error e => rfl
  | ok u =>
    simp only []
    split_ifs
    · rfl
    · cases nodeIsBeforeNode w.dom w.loopFuel (w.downstream false sel.m_start).node
        (w.upstream false sel.m_end).node with
      | error e => rfl
      | ok b => cases b <;> rfl

theorem validate_character_consistent [DecidableEq R] (w : World N R C) (s s' : Selection N)
    (h : validate w .CHARACTER s = .ok s') : Consistent w s' :=
  have hv := validate_character w s s' h
  ⟨hv.2.2.1, hv.2.1⟩

theorem reachable_pinned [DecidableEq R] (w : World N R C) (allow : ETextGranularity → Bool)
    (hall : ∀ g, allow g = true → g = .CHARACTER) (s : Selection N)
    (h : Reachable w allow s) : Consistent w s ∨ Pinned s := by
  induction h with
  | init => exact Or.inl ⟨fun _ => ⟨rfl, rfl⟩, fun h => by cases h⟩
  | ofPosition pos s' h => exact Or.inl (validate_character_consistent w _ s' h)
  | ofRange r s' h => exact Or.inl (validate_character_consistent w _ s' h)
  | ofBaseExtent b e s' h => exact Or.inl (validate_character_consistent w _ s' h)
  | copy s _ ih => exact ih
  | assign s o _ _ _ ih => exact ih
  | setAffinity a s _ ih =>
    unfold setAffinity
    split
    · exact ih
    · exact ih
  | moveTo b e s s' _ h _ => exact Or.inl (validate_character_consistent w _ s' h)
  | clear s s' _ h _ => exact Or.inl (validate_character_consistent w _ s' h)
  | setBase p s s' _ h _ => exact Or.inl (validate_character_consistent w _ s' h)
  | setExtent p s s' _ h _ => exact Or.inl (validate_character_consistent w _ s' h)
  | setBaseAndExtent b e s s' _ h _ => exact Or.inl (validate_character_consistent w _ s' h)
  | setStart p s s' _ h _ => exact Or.inl (validate_character_consistent w _ s' h)
  | setEnd p s s' _ h _ => exact Or.inl (validate_character_consistent w _ s' h)
  | setStartAndEnd b e s s' _ h _ => exact Or.inl (validate_character_consistent w _ s' h)
  | modify alter dir g s s' cache c' r _ h ih =>
    obtain ⟨pos, _, hf, ht⟩ := modify_ok w alter dir g s s' cache c' r h
    cases r with
    | false =>
      obtain ⟨_, rfl⟩ := hf rfl
      cases alter <;> cases dir <;> cases hb : s.m_modifyBiasSet <;>
        simp only [modifyBias, Selection.assignBaseAndExtent, hb, Bool.false_eq_true,
          if_false, if_true] <;>
        first
          | exact ih
          | exact Or.inr (Or.inl ⟨rfl, rfl⟩)
          | exact Or.inr (Or.inr ⟨rfl, rfl⟩)
    | true =>
      obtain ⟨_, hm, hx⟩ := ht rfl
      cases alter with
      | MOVE => exact Or.inl (validate_character_consistent w _ s' (hm rfl))
      | EXTEND => exact Or.inl (validate_character_consistent w _ s' (hx rfl))
  | expandUsingGranularity g s s' r hg _ h ih =>
    have := hall g hg
    subst this
    unfold expandUsingGranularity at h
    split at h
    · cases h
      exact ih
    · rw [run_bind_ok] at h
      obtain ⟨s2, h2, h⟩ := h
      rw [run_pure_ok] at h
      cases h
      exact Or.inl (validate_character_consistent w _ _ h2)

theorem runsAt_append (w : World N R C) (y : Int) (a b : List R) :
    runsAt w y (a ++ b) = runsAt w y a ++ runsAt w y b := by
  simp [runsAt, List.flatMap_append]

theorem runsAt_cons (w : World N R C) (y : Int) (r : R) (a : List R) :
    runsAt w y (r :: a) = runsAt w y [r] ++ runsAt w y a := by
  simp [runsAt]

theorem runsAt_single_head (w : World N R C) (y : Int) (r : R) :
    (runsAt w y [r]).head? =
      (if w.rIsText r then (w.textBoxes r).find? (fun box => box.m_y == y) else none).map
        (fun box => (r, box)) := by
  simp only [runsAt, List.flatMap_cons, List.flatMap_nil, List.append_nil]
  split
  · rw [List.head?_map, List.filter_head?]
  · rfl

theorem runsAt_single_last (w : World N R C) (y : Int) (r : R) :
    (runsAt w y [r]).getLast? =
      (if w.rIsText r then (w.textBoxes r).reverse.find? (fun box => box.m_y == y)
        else none).map (fun box => (r, box)) := by
  simp only [runsAt, List.flatMap_cons, List.flatMap_nil, List.append_nil]
  split
  · rw [List.getLast?_map, ← List.head?_reverse, ← List.filter_reverse, List.filter_head?]
  · rfl

theorem firstRunStart_append (w : World N R C)
    (hel : ∀ r, w.rIsText r = true → (w.rElement r).isSome = true) (y : Int) (a b : List R) :
    firstRunStart w (runsAt w y (a ++ b)) =
      if (firstRunStart w (runsAt w y a) : Position N).notEmpty then firstRunStart w (runsAt w y a)
      else firstRunStart w (runsAt w y b) := by
  rw [runsAt_append]
  unfold firstRunStart
  rw [List.head?_append]
  cases h : (runsAt w y a).head? with
  | none => simp [Position.notEmpty, emptyPosition]
  | some rb =>
    obtain ⟨r, box⟩ := rb
    have hm : (r, box) ∈ runsAt w y a := List.mem_of_mem_head? h
    simp only [runsAt, List.mem_flatMap] at hm
    obtain ⟨r', _, hm⟩ := hm
    split at hm
    · rename_i ht
      simp only [List.mem_map, Prod.mk.injEq] at hm
      obtain ⟨_, _, rfl, _⟩ := hm
      simp [Position.notEmpty, hel r' ht]
    · simp at hm

theorem lastRunEnd_append (w : World N R C)
    (hel : ∀ r, w.rIsText r = true → (w.rElement r).isSome = true) (y : Int) (a b : List R) :
    lastRunEnd w (runsAt w y (a ++ b)) =
      if (lastRunEnd w (runsAt w y b) : Position N).notEmpty then lastRunEnd w (runsAt w y b)
      else lastRunEnd w (runsAt w y a) := by
  rw [runsAt_append]
  unfold lastRunEnd
  rw [List.getLast?_append]
  cases h : (runsAt w y b).getLast? with
  | none => simp [Position.notEmpty, emptyPosition]
  | some rb =>
    obtain ⟨r, box⟩ := rb
    have hm : (r, box) ∈ runsAt w y b := List.mem_of_mem_getLast? h
    simp only [runsAt, List.mem_flatMap] at hm
    obtain ⟨r', _, hm⟩ := hm
    split at hm
    · rename_i ht
      simp only [List.mem_map, Prod.mk.injEq] at hm
      obtain ⟨_, _, rfl, _⟩ := hm
      simp [Position.notEmpty, hel r' ht]
    · simp at hm

theorem firstRunStart_cons (w : World N R C) (y : Int) (r : R) (a : List R) :
    (firstRunStart w (runsAt w y (r :: a)) : Position N) =
      match (if w.rIsText r then (w.textBoxes r).find? (fun box => box.m_y == y) else none) with
      | some box => ⟨w.rElement r, box.m_start⟩
      | none => firstRunStart w (runsAt w y a) := by
  rw [runsAt_cons]
  unfold firstRunStart
  rw [List.head?_append, runsAt_single_head]
  cases (if w.rIsText r then (w.textBoxes r).find? (fun box => box.m_y == y) else none) with
  | none => rfl
  | some box => rfl

theorem Siblings.nth_drop (cs : Siblings) (i : Nat) :
    cs.nth i = match cs.drop i with
      | .cons k _ => some k
      | .nil => none := by
  induction cs generalizing i with
  | nil => cases i <;> rfl
  | cons k r _ ihr =>
    cases i with
    | zero => rfl
    | succ i => simpa [Siblings.nth, Siblings.drop] using ihr i

theorem Siblings.drop_succ (cs : Siblings) (i : Nat) :
    cs.drop (i + 1) = match cs.drop i with
      | .cons _ r => r
      | .nil => .nil := by
  induction cs generalizing i with
  | nil => cases i <;> rfl
  | cons k r _ ihr =>
    cases i with
    | zero => cases r <;> rfl
    | succ i => simpa [Siblings.drop] using ihr i

theorem Siblings.drop_zero (cs : Siblings) : cs.drop 0 = cs := by
  cases cs <;> rfl

theorem Siblings.drop_size (cs : Siblings) (i : Nat) : (cs.drop i).size ≤ cs.size := by
  induction cs generalizing i with
  | nil => cases i <;> simp [Siblings.drop]
  | cons k r _ ihr =>
    cases i with
    | zero => simp [Siblings.drop]
    | succ i =>
      have := ihr i
      simp only [Siblings.drop, Siblings.size]
      omega

theorem Tree.kidsAt_child (t : Tree) (p : List Nat) (i : Nat) (cs k r : Siblings)
    (hp : t.kids.kidsAt p = some cs) (hd : cs.drop i = .cons k r) :
    t.kids.kidsAt (p ++ [i]) = some k := by
  rw [Siblings.kidsAt_snoc, hp]
  simp only [Option.bind]
  rw [Siblings.nth_drop, hd]

theorem Tree.firstChild_child (t : Tree) (q : List Nat) (k : Siblings)
    (hq : t.kids.kidsAt q = some k) :
    t.api.firstChild q = k.head? (q ++ [0]) := by
  simp only [Tree.api, hq]
  cases k <;> rfl

theorem Tree.nextSibling_child (t : Tree) (p : List Nat) (i : Nat) (cs k r : Siblings)
    (hp : t.kids.kidsAt p = some cs) (hd : cs.drop i = .cons k r) :
    t.api.nextSibling (p ++ [i]) = r.head? (p ++ [i + 1]) := by
  rw [Tree.nextSibling_snoc]
  have hr : cs.drop (i + 1) = r := by rw [Siblings.drop_succ, hd]
  have : t.isNode (p ++ [i + 1]) = (cs.nth (i + 1)).isSome := by
    unfold Tree.isNode
    rw [Siblings.kidsAt_snoc, hp]
    rfl
  rw [this, Siblings.nth_drop, hr]
  cases r <;> rfl

theorem walk_map_child (k : Siblings) (p : List Nat) (i : Nat) :
    ((k.walk 0).map (fun q => i :: q)).map (fun q => p ++ q) =
      (k.walk 0).map (fun q => (p ++ [i]) ++ q) := by
  simp [List.map_map, Function.comp]

theorem rtw_rIsText {N C : Type} (t : Tree) (w : World N (List Nat) C) :
    (renderTreeWorld t w).rIsText = w.rIsText := rfl

theorem rtw_textBoxes {N C : Type} (t : Tree) (w : World N (List Nat) C) :
    (renderTreeWorld t w).textBoxes = w.textBoxes := rfl

theorem rtw_rElement {N C : Type} (t : Tree) (w : World N (List Nat) C) :
    (renderTreeWorld t w).rElement = w.rElement := rfl

theorem rtw_rFirstChild {N C : Type} (t : Tree) (w : World N (List Nat) C) :
    (renderTreeWorld t w).rFirstChild = t.api.firstChild := rfl

theorem rtw_rNextSibling {N C : Type} (t : Tree) (w : World N (List Nat) C) :
    (renderTreeWorld t w).rNextSibling = t.api.nextSibling := rfl

theorem rtw_rParent {N C : Type} (t : Tree) (w : World N (List Nat) C) :
    (renderTreeWorld t w).rParent = t.api.parentNode := rfl

theorem rtw_rLastChild {N C : Type} (t : Tree) (w : World N (List Nat) C) :
    (renderTreeWorld t w).rLastChild = t.lastChild := rfl

theorem rtw_rPreviousSibling {N C : Type} (t : Tree) (w : World N (List Nat) C) :
    (renderTreeWorld t w).rPreviousSibling = Tree.previousSibling := rfl

theorem rtw_loopFuel {N C : Type} (t : Tree) (w : World N (List Nat) C) :
    (renderTreeWorld t w).loopFuel = w.loopFuel := rfl

theorem startOfFirstRunAt_chain (t : Tree) (w : World N (List Nat) C)
    (hel : ∀ r, w.rIsText r = true → (w.rElement r).isSome = true) (y : Int)
    (sib : Siblings) :
    ∀ (p : List Nat) (i : Nat) (cs : Siblings), t.kids.kidsAt p = some cs →
      cs.drop i = sib → ∀ fuel, sib.size < fuel →
      startOfFirstRunAt (renderTreeWorld t w) y fuel (sib.head? (p ++ [i])) =
        .ok (firstRunStart w (runsAt w y ((sib.walk i).map (fun q => p ++ q)))) := by
  induction sib with
  | nil =>
    intro p i cs _ _ fuel hf
    cases fuel with
    | zero => simp [Siblings.size] at hf
    | succ fuel => rfl
  | cons k r ihk ihr =>
    intro p i cs hp hd fuel hf
    cases fuel with
    | zero => omega
    | succ fuel =>
      simp only [Siblings.size] at hf
      have hq := Tree.kidsAt_child t p i cs k r hp hd
      have hfc := Tree.firstChild_child t (p ++ [i]) k hq
      have hns := Tree.nextSibling_child t p i cs k r hp hd
      have hr : cs.drop (i + 1) = r := by rw [Siblings.drop_succ, hd]
      have h1 := ihk (p ++ [i]) 0 k hq (Siblings.drop_zero k) fuel (by omega)
      have h2 := ihr p (i + 1) cs hp hr fuel (by omega)
      simp only [Siblings.walk, List.map_append, List.map_cons, walk_map_child, List.cons_append,
        Siblings.head?]
      rw [firstRunStart_cons]
      simp only [startOfFirstRunAt, rtw_rIsText, rtw_textBoxes, rtw_rElement, rtw_rFirstChild,
        rtw_rNextSibling]
      rw [hfc, hns, h1, h2]
      cases (if w.rIsText (p ++ [i]) then
          (w.textBoxes (p ++ [i])).find? (fun box => box.m_y == y) else none) with
      | some box => rfl
      | none =>
        simp only [bind, Except.bind, pure, Except.pure]
        rw [firstRunStart_append w hel]
        split <;> rfl

theorem lastRunEnd_single (w : World N R C) (y : Int) (r : R) :
    (lastRunEnd w (runsAt w y [r]) : Position N) =
      match (if w.rIsText r then (w.textBoxes r).reverse.find? (fun box => box.m_y == y)
        else none) with
      | some box => ⟨w.rElement r, box.m_start + box.m_len⟩
      | none => emptyPosition := by
  unfold lastRunEnd
  rw [runsAt_single_last]
  cases (if w.rIsText r then (w.textBoxes r).reverse.find? (fun box => box.m_y == y)
      else none) with
  | none => rfl
  | some box => rfl

theorem lastRunEnd_empty (w : World N R C)
    (hel : ∀ r, w.rIsText r = true → (w.rElement r).isSome = true) (y : Int) (a : List R)
    (h : (lastRunEnd w (runsAt w y a) : Position N).notEmpty = false) :
    (lastRunEnd w (runsAt w y a) : Position N) = emptyPosition := by
  unfold lastRunEnd at h ⊢
  cases hl : (runsAt w y a).getLast? with
  | none => rfl
  | some rb =>
    obtain ⟨r, box⟩ := rb
    rw [hl] at h
    have hm : (r, box) ∈ runsAt w y a := List.mem_of_mem_getLast? hl
    simp only [runsAt, List.mem_flatMap] at hm
    obtain ⟨r', _, hm⟩ := hm
    split at hm
    · rename_i ht
      simp only [List.mem_map, Prod.mk.injEq] at hm
      obtain ⟨_, _, rfl, _⟩ := hm
      have := hel r' ht
      simp [Position.notEmpty, this] at h
    · simp at hm

theorem Siblings.walkFrom_cons (cs : Siblings) (p : List Nat) (j : Nat) (k r : Siblings)
    (hd : cs.drop j = .cons k r) :
    cs.walkFrom p j =
      ([p ++ [j]] ++ (k.walk 0).map (fun q => (p ++ [j]) ++ q)) ++ cs.walkFrom p (j + 1) := by
  unfold Siblings.walkFrom
  rw [Siblings.drop_succ, hd]
  simp only [Siblings.walk, List.map_append, List.map_cons, walk_map_child, List.cons_append,
    List.nil_append, List.singleton_append]

theorem Siblings.walkFrom_nil (cs : Siblings) (p : List Nat) (j : Nat)
    (hd : cs.drop j = .nil) : cs.walkFrom p j = [] := by
  unfold Siblings.walkFrom
  rw [hd]
  rfl

theorem Siblings.drop_nil_succ (cs : Siblings) (j : Nat) (hd : cs.drop j = .nil) :
    cs.drop (j + 1) = .nil := by
  rw [Siblings.drop_succ, hd]

theorem Siblings.walkFrom_split (cs : Siblings) (p : List Nat) (d i : Nat) :
    ∃ X, cs.walkFrom p i = X ++ cs.walkFrom p (i + d) := by
  induction d generalizing i with
  | zero => exact ⟨[], rfl⟩
  | succ d ih =>
    obtain ⟨X, hX⟩ := ih (i + 1)
    have e : i + 1 + d = i + (d + 1) := by omega
    rw [e] at hX
    cases hd : cs.drop i with
    | nil =>
      have h1 := Siblings.walkFrom_nil cs p i hd
      have h2 := Siblings.walkFrom_nil cs p (i + 1) (Siblings.drop_nil_succ cs i hd)
      rw [h2] at hX
      refine ⟨[], ?_⟩
      rw [h1]
      have : cs.walkFrom p (i + (d + 1)) = [] := by
        have := congrArg List.length hX
        simp only [List.length_nil, List.length_append] at this
        exact List.length_eq_zero.1 (by omega)
      rw [this]
      rfl
    | cons k r =>
      rw [Siblings.walkFrom_cons cs p i k r hd, hX]
      exact ⟨_, (List.append_assoc _ _ _).symm⟩

theorem Tree.previousSibling_snoc (p : List Nat) (j : Nat) :
    Tree.previousSibling (p ++ [j + 1]) = some (p ++ [j]) := by
  simp [Tree.previousSibling]

theorem lastRunEnd_walkFrom (w : World N (List Nat) C)
    (hel : ∀ r, w.rIsText r = true → (w.rElement r).isSome = true) (y : Int)
    (cs : Siblings) (p : List Nat) (j : Nat) (k r : Siblings) (hd : cs.drop j = .cons k r)
    (hB : (lastRunEnd w (runsAt w y (cs.walkFrom p (j + 1))) : Position N).notEmpty = false) :
    (lastRunEnd w (runsAt w y (cs.walkFrom p j)) : Position N) =
      if (lastRunEnd w (runsAt w y ((k.walk 0).map (fun q => (p ++ [j]) ++ q))) :
          Position N).notEmpty
      then lastRunEnd w (runsAt w y ((k.walk 0).map (fun q => (p ++ [j]) ++ q)))
      else lastRunEnd w (runsAt w y [p ++ [j]]) := by
  rw [Siblings.walkFrom_cons cs p j k r hd, lastRunEnd_append w hel, hB]
  simp only [Bool.false_eq_true, if_false]
  rw [lastRunEnd_append w hel]

theorem endOfLastRunLoop_chain (t : Tree) (w : World N (List Nat) C)
    (hel : ∀ r, w.rIsText r = true → (w.rElement r).isSome = true) (y : Int)
    (p : List Nat) (cs : Siblings) (i : Nat)
    (recurse : Option (List Nat) → Run (Position N))
    (hrec : ∀ j k r, cs.drop j = .cons k r →
      recurse (t.api.firstChild (p ++ [j])) =
        .ok (lastRunEnd w (runsAt w y ((k.walk 0).map (fun q => (p ++ [j]) ++ q))))) :
    ∀ d j lf, j = i + d → cs.drop j ≠ .nil → d < lf →
      (lastRunEnd w (runsAt w y (cs.walkFrom p (j + 1))) : Position N).notEmpty = false →
      endOfLastRunLoop (renderTreeWorld t w) y (p ++ [i]) recurse lf (some (p ++ [j])) =
        .ok (lastRunEnd w (runsAt w y (cs.walkFrom p i))) := by
  intro d
  induction d with
  | zero =>
    intro j lf hj hne hlf hB
    simp only [Nat.add_zero] at hj
    subst hj
    cases hd : cs.drop j with
    | nil => exact absurd hd hne
    | cons k r =>
      cases lf with
      | zero => omega
      | succ lf =>
        have hw := lastRunEnd_walkFrom w hel y cs p j k r hd hB
        simp only [endOfLastRunLoop, deref, bind, Except.bind, rtw_rFirstChild, hrec j k r hd,
          rtw_rIsText, rtw_textBoxes, rtw_rElement, pure, Except.pure]
        rw [hw, lastRunEnd_single]
        split
        · rfl
        · cases (if w.rIsText (p ++ [j]) then
              (w.textBoxes (p ++ [j])).reverse.find? (fun box => box.m_y == y) else none) with
          | some box => rfl
          | none => simp
  | succ d ih =>
    intro j lf hj hne hlf hB
    subst hj
    cases hd : cs.drop (i + (d + 1)) with
    | nil => exact absurd hd hne
    | cons k r =>
      cases lf with
      | zero => omega
      | succ lf =>
        have hw := lastRunEnd_walkFrom w hel y cs p (i + (d + 1)) k r hd hB
        obtain ⟨X, hX⟩ := Siblings.walkFrom_split cs p (d + 1) i
        have hT : ∀ pos : Position N,
            lastRunEnd w (runsAt w y (cs.walkFrom p (i + (d + 1)))) = pos →
            pos.notEmpty = true →
            (lastRunEnd w (runsAt w y (cs.walkFrom p i)) : Position N) = pos := by
          intro pos h1 h2
          rw [hX, lastRunEnd_append w hel, h1, h2]
          rfl
        simp only [endOfLastRunLoop, deref, bind, Except.bind, rtw_rFirstChild, hrec _ k r hd,
          rtw_rIsText, rtw_textBoxes, rtw_rElement, pure, Except.pure, rtw_rPreviousSibling]
        rw [lastRunEnd_single] at hw
        split
        · rename_i hK
          rw [if_pos hK] at hw
          rw [hT _ hw hK]
        · rename_i hK
          rw [if_neg hK] at hw
          cases hown : (if w.rIsText (p ++ [i + (d + 1)]) then
              (w.textBoxes (p ++ [i + (d + 1)])).reverse.find? (fun box => box.m_y == y)
              else none) with
          | some box =>
            rw [hown] at hw
            simp only []
            have hne2 : (⟨w.rElement (p ++ [i + (d + 1)]), box.m_start + box.m_len⟩ :
                Position N).notEmpty = true := by
              have hft : w.rIsText (p ++ [i + (d + 1)]) = true := by
                by_contra hc
                simp [hc] at hown
              simpa [Position.notEmpty] using hel _ hft
            rw [hT _ hw hne2]
          | none =>
            rw [hown] at hw
            simp only []
            have hneq : p ++ [i + (d + 1)] ≠ p ++ [i] := by
              simp
            rw [if_neg hneq]
            have e : i + (d + 1) = (i + d) + 1 := by omega
            rw [e, Tree.previousSibling_snoc]
            have hprev : cs.drop (i + d) ≠ .nil := by
              intro hnil
              have := Siblings.drop_nil_succ cs (i + d) hnil
              rw [← e, hd] at this
              cases this
            refine ih (i + d) lf rfl hprev (by omega) ?_
            rw [← e, hw]
            rfl

theorem Siblings.drop_ne_nil (cs : Siblings) (i : Nat) :
    cs.drop i ≠ .nil ↔ i < cs.length := by
  induction cs generalizing i with
  | nil => cases i <;> simp [Siblings.drop, Siblings.length]
  | cons k r _ ihr =>
    cases i with
    | zero => simp [Siblings.drop, Siblings.length]
    | succ i =>
      simp only [Siblings.drop, Siblings.length, Nat.add_lt_add_iff_right]
      exact ihr i

theorem Siblings.child_size (cs : Siblings) (j : Nat) (k r : Siblings)
    (hd : cs.drop j = .cons k r) : k.size < cs.size := by
  have := Siblings.drop_size cs j
  rw [hd] at this
  simp only [Siblings.size] at this
  omega

theorem Siblings.length_le_size (cs : Siblings) : cs.length ≤ cs.size := by
  induction cs with
  | nil => simp [Siblings.length, Siblings.size]
  | cons k r _ ihr =>
    simp only [Siblings.length, Siblings.size]
    omega

theorem endOfLastRunAt_chain (t : Tree) (w : World N (List Nat) C)
    (hel : ∀ r, w.rIsText r = true → (w.rElement r).isSome = true) (y : Int) :
    ∀ sz (p : List Nat) (cs : Siblings), t.kids.kidsAt p = some cs → cs.size ≤ sz →
      ∀ fuel, sz < fuel → sz < w.loopFuel → ∀ i, cs.drop i ≠ .nil →
      endOfLastRunAt (renderTreeWorld t w) y fuel (some (p ++ [i])) =
        .ok (lastRunEnd w (runsAt w y (cs.walkFrom p i))) := by
  intro sz
  induction sz with
  | zero =>
    intro p cs _ hs _ _ _ i hne
    cases cs with
    | nil => cases i <;> simp [Siblings.drop] at hne
    | cons k r => simp [Siblings.size] at hs
  | succ sz ih =>
    intro p cs hp hs fuel hf hl i hne
    cases fuel with
    | zero => omega
    | succ fuel =>
      have hi := (Siblings.drop_ne_nil cs i).1 hne
      have hlen : cs.length ≠ 0 := by omega
      have hlast : t.lastChild p = some (p ++ [cs.length - 1]) := by
        simp [Tree.lastChild, hp, hlen]
      have hrec : ∀ j k r, cs.drop j = .cons k r →
          endOfLastRunAt (renderTreeWorld t w) y fuel (t.api.firstChild (p ++ [j])) =
            .ok (lastRunEnd w (runsAt w y ((k.walk 0).map (fun q => (p ++ [j]) ++ q)))) := by
        intro j k r hd
        have hq := Tree.kidsAt_child t p j cs k r hp hd
        have hks := Siblings.child_size cs j k r hd
        rw [Tree.firstChild_child t (p ++ [j]) k hq]
        cases hk : k with
        | nil =>
          cases fuel with
          | zero => omega
          | succ fuel => rfl
        | cons k1 r1 =>
          have h0 : k.drop 0 ≠ .nil := by
            rw [Siblings.drop_zero, hk]
            simp
          have := ih (p ++ [j]) k hq (by omega) fuel (by omega) (by omega) 0 h0
          simp only [Siblings.head?]
          rw [this]
          simp only [Siblings.walkFrom, Siblings.drop_zero, hk]
      simp only [endOfLastRunAt, rtw_rParent, Tree.parentNode_snoc, rtw_rLastChild, hlast,
        rtw_loopFuel]
      have hsz := Siblings.length_le_size cs
      refine endOfLastRunLoop_chain t w hel y p cs i _ hrec (cs.length - 1 - i) (cs.length - 1)
        w.loopFuel (by omega) ((Siblings.drop_ne_nil cs _).2 (by omega)) (by omega) ?_
      have hnil : cs.drop (cs.length - 1 + 1) = .nil := by
        by_contra hc
        have := (Siblings.drop_ne_nil cs _).1 hc
        omega
      rw [Siblings.walkFrom_nil cs p _ hnil]
      rfl

theorem endOfLastRunAt_children (t : Tree) (w : World N (List Nat) C)
    (hel : ∀ r, w.rIsText r = true → (w.rElement r).isSome = true) (y : Int)
    (q : List Nat) (k : Siblings) (hq : t.kids.kidsAt q = some k) (fuel : Nat)
    (hf : k.size < fuel) (hl : k.size < w.loopFuel) :
    endOfLastRunAt (renderTreeWorld t w) y fuel (t.api.firstChild q) =
      .ok (lastRunEnd w (runsAt w y ((k.walk 0).map (fun x => q ++ x)))) := by
  rw [Tree.firstChild_child t q k hq]
  cases hk : k with
  | nil =>
    cases fuel with
    | zero => omega
    | succ fuel => rfl
  | cons k1 r1 =>
    have h0 : k.drop 0 ≠ .nil := by
      rw [Siblings.drop_zero, hk]
      simp
    have := endOfLastRunAt_chain t w hel y k.size q k hq (Nat.le_refl _) fuel hf hl 0 h0
    simp only [Siblings.head?]
    rw [this]
    simp only [Siblings.walkFrom, Siblings.drop_zero, hk]

theorem firstRunStart_empty (w : World N R C)
    (hel : ∀ r, w.rIsText r = true → (w.rElement r).isSome = true) (y : Int) (a : List R) :
    ((firstRunStart w (runsAt w y a) : Position N).isEmpty = true ↔ runsAt w y a = []) ∧
      ((firstRunStart w (runsAt w y a) : Position N).notEmpty = false →
        (firstRunStart w (runsAt w y a) : Position N) = emptyPosition) := by
  unfold firstRunStart
  cases hl : (runsAt w y a).head? with
  | none =>
    have : runsAt w y a = [] := List.head?_eq_none_iff.1 hl
    simp [this, Position.isEmpty, emptyPosition]
  | some rb =>
    obtain ⟨r, box⟩ := rb
    have hm : (r, box) ∈ runsAt w y a := List.mem_of_mem_head? hl
    have hne : runsAt w y a ≠ [] := List.ne_nil_of_mem hm
    simp only [runsAt, List.mem_flatMap] at hm
    obtain ⟨r', _, hm⟩ := hm
    split at hm
    · rename_i ht
      simp only [List.mem_map, Prod.mk.injEq] at hm
      obtain ⟨_, _, rfl, _⟩ := hm
      have := hel r' ht
      cases hr : w.rElement r' with
      | none => simp [hr] at this
      | some e => simp [Position.isEmpty, Position.notEmpty, hr, hne]
    · simp at hm

theorem lastRunEnd_isEmpty (w : World N R C)
    (hel : ∀ r, w.rIsText r = true → (w.rElement r).isSome = true) (y : Int) (a : List R) :
    (lastRunEnd w (runsAt w y a) : Position N).isEmpty = true ↔ runsAt w y a = [] := by
  unfold lastRunEnd
  cases hl : (runsAt w y a).getLast? with
  | none =>
    have : runsAt w y a = [] := List.getLast?_eq_none_iff.1 hl
    simp [this, Position.isEmpty, emptyPosition]
  | some rb =>
    obtain ⟨r, box⟩ := rb
    have hm : (r, box) ∈ runsAt w y a := List.mem_of_mem_getLast? hl
    have hne : runsAt w y a ≠ [] := List.ne_nil_of_mem hm
    simp only [runsAt, List.mem_flatMap] at hm
    obtain ⟨r', _, hm⟩ := hm
    split at hm
    · rename_i ht
      simp only [List.mem_map, Prod.mk.injEq] at hm
      obtain ⟨_, _, rfl, _⟩ := hm
      have := hel r' ht
      cases hr : w.rElement r' with
      | none => simp [hr] at this
      | some e => simp [Position.isEmpty, hr, hne]
    · simp at hm

theorem run_search_on_tree (t : Tree) (w : World N (List Nat) C)
    (hel : ∀ r, w.rIsText r = true → (w.rElement r).isSome = true) (y : Int)
    (first : List Nat) (fuel : Nat) (hn : t.isNode first = true)
    (hf : t.kids.size + 1 < fuel) (hl : t.kids.size + 1 < w.loopFuel) :
    startOfFirstRunAt (renderTreeWorld t w) y fuel (some first) =
        .ok (firstRunStart w (runsAt w y (t.chainWalk first))) ∧
      endOfLastRunAt (renderTreeWorld t w) y fuel (some first) =
        .ok (lastRunEnd w (runsAt w y (t.chainWalk first))) := by
  rcases List.eq_nil_or_concat first with rfl | ⟨p, i, rfl⟩
  · have hq : t.kids.kidsAt [] = some t.kids := rfl
    cases fuel with
    | zero => omega
    | succ fuel =>
      have hs := startOfFirstRunAt_chain t w hel y t.kids [] 0 t.kids hq
        (Siblings.drop_zero _) fuel (by omega)
      have he := endOfLastRunAt_children t w hel y [] t.kids hq fuel (by omega) (by omega)
      rw [← Tree.firstChild_child t [] t.kids hq] at hs
      simp only [List.nil_append, List.map_id'] at hs he
      have hcw : t.chainWalk [] = [] :: t.kids.walk 0 := rfl
      rw [hcw]
      constructor
      · rw [firstRunStart_cons]
        simp only [startOfFirstRunAt, rtw_rIsText, rtw_textBoxes, rtw_rElement,
          rtw_rFirstChild, rtw_rNextSibling, hs]
        cases (if w.rIsText [] then (w.textBoxes []).find? (fun box => box.m_y == y)
            else none) with
        | some box => rfl
        | none =>
          have hns : t.api.nextSibling [] = none := by simp [Tree.api]
          simp only [bind, Except.bind, pure, Except.pure, hns]
          split
          · rfl
          · rename_i hne
            cases fuel with
            | zero => omega
            | succ fuel =>
              simp only [startOfFirstRunAt]
              rw [(firstRunStart_empty w hel y _).2 (by simpa using hne)]
      · have hpar : t.api.parentNode [] = none := by simp [Tree.api]
        have e : ([] : List Nat) :: t.kids.walk 0 = [[]] ++ t.kids.walk 0 := rfl
        rw [e, lastRunEnd_append w hel, lastRunEnd_single]
        simp only [endOfLastRunAt, rtw_rParent, hpar, rtw_loopFuel]
        cases hlf : w.loopFuel with
        | zero => omega
        | succ lf =>
          simp only [endOfLastRunLoop, deref, bind, Except.bind, rtw_rFirstChild, he,
            rtw_rIsText, rtw_textBoxes, rtw_rElement, pure, Except.pure]
          by_cases hK : (lastRunEnd w (runsAt w y (t.kids.walk 0)) : Position N).notEmpty = true
          · simp only [hK, if_true]
          · simp only [hK, Bool.false_eq_true, if_false]
            cases (if w.rIsText [] then
                (w.textBoxes []).reverse.find? (fun box => box.m_y == y) else none) with
            | some box => rfl
            | none => simp
  · simp only [List.concat_eq_append] at hn ⊢
    have hnode := hn
    unfold Tree.isNode at hnode
    rw [Siblings.kidsAt_snoc] at hnode
    cases hp : t.kids.kidsAt p with
    | none => simp [hp] at hnode
    | some cs =>
      simp only [hp, Option.bind] at hnode
      have hsz := Siblings.kidsAt_size t.kids p cs hp
      have hcw : t.chainWalk (p ++ [i]) = cs.walkFrom p i := by
        simp [Tree.chainWalk, hp]
      rw [hcw]
      have hne : cs.drop i ≠ .nil := by
        intro hnil
        rw [Siblings.nth_drop, hnil] at hnode
        simp at hnode
      constructor
      · have hs := startOfFirstRunAt_chain t w hel y (cs.drop i) p i cs hp rfl fuel
          (by have := Siblings.drop_size cs i; omega)
        cases hd : cs.drop i with
        | nil => exact absurd hd hne
        | cons k r =>
          rw [hd] at hs
          simp only [Siblings.head?] at hs
          rw [hs, Siblings.walkFrom, hd]
      · exact endOfLastRunAt_chain t w hel y t.kids.size p cs hp (by omega) fuel (by omega)
          (by omega) i hne

end Lemmas


/-! ## The claims -/

section Claims

variable {N R C : Type} [DecidableEq N] [DecidableEq R]

/-- C1: `nodeIsBeforeNode` is not the pre-order relation on ancestor and descendant.
In the tree `document(block(textA, b(textB), textC))` the document node `[]` is
visited before the block `[0]`, yet `nodeIsBeforeNode(document, block)` is false;
the text node `[0,1,0]` is visited after its parent `[0,1]`, yet
`nodeIsBeforeNode(text, parent)` is true. -/
theorem nodeIsBeforeNode_not_preorder_on_ancestors :
    sampleTree.visitedBefore [] [0] = true ∧
      nodeIsBeforeNode sampleTree.api sampleTree.fuel (some []) (some [0]) = .ok false ∧
      sampleTree.visitedBefore [0, 1, 0] [0, 1] = false ∧
      nodeIsBeforeNode sampleTree.api sampleTree.fuel (some [0, 1, 0]) (some [0, 1]) =
        .ok true := by
  decide

/-- C2: on an ancestor and its descendant `nodeIsBeforeNode` gives the same answer
in both argument orders: false both ways for the document node and the block,
true both ways for the element `[0,1]` and its text child. -/
theorem nodeIsBeforeNode_same_both_ways_on_ancestors :
    nodeIsBeforeNode sampleTree.api sampleTree.fuel (some []) (some [0]) = .ok false ∧
      nodeIsBeforeNode sampleTree.api sampleTree.fuel (some [0]) (some []) = .ok false ∧
      nodeIsBeforeNode sampleTree.api sampleTree.fuel (some [0, 1]) (some [0, 1, 0]) = .ok true ∧
      nodeIsBeforeNode sampleTree.api sampleTree.fuel (some [0, 1, 0]) (some [0, 1]) =
        .ok true := by
  decide

/-- C3, counterexample: `modify(EXTEND, FORWARD, CHARACTER)` on the Selection with base
`([0,2], 5)` and extent `([0,2], 3)` finds no next character after the end of the
document and returns false, but base, extent and `m_modifyBiasSet` have changed. -/
theorem modify_failure_changes_selection :
    Selection.ofBaseExtent sampleWorld ⟨some [0, 2], 5⟩ ⟨some [0, 2], 3⟩ =
        .ok backwardSelection ∧
      modify sampleWorld .EXTEND .FORWARD .CHARACTER backwardSelection [] =
        .ok (false,
          { backwardSelection with
            m_base := ⟨some [0, 2], 3⟩, m_extent := ⟨some [0, 2], 5⟩, m_modifyBiasSet := true },
          []) ∧
      (⟨some [0, 2], 3⟩ : Position (List Nat)) ≠ backwardSelection.m_base ∧
      (⟨some [0, 2], 5⟩ : Position (List Nat)) ≠ backwardSelection.m_extent ∧
      true ≠ backwardSelection.m_modifyBiasSet := by
  decide

/-- C3, amended: when the candidate position computed by `modify` is empty, `modify`
returns false and start, end, state, baseIsStart, needsCaretLayout, affinity and
the caret rectangle are as before the call; `m_modifyBiasSet` is true after an
EXTEND and false after a MOVE; base and extent are as before for a MOVE and for an
EXTEND entered with the flag set, and an EXTEND entered with the flag clear has
assigned (base, extent) from (start, end) forward and from (end, start) backward. -/
theorem modify_failure_frame (w : World N R C) (alter : EAlter) (dir : EDirection)
    (g : ETextGranularity) (s s1 : Selection N) (cache c1 : PartCache) (pos : C)
    (hc : modifyCandidate w alter dir g s cache = .ok (pos, s1, c1))
    (he : w.caretIsEmpty pos = true) :
    modify w alter dir g s cache = .ok (false, s1, c1) ∧
      s1.m_start = s.m_start ∧ s1.m_end = s.m_end ∧ s1.m_state = s.m_state ∧
      s1.m_baseIsStart = s.m_baseIsStart ∧ s1.m_needsCaretLayout = s.m_needsCaretLayout ∧
      s1.m_affinity = s.m_affinity ∧ s1.m_caretRect = s.m_caretRect ∧
      s1.m_modifyBiasSet = decide (alter = .EXTEND) ∧
      ((alter = .MOVE ∨ s.m_modifyBiasSet = true) →
        s1.m_base = s.m_base ∧ s1.m_extent = s.m_extent) ∧
      (alter = .EXTEND → s.m_modifyBiasSet = false →
        ((dir = .FORWARD ∨ dir = .RIGHT) → s1.m_base = s.m_start ∧ s1.m_extent = s.m_end) ∧
        ((dir = .BACKWARD ∨ dir = .LEFT) → s1.m_base = s.m_end ∧ s1.m_extent = s.m_start)) := by
  have hs := modifyCandidate_sel w alter dir g s s1 cache c1 pos hc
  refine ⟨?_, ?_⟩
  · unfold modify
    rw [hc]
    simp [bind, Except.bind, pure, Except.pure, he]
  · subst hs
    cases alter <;> cases dir <;> cases hb : s.m_modifyBiasSet <;>
      simp [modifyBias, Selection.assignBaseAndExtent, hb]

/-- C3, amended, at a concrete input: the failing call of the counterexample keeps
start, end, state and baseIsStart of `backwardSelection`. -/
theorem modify_failure_frame_witness :
    modify sampleWorld .EXTEND .FORWARD .CHARACTER backwardSelection [] =
      .ok (false, modifyBias .EXTEND .FORWARD backwardSelection, []) ∧
    (modifyBias .EXTEND .FORWARD backwardSelection).m_start = backwardSelection.m_start :=
  have h := modify_failure_frame sampleWorld .EXTEND .FORWARD .CHARACTER backwardSelection
    (modifyBias .EXTEND .FORWARD backwardSelection) [] [] emptyPosition (by decide) (by decide)
  ⟨h.1, h.2.1⟩

/-- C8: pivot pinning and reset.  After every `modify` call that returns,
`m_modifyBiasSet` is true for EXTEND and false for MOVE.  The call hands to
`moveTo` or `setExtent` the Selection as its helper left it: with the flag clear an
EXTEND has assigned (base, extent) from (start, end) forward and from (end, start)
backward, with the flag set it has left the Selection, base included, alone.  After
a successful MOVE the Selection is a caret (base, extent, start and end coincide),
so that the EXTEND that follows, in either direction, pins base at that caret. -/
theorem modify_pivot (w : World N R C) (alter : EAlter) (dir : EDirection)
    (g : ETextGranularity) (s s' : Selection N) (cache c' : PartCache) (r : Bool)
    (h : modify w alter dir g s cache = .ok (r, s', c')) :
    s'.m_modifyBiasSet = decide (alter = .EXTEND) ∧
      (∃ pos, modifyCandidate w alter dir g s cache = .ok (pos, modifyBias alter dir s, c') ∧
        (r = false → w.caretIsEmpty pos = true ∧ s' = modifyBias alter dir s) ∧
        (r = true → w.caretIsEmpty pos = false ∧
          (alter = .MOVE →
            moveToPosition w (w.caretDeepEquivalent pos) (modifyBias alter dir s) = .ok s') ∧
          (alter = .EXTEND →
            setExtent w (w.caretDeepEquivalent pos) (modifyBias alter dir s) = .ok s'))) ∧
      (alter = .EXTEND → s.m_modifyBiasSet = false →
        ((dir = .FORWARD ∨ dir = .RIGHT) →
          (modifyBias alter dir s).m_base = s.m_start ∧
          (modifyBias alter dir s).m_extent = s.m_end) ∧
        ((dir = .BACKWARD ∨ dir = .LEFT) →
          (modifyBias alter dir s).m_base = s.m_end ∧
          (modifyBias alter dir s).m_extent = s.m_start)) ∧
      (alter = .EXTEND → s.m_modifyBiasSet = true → modifyBias alter dir s = s) ∧
      (alter = .MOVE → r = true →
        s'.m_base = s'.m_extent ∧ s'.m_start = s'.m_base ∧ s'.m_end = s'.m_base ∧
        ∀ dir2 : EDirection,
          (modifyBias .EXTEND dir2 s').m_base = s'.m_start ∧
          (modifyBias .EXTEND dir2 s').m_extent = s'.m_start ∧
          (modifyBias .EXTEND dir2 s').m_modifyBiasSet = true) := by
  obtain ⟨pos, hc, hf, ht⟩ := modify_ok w alter dir g s s' cache c' r h
  have hbias0 : (modifyBias alter dir s).m_modifyBiasSet = decide (alter = .EXTEND) := by
    cases alter <;> cases dir <;> cases hb : s.m_modifyBiasSet <;>
      simp [modifyBias, Selection.assignBaseAndExtent, hb]
  have hbias : s'.m_modifyBiasSet = decide (alter = .EXTEND) := by
    cases r with
    | false => rw [(hf rfl).2]; exact hbias0
    | true =>
      obtain ⟨_, hm, hx⟩ := ht rfl
      cases alter with
      | MOVE =>
        have := validate_frame w .CHARACTER _ s' (hm rfl)
        rw [this.2.2.1]
        simpa [Selection.assignBaseAndExtent] using hbias0
      | EXTEND =>
        have := validate_frame w .CHARACTER _ s' (hx rfl)
        rw [this.2.2.1]
        simpa [Selection.assignExtent] using hbias0
  refine ⟨hbias, ⟨pos, hc, hf, ht⟩, ?_, ?_, ?_⟩
  · intro ha hb
    subst ha
    cases dir <;> simp [modifyBias, Selection.assignBaseAndExtent, hb]
  · intro ha hb
    subst ha
    simp [modifyBias, hb]
  · intro ha hr
    subst ha
    obtain ⟨_, hm, _⟩ := ht hr
    have hcar := validate_character_caret w _ s' rfl (hm rfl)
    have hb' : s'.m_modifyBiasSet = false := by simpa using hbias
    refine ⟨hcar.1, hcar.2.1, hcar.2.2.1, ?_⟩
    intro dir2
    cases dir2 <;> simp [modifyBias, Selection.assignBaseAndExtent, hb', hcar.2.1, hcar.2.2.1]

/-- C8 at a concrete input: `modify(MOVE, FORWARD, CHARACTER)` on the caret at offset 5
of "The quick fox" yields the caret at offset 6, with `m_modifyBiasSet` false. -/
theorem modify_pivot_witness :
    modify sampleWorld .MOVE .FORWARD .CHARACTER (caretAt [0, 0] 5) [] =
        .ok (true, caretAt [0, 0] 6, []) ∧
      (caretAt [0, 0] 6).m_modifyBiasSet = decide (EAlter.MOVE = EAlter.EXTEND) :=
  ⟨by decide,
    (modify_pivot sampleWorld .MOVE .FORWARD .CHARACTER (caretAt [0, 0] 5) (caretAt [0, 0] 6)
      [] [] true (by decide)).1⟩

/-- C4, counterexample: `Selection(Position(document, 0), Position(textA, 5))` in the
sample world is a Range with start `(textA, 5)` and end `(document, 0)`, two nodes
for which `nodeIsBeforeNode(start.node, end.node)` is false; and in a world whose
`downstream(StayInBlock)` carries the end of textA past textB, the Range built from
`(textA, 13)` and `(textB, 3)` has start `(textC, 0)` and end `(textB, 3)`, for which
it is false as well. -/
theorem validate_range_not_ordered :
    Selection.ofBaseExtent sampleWorld ⟨some [], 0⟩ ⟨some [0, 0], 5⟩ =
        .ok { rangeOf [0, 0] 5 [] 0 with
          m_base := ⟨some [], 0⟩, m_extent := ⟨some [0, 0], 5⟩, m_baseIsStart := false } ∧
      nodeIsBeforeNode sampleWorld.dom sampleWorld.loopFuel (some [0, 0]) (some []) =
        .ok false ∧
      Selection.ofBaseExtent crossingWorld ⟨some [0, 0], 13⟩ ⟨some [0, 1, 0], 3⟩ =
        .ok { rangeOf [0, 0] 13 [0, 1, 0] 3 with m_start := ⟨some [0, 2], 0⟩ } ∧
      nodeIsBeforeNode crossingWorld.dom crossingWorld.loopFuel (some [0, 2]) (some [0, 1, 0]) =
        .ok false := by
  decide

/-- C4, amended: for every Selection left by `validate` at Character granularity in
state Range whose base and extent share a node or have nodes that the comparator
orders in at least one direction, the pair (first, second), which is (base, extent)
if baseIsStart and (extent, base) otherwise, lies on two nodes with
`nodeIsBeforeNode(first.node, second.node)`, or on one node with
`first.offset <= second.offset`; start is `first.downstream(StayInBlock)` and end is
`second.upstream(StayInBlock)`. -/
theorem validate_range_order (w : World N R C) (s s' : Selection N)
    (h : validate w .CHARACTER s = .ok s') (hr : s'.m_state = .RANGE)
    (hcmp : s'.m_base.node = s'.m_extent.node ∨
      nodeIsBeforeNode w.dom w.loopFuel s'.m_base.node s'.m_extent.node = .ok true ∨
      nodeIsBeforeNode w.dom w.loopFuel s'.m_extent.node s'.m_base.node = .ok true) :
    ((if s'.m_baseIsStart then s'.m_base else s'.m_extent).node ≠
          (if s'.m_baseIsStart then s'.m_extent else s'.m_base).node ∧
        nodeIsBeforeNode w.dom w.loopFuel
          (if s'.m_baseIsStart then s'.m_base else s'.m_extent).node
          (if s'.m_baseIsStart then s'.m_extent else s'.m_base).node = .ok true ∨
      (if s'.m_baseIsStart then s'.m_base else s'.m_extent).node =
          (if s'.m_baseIsStart then s'.m_extent else s'.m_base).node ∧
        (if s'.m_baseIsStart then s'.m_base else s'.m_extent).offset ≤
          (if s'.m_baseIsStart then s'.m_extent else s'.m_base).offset) ∧
      s'.m_start =
        w.downstream StayInBlock (if s'.m_baseIsStart then s'.m_base else s'.m_extent) ∧
      s'.m_end =
        w.upstream StayInBlock (if s'.m_baseIsStart then s'.m_extent else s'.m_base) := by
  obtain ⟨sh, hrange, _, hnone⟩ := validate_character w s s' h
  refine ⟨?_, hrange hr⟩
  unfold AnchorsOrdered at sh
  rcases sh with ⟨h1, h2, h3⟩ | ⟨h1, h2, h3⟩
  · have := hnone.2 ⟨h1, h2⟩
    rw [hr] at this
    cases this
  · rcases h3 with ⟨h3, h4⟩ | ⟨h3, h4⟩
    · right
      cases hb : s'.m_baseIsStart with
      | true =>
        rw [hb] at h4
        simp only [if_true]
        refine ⟨h3, ?_⟩
        by_contra hlt
        rw [if_pos (by omega)] at h4
        cases h4
      | false =>
        rw [hb] at h4
        simp only [Bool.false_eq_true, if_false]
        refine ⟨h3.symm, ?_⟩
        by_contra hlt
        rw [if_neg (by omega)] at h4
        cases h4
    · left
      cases hb : s'.m_baseIsStart with
      | true =>
        rw [hb] at h4
        simp only [if_true]
        exact ⟨h3, h4⟩
      | false =>
        rw [hb] at h4
        simp only [Bool.false_eq_true, if_false]
        refine ⟨fun hx => h3 hx.symm, ?_⟩
        rcases hcmp with hc | hc | hc
        · exact absurd hc h3
        · rw [h4] at hc
          cases hc
        · exact hc

/-- C4, amended, at a concrete input: base `(textC, 3)`, extent `(textA, 5)` in the
sample world gives a Range whose start is the downstream position of the extent. -/
theorem validate_range_order_witness :
    validate sampleWorld .CHARACTER
        (Selection.init.assignBaseAndExtent ⟨some [0, 2], 3⟩ ⟨some [0, 0], 5⟩) =
        .ok (reverseRangeOf [0, 0] 5 [0, 2] 3) ∧
      (reverseRangeOf [0, 0] 5 [0, 2] 3).m_start =
        sampleWorld.downstream StayInBlock
          (if (reverseRangeOf [0, 0] 5 [0, 2] 3).m_baseIsStart
            then (reverseRangeOf [0, 0] 5 [0, 2] 3).m_base
            else (reverseRangeOf [0, 0] 5 [0, 2] 3).m_extent) :=
  ⟨by decide,
    (validate_range_order sampleWorld
      (Selection.init.assignBaseAndExtent ⟨some [0, 2], 3⟩ ⟨some [0, 0], 5⟩)
      (reverseRangeOf [0, 0] 5 [0, 2] 3) (by decide) (by decide) (by decide)).2.1⟩

/-- C10, counterexample: in a document without a document element,
`expandUsingGranularity(DOCUMENT)` on the caret at `(textA, 5)` returns true and
leaves state NONE with empty start and end, while base and extent are still
`(textA, 5)`. -/
theorem none_state_with_anchors :
    Selection.ofPosition noElementWorld ⟨some [0, 0], 5⟩ = .ok (caretAt [0, 0] 5) ∧
      expandUsingGranularity noElementWorld .DOCUMENT (caretAt [0, 0] 5) =
        .ok (true, { caretAt [0, 0] 5 with
          m_start := emptyPosition, m_end := emptyPosition, m_state := .NONE }) ∧
      (caretAt [0, 0] 5).m_base.isEmpty = false ∧
      (caretAt [0, 0] 5).m_extent.isEmpty = false := by
  decide

/-- C10, amended: for every Selection reachable through the constructors and the
public operations (copy, assignment, setAffinity, set*, moveTo, clear, modify,
expandUsingGranularity with the granularities `allow` admits), state NONE implies
that start and end are empty; base and extent are empty as well when
`expandUsingGranularity` has only been used with Character granularity. -/
theorem reachable_none_empty (w : World N R C) (allow : ETextGranularity → Bool)
    (s : Selection N) (h : Reachable w allow s) (hs : s.m_state = .NONE) :
    s.m_start.isEmpty = true ∧ s.m_end.isEmpty = true ∧
      ((∀ g, allow g = true → g = .CHARACTER) →
        s.m_base.isEmpty = true ∧ s.m_extent.isEmpty = true) :=
  have hi := reachable_invariant w allow s h
  ⟨(hi.1 hs).1, (hi.1 hs).2, fun hall => hi.2 hall hs⟩

/-- C10, amended, at a concrete input: the Selection that `clear()` leaves from the
caret at `(textA, 5)` of the sample world. -/
theorem reachable_none_empty_witness :
    clear sampleWorld (caretAt [0, 0] 5) = .ok Selection.init ∧
      (Selection.init : Selection (List Nat)).m_start.isEmpty = true ∧
      (Selection.init : Selection (List Nat)).m_base.isEmpty = true :=
  have hr : Reachable sampleWorld (fun g => decide (g = .CHARACTER)) (Selection.init) :=
    Reachable.clear (caretAt [0, 0] 5) Selection.init
      (Reachable.ofPosition ⟨some [0, 0], 5⟩ (caretAt [0, 0] 5) (by decide)) (by decide)
  have h := reachable_none_empty sampleWorld (fun g => decide (g = .CHARACTER)) Selection.init
    hr rfl
  ⟨by decide, h.1, (h.2.2 (fun g hg => by simpa using hg)).1⟩

/-- C5, counterexample: in a document without a document element `validate(DOCUMENT)`
on the caret at `(textA, 5)` leaves start and end empty, and `validate(DOCUMENT)` run
on that result dereferences the null node of start; and in a world whose
`closestRenderedPosition` is not idempotent, `validate(CHARACTER)` run once from
`(textC, 2)` gives the caret at `(textC, 3)` and run twice the caret at `(textC, 4)`. -/
theorem validate_twice_differs :
    validate noElementWorld .DOCUMENT (caretAt [0, 0] 5) =
        .ok { caretAt [0, 0] 5 with
          m_start := emptyPosition, m_end := emptyPosition, m_state := .NONE } ∧
      validate noElementWorld .DOCUMENT
          { caretAt [0, 0] 5 with
            m_start := emptyPosition, m_end := emptyPosition, m_state := .NONE } =
        .error .nullDeref ∧
      validate driftingWorld .CHARACTER (caretAt [0, 2] 2) = .ok (caretAt [0, 2] 3) ∧
      validate driftingWorld .CHARACTER (caretAt [0, 2] 3) = .ok (caretAt [0, 2] 4) ∧
      (caretAt [0, 2] 4).m_start ≠ (caretAt [0, 2] 3).m_start := by
  decide

/-- C5, amended: for Character, Word, Paragraph and ParagraphBoundary granularity,
whenever the rendered-position resolution returns the base and the extent of the
once-validated Selection unchanged (and their nodes have a document), a second
`validate(g)` returns and yields exactly the Selection the first one left: the same
start, end and state, and the same base, extent and baseIsStart. -/
theorem validate_idempotent (w : World N R C) (g : ETextGranularity)
    (hg : g = .CHARACTER ∨ g = .WORD ∨ g = .PARAGRAPH ∨ g = .PARAGRAPH_BOUNDARY)
    (s s1 : Selection N) (h : validate w g s = .ok s1)
    (hb : s1.m_base.notEmpty = true → renderedPosition w s1.m_affinity s1.m_base = s1.m_base)
    (he : s1.m_extent.notEmpty = true →
      renderedPosition w s1.m_affinity s1.m_extent = s1.m_extent)
    (hdb : ∀ n, s1.m_base.node = some n → (w.getDocument n).isSome = true)
    (hde : ∀ n, s1.m_extent.node = some n → (w.getDocument n).isSome = true) :
    ∃ s2, validate w g s1 = .ok s2 ∧ s2.m_start = s1.m_start ∧ s2.m_end = s1.m_end ∧
      s2.m_state = s1.m_state ∧ s2 = s1 :=
  ⟨s1, validate_again w g hg s s1 h hb he hdb hde, rfl, rfl, rfl, rfl⟩

/-- C5, amended, at a concrete input: `validate(WORD)` on the caret at offset 5 of
"The quick fox" gives the word "quick", and so does a second `validate(WORD)`. -/
theorem validate_idempotent_witness :
    validate sampleWorld .WORD (caretAt [0, 0] 5) = .ok quickWord ∧
      ∃ s2, validate sampleWorld .WORD quickWord = .ok s2 ∧ s2.m_start = quickWord.m_start ∧
        s2.m_end = quickWord.m_end ∧ s2.m_state = quickWord.m_state ∧ s2 = quickWord :=
  ⟨by decide,
    validate_idempotent sampleWorld .WORD (Or.inr (Or.inl rfl)) (caretAt [0, 0] 5) quickWord
      (by decide) (fun _ => by decide) (fun _ => by decide)
      (fun n _ => rfl) (fun n _ => rfl)⟩

/-- C6, counterexample: with the start of textB upstream-equivalent to the end of
textA, the caret at `(textB, 0)` has the range `(textA, 13)..(textA, 13)`, and the
Selection constructed from that range is the caret at `(textA, 13)`. -/
theorem toRange_roundtrip_moves_caret :
    Selection.ofPosition seamWorld ⟨some [0, 1, 0], 0⟩ = .ok (caretAt [0, 1, 0] 0) ∧
      toRange seamWorld (caretAt [0, 1, 0] 0) =
        .ok (some ⟨some [0, 0], 13, some [0, 0], 13⟩) ∧
      Selection.ofRange seamWorld ⟨some [0, 0], 13, some [0, 0], 13⟩ =
        .ok (caretAt [0, 0] 13) ∧
      (caretAt [0, 0] 13).m_start ≠ (caretAt [0, 1, 0] 0).m_start ∧
      (caretAt [0, 0] 13).m_end ≠ (caretAt [0, 1, 0] 0).m_end := by
  decide

/-- C6, amended: for every Selection in state CARET or RANGE whose start and end are not
empty, lie in a document and are left where they are by the Position adapters on the
way (`upstream`, `downstream`, `equivalentRangeCompliantPosition`, the rendered-position
resolution), with start == end for a Caret and, for a Range, start before end (on one
node by offset, on two nodes by `nodeIsBeforeNode`), `toRange()` returns a range and the
Selection constructed from it has the same start and end. -/
theorem toRange_roundtrip (w : World N R C) (s : Selection N)
    (hsn : s.m_start.notEmpty = true) (hen : s.m_end.notEmpty = true)
    (hS : Settled w s.m_start) (hE : Settled w s.m_end)
    (hstate : s.m_state ≠ .NONE)
    (hcaret : s.m_state = .CARET → s.m_end = s.m_start)
    (hord : s.m_state = .RANGE →
      (s.m_start.node = s.m_end.node ∧ s.m_start.offset ≤ s.m_end.offset) ∨
      (s.m_start.node ≠ s.m_end.node ∧
        nodeIsBeforeNode w.dom w.loopFuel s.m_start.node s.m_end.node = .ok true))
    (hds : ∀ n, s.m_start.node = some n → (w.getDocument n).isSome = true)
    (hde : ∀ n, s.m_end.node = some n → (w.getDocument n).isSome = true) :
    ∃ r s', toRange w s = .ok (some r) ∧ Selection.ofRange w r = .ok s' ∧
      s'.m_start = s.m_start ∧ s'.m_end = s.m_end := by
  obtain ⟨hU, hUs, hD, hDs, hC, hR⟩ := hS
  obtain ⟨eU, eUs, eD, eDs, eC, eR⟩ := hE
  have hul : updateLayout w s.m_start = .ok () := by
    unfold updateLayout deref
    simp only [Position.notEmpty, Option.isSome_iff_exists] at hsn
    obtain ⟨n, hn⟩ := hsn
    have := hds n hn
    rw [Option.isSome_iff_exists] at this
    obtain ⟨d, hd⟩ := this
    simp [hn, hd, bind, Except.bind, pure, Except.pure]
  have hord' : s.m_state ≠ .CARET →
      (s.m_start.node = s.m_end.node ∧ s.m_start.offset ≤ s.m_end.offset) ∨
      (s.m_start.node ≠ s.m_end.node ∧
        nodeIsBeforeNode w.dom w.loopFuel s.m_start.node s.m_end.node = .ok true) := by
    intro hc
    apply hord
    cases hst : s.m_state <;> simp_all
  have hsame : s.m_start.node = s.m_end.node →
      nodeIsBeforeNode w.dom w.loopFuel s.m_start.node s.m_end.node = .ok true := by
    intro hx
    rw [← hx]
    unfold nodeIsBeforeNode
    cases s.m_start.node <;> simp
  have hrange : toRange w s =
      .ok (some ⟨s.m_start.node, s.m_start.offset, s.m_end.node, s.m_end.offset⟩) := by
    unfold toRange
    have hne : s.isEmpty = false := by simpa [Selection.isEmpty] using hstate
    simp only [hne, Bool.false_eq_true, if_false, hul, bind, Except.bind, pure, Except.pure]
    by_cases hc : s.m_state = .CARET
    · simp only [hc, if_true, hU, hC, hcaret hc]
    · simp only [hc, if_false, hD, eU]
      rcases hord' hc with ⟨h1, h2⟩ | ⟨h1, h2⟩
      · have hlt : ¬ (s.m_start.offset > s.m_end.offset) := by omega
        simp [hlt, hsame h1, hC, eC]
      · simp [h1, h2, hC, eC]
  have hstart : (⟨s.m_start.node, s.m_start.offset⟩ : Position N) = s.m_start := rfl
  have hend : (⟨s.m_end.node, s.m_end.offset⟩ : Position N) = s.m_end := rfl
  have hcmp : s.m_start.node ≠ s.m_end.node →
      nodeIsBeforeNode w.dom w.loopFuel s.m_start.node s.m_end.node = .ok true := by
    intro hx
    by_cases hc : s.m_state = .CARET
    · rw [hcaret hc] at hx
      exact absurd rfl hx
    · rcases hord' hc with ⟨h1, _⟩ | ⟨_, h2⟩
      · exact absurd h1 hx
      · exact h2
  obtain ⟨s', hs'⟩ := validate_returns w .CHARACTER (Or.inl rfl)
    (Selection.init.assignBaseAndExtent s.m_start s.m_end)
    (fun _ => hR) (fun _ => eR) hds hde (fun _ _ hx => ⟨true, hcmp hx⟩)
  have hk := validate_keeps w .CHARACTER _ s' hs' hsn hen hR eR
  simp only [Selection.assignBaseAndExtent] at hk
  obtain ⟨sh, hrg, hnr, _⟩ := validate_character w _ s' hs'
  have hbis : s'.m_baseIsStart = true := by
    unfold AnchorsOrdered at sh
    rw [hk.1, hk.2] at sh
    rcases sh with ⟨h1, _, _⟩ | ⟨_, _, ⟨h3, h4⟩ | ⟨h3, h4⟩⟩
    · simp [Position.isEmpty, Position.notEmpty] at h1 hsn
      rw [h1] at hsn
      cases hsn
    · rw [h4]
      by_cases hc : s.m_state = .CARET
      · rw [hcaret hc]
        simp
      · rcases hord' hc with ⟨_, h2⟩ | ⟨h1, _⟩
        · rw [if_neg (by omega)]
        · exact absurd h3 h1
    · rw [hcmp h3] at h4
      exact (Except.ok.inj h4).symm
  refine ⟨_, s', hrange, hs', ?_, ?_⟩
  · by_cases hr : s'.m_state = .RANGE
    · rw [(hrg hr).1, hbis, if_pos rfl, hk.1, hDs]
    · rw [(hnr hr).1, hbis, if_pos rfl, hk.1]
  · by_cases hr : s'.m_state = .RANGE
    · rw [(hrg hr).2, hbis, if_pos rfl, hk.2, eUs]
    · rw [(hnr hr).2, hbis, if_pos rfl, hk.2]

/-- C6, amended, at a concrete input: the word "quick" of the sample world survives the
trip through `toRange()` and the constructor. -/
theorem toRange_roundtrip_witness :
    ∃ r s', toRange sampleWorld quickWord = .ok (some r) ∧
      Selection.ofRange sampleWorld r = .ok s' ∧
      s'.m_start = quickWord.m_start ∧ s'.m_end = quickWord.m_end :=
  toRange_roundtrip sampleWorld quickWord (by decide) (by decide)
    (by unfold Settled; decide) (by unfold Settled; decide) (by decide)
    (fun h => by cases h) (fun _ => Or.inl ⟨rfl, by decide⟩) (fun n _ => rfl) (fun n _ => rfl)

/-- C7, counterexample: with the end of textA downstream-equivalent to the start of
textB, three successful `modify(EXTEND, FORWARD, CHARACTER)` calls from the caret at
P = `(textA, 13)` put end at `(textB, 3)`, three characters on, but start at
`(textB, 0)`, which is not P. -/
theorem extend_chain_moves_start :
    Selection.ofPosition seamWorld ⟨some [0, 0], 13⟩ = .ok (caretAt [0, 0] 13) ∧
      modify seamWorld .EXTEND .FORWARD .CHARACTER (caretAt [0, 0] 13) [] =
        .ok (true, seamRange 1, []) ∧
      modify seamWorld .EXTEND .FORWARD .CHARACTER (seamRange 1) [] =
        .ok (true, seamRange 2, []) ∧
      modify seamWorld .EXTEND .FORWARD .CHARACTER (seamRange 2) [] =
        .ok (true, seamRange 3, []) ∧
      (seamRange 3).m_end = ⟨some [0, 1, 0], 3⟩ ∧
      (seamRange 3).m_start ≠ ⟨some [0, 0], 13⟩ :=
  ⟨by decide, by decide, by decide, by decide, by decide, by decide⟩

/-- C7, amended: starting from a Selection with start == end == P and `m_modifyBiasSet`
false, three successive successful `modify(EXTEND, FORWARD, CHARACTER)` calls, with P
and the three positions reached from P by next-character steps not empty and left
unchanged by the rendered-position resolution, leave base == P, extent at the third
of those positions and `m_modifyBiasSet` true.  With base first (baseIsStart), start
and end are P and that position when the result is not a Range, and
`P.downstream(StayInBlock)` and the `upstream(StayInBlock)` of that position when it
is a Range. -/
theorem extend_chain (w : World N R C) (s s1 s2 s3 : Selection N) (c c1 c2 c3 : PartCache)
    (P : Position N) (hstart : s.m_start = P) (hend : s.m_end = P)
    (hbias : s.m_modifyBiasSet = false)
    (h1 : modify w .EXTEND .FORWARD .CHARACTER s c = .ok (true, s1, c1))
    (h2 : modify w .EXTEND .FORWARD .CHARACTER s1 c1 = .ok (true, s2, c2))
    (h3 : modify w .EXTEND .FORWARD .CHARACTER s2 c2 = .ok (true, s3, c3))
    (hP : P.notEmpty = true) (hRP : renderedPosition w s.m_affinity P = P)
    (hn1 : (nextCharacter w P).notEmpty = true)
    (hR1 : renderedPosition w s.m_affinity (nextCharacter w P) = nextCharacter w P)
    (hn2 : (nextCharacter w (nextCharacter w P)).notEmpty = true)
    (hR2 : renderedPosition w s.m_affinity (nextCharacter w (nextCharacter w P)) =
      nextCharacter w (nextCharacter w P))
    (hn3 : (nextCharacter w (nextCharacter w (nextCharacter w P))).notEmpty = true)
    (hR3 : renderedPosition w s.m_affinity (nextCharacter w (nextCharacter w (nextCharacter w P))) =
      nextCharacter w (nextCharacter w (nextCharacter w P))) :
    s3.m_base = P ∧
      s3.m_extent = nextCharacter w (nextCharacter w (nextCharacter w P)) ∧
      s3.m_modifyBiasSet = true ∧
      (s3.m_baseIsStart = true →
        (s3.m_state ≠ .RANGE →
          s3.m_start = P ∧
          s3.m_end = nextCharacter w (nextCharacter w (nextCharacter w P))) ∧
        (s3.m_state = .RANGE →
          s3.m_start = w.downstream StayInBlock P ∧
          s3.m_end = w.upstream StayInBlock
            (nextCharacter w (nextCharacter w (nextCharacter w P))))) := by
  have p0 : (modifyBias .EXTEND .FORWARD s).m_base = P ∧
      (modifyBias .EXTEND .FORWARD s).m_extent = P := by
    simp [modifyBias, hbias, Selection.assignBaseAndExtent, hstart, hend]
  have e1 := extend_step_settled w s s1 c c1 P P h1 p0.1 p0.2 hP hRP hn1 hR1
  have p1 : (modifyBias .EXTEND .FORWARD s1).m_base = P ∧
      (modifyBias .EXTEND .FORWARD s1).m_extent = nextCharacter w P := by
    simp [modifyBias, e1.2.2.1, e1.1, e1.2.1]
  have e2 := extend_step_settled w s1 s2 c1 c2 P _ h2 p1.1 p1.2 hP (by rw [e1.2.2.2]; exact hRP)
    hn2 (by rw [e1.2.2.2]; exact hR2)
  have p2 : (modifyBias .EXTEND .FORWARD s2).m_base = P ∧
      (modifyBias .EXTEND .FORWARD s2).m_extent = nextCharacter w (nextCharacter w P) := by
    simp [modifyBias, e2.2.2.1, e2.1, e2.2.1]
  have e3 := extend_step_settled w s2 s3 c2 c3 P _ h3 p2.1 p2.2 hP
    (by rw [e2.2.2.2, e1.2.2.2]; exact hRP) hn3 (by rw [e2.2.2.2, e1.2.2.2]; exact hR3)
  refine ⟨e3.1, e3.2.1, e3.2.2.1, ?_⟩
  intro hbis
  have hx := extend_step w s2 s3 c2 c3 h3
  unfold setExtent at hx
  obtain ⟨_, hrg, hnr, _⟩ := validate_character w _ s3 hx
  rw [hbis, e3.1, e3.2.1] at hrg hnr
  simp only [if_true] at hrg hnr
  exact ⟨hnr, hrg⟩

/-- C7, amended, at a concrete input: three extensions from the caret at offset 5 of
"The quick fox" in the sample world. -/
theorem extend_chain_witness :
    modify sampleWorld .EXTEND .FORWARD .CHARACTER (caretAt [0, 0] 5) [] =
        .ok (true, { rangeOf [0, 0] 5 [0, 0] 6 with m_modifyBiasSet := true }, []) ∧
      ({ rangeOf [0, 0] 5 [0, 0] 8 with m_modifyBiasSet := true } :
        Selection (List Nat)).m_base = ⟨some [0, 0], 5⟩ :=
  ⟨by decide,
    (extend_chain sampleWorld (caretAt [0, 0] 5)
      { rangeOf [0, 0] 5 [0, 0] 6 with m_modifyBiasSet := true }
      { rangeOf [0, 0] 5 [0, 0] 7 with m_modifyBiasSet := true }
      { rangeOf [0, 0] 5 [0, 0] 8 with m_modifyBiasSet := true } [] [] [] []
      ⟨some [0, 0], 5⟩ rfl rfl rfl (by decide) (by decide) (by decide)
      (by decide) (by decide) (by decide) (by decide) (by decide) (by decide)
      (by decide) (by decide)).1⟩

/-- C9, counterexample: with the blanks of "a   b" collapsed, `expandUsingGranularity(WORD)`
on the caret at offset 1 finds the word boundary (1, 4) and yields start offset 1 but
end offset 2, the upstream position of offset 4, not offset 4. -/
theorem expand_word_end_snapped :
    Selection.ofPosition collapsedWorld ⟨some [0, 2], 1⟩ = .ok (caretAt [0, 2] 1) ∧
      collapsedWorld.findWordBoundary (collapsedWorld.nodeValue [0, 2])
        (collapsedWorld.nodeValue [0, 2]).length 1 = (1, 4) ∧
      expandUsingGranularity collapsedWorld .WORD (caretAt [0, 2] 1) =
        .ok (true, { caretAt [0, 2] 1 with
          m_start := ⟨some [0, 2], 1⟩, m_end := ⟨some [0, 2], 2⟩, m_state := .RANGE }) ∧
      (⟨some [0, 2], 2⟩ : Position (List Nat)) ≠ ⟨some [0, 2], 4⟩ :=
  ⟨by decide, by decide, by decide, by decide⟩

/-- C9, amended: after `expandUsingGranularity(WORD)` has returned true, with (first,
second) the validated (base, extent) if baseIsStart and (extent, base) otherwise, start
is the deep equivalent of `CaretPosition(first.node, ws)` and end that of
`CaretPosition(second.node, we)`, for the word start `ws` at first and the word end `we`
at second, each passed through `downstream(StayInBlock)`, respectively
`upstream(StayInBlock)`, when the result is a Range.  For a caret on a text or CDATA
node `n` at offset `o` that the rendered-position resolution leaves in place, the call
returns true, base and extent stay `(n, o)`, and `(ws, we)` is
`findWordBoundary(nodeValue, length, o)`. -/
theorem expand_word (w : World N R C) (s : Selection N) :
    (∀ s', expandUsingGranularity w .WORD s = .ok (true, s') →
      (s'.m_state ≠ .RANGE →
        s'.m_start = caretDeep w (if s'.m_baseIsStart then s'.m_base else s'.m_extent).node
          (wordOffsets w (if s'.m_baseIsStart then s'.m_base else s'.m_extent)).1 ∧
        s'.m_end = caretDeep w (if s'.m_baseIsStart then s'.m_extent else s'.m_base).node
          (wordOffsets w (if s'.m_baseIsStart then s'.m_extent else s'.m_base)).2) ∧
      (s'.m_state = .RANGE →
        s'.m_start = w.downstream StayInBlock
          (caretDeep w (if s'.m_baseIsStart then s'.m_base else s'.m_extent).node
            (wordOffsets w (if s'.m_baseIsStart then s'.m_base else s'.m_extent)).1) ∧
        s'.m_end = w.upstream StayInBlock
          (caretDeep w (if s'.m_baseIsStart then s'.m_extent else s'.m_base).node
            (wordOffsets w (if s'.m_baseIsStart then s'.m_extent else s'.m_base)).2))) ∧
    (∀ (n : N) (o : Int), s.m_state ≠ .NONE → s.m_base = ⟨some n, o⟩ →
      s.m_extent = ⟨some n, o⟩ →
      (w.nodeType n = TEXT_NODE ∨ w.nodeType n = CDATA_SECTION_NODE) →
      (w.getDocument n).isSome = true →
      renderedPosition w s.m_affinity ⟨some n, o⟩ = ⟨some n, o⟩ →
      ∃ s', expandUsingGranularity w .WORD s = .ok (true, s') ∧
        s'.m_base = ⟨some n, o⟩ ∧ s'.m_extent = ⟨some n, o⟩ ∧
        (s'.m_state ≠ .RANGE →
          s'.m_start = caretDeep w (some n)
            (w.findWordBoundary (w.nodeValue n) (w.nodeValue n).length o).1 ∧
          s'.m_end = caretDeep w (some n)
            (w.findWordBoundary (w.nodeValue n) (w.nodeValue n).length o).2) ∧
        (s'.m_state = .RANGE →
          s'.m_start = w.downstream StayInBlock (caretDeep w (some n)
            (w.findWordBoundary (w.nodeValue n) (w.nodeValue n).length o).1) ∧
          s'.m_end = w.upstream StayInBlock (caretDeep w (some n)
            (w.findWordBoundary (w.nodeValue n) (w.nodeValue n).length o).2))) := by
  have hexp : ∀ s', expandUsingGranularity w .WORD s = .ok (true, s') →
      validate w .WORD s = .ok s' := by
    intro s' h
    unfold expandUsingGranularity at h
    split at h
    · cases h
    · rw [run_bind_ok] at h
      obtain ⟨s2, h2, h⟩ := h
      rw [run_pure_ok] at h
      cases h
      exact h2
  refine ⟨fun s' h => (validate_word w s s' (hexp s' h)).2, ?_⟩
  intro n o hst hb he htext hdoc hR
  have hbn : s.m_base.notEmpty = true := by rw [hb]; rfl
  have hen : s.m_extent.notEmpty = true := by rw [he]; rfl
  obtain ⟨s', hs'⟩ := validate_returns w .WORD (Or.inr (Or.inl rfl)) s
    (fun _ => by rw [hb]; exact hR) (fun _ => by rw [he]; exact hR)
    (fun m hm => by rw [hb] at hm; cases hm; exact hdoc)
    (fun m hm => by rw [he] at hm; cases hm; exact hdoc)
    (fun _ _ hx => by rw [hb, he] at hx; exact absurd rfl hx)
  have hk := validate_keeps w .WORD s s' hs' hbn hen (by rw [hb]; exact hR)
    (by rw [he]; exact hR)
  rw [hb] at hk
  rw [he] at hk
  have hw := (validate_word w s s' hs').2
  have hoff : wordOffsets w (⟨some n, o⟩ : Position N) =
      w.findWordBoundary (w.nodeValue n) (w.nodeValue n).length o := by
    simp [wordOffsets, htext]
  have hfirst : (if s'.m_baseIsStart then s'.m_base else s'.m_extent) = ⟨some n, o⟩ := by
    rw [hk.1, hk.2]; simp
  have hsecond : (if s'.m_baseIsStart then s'.m_extent else s'.m_base) = ⟨some n, o⟩ := by
    rw [hk.1, hk.2]; simp
  rw [hfirst, hsecond, hoff] at hw
  refine ⟨s', ?_, hk.1, hk.2, hw⟩
  unfold expandUsingGranularity
  simp [hst, hs', bind, Except.bind, pure, Except.pure]

/-- C9, amended, at the input of the claim: text "The quick fox", caret at offset 5. -/
theorem expand_word_witness :
    (sampleWorld.findWordBoundary (sampleWorld.nodeValue [0, 0])
        (sampleWorld.nodeValue [0, 0]).length 5 = (4, 9) ∧
      expandUsingGranularity sampleWorld .WORD (caretAt [0, 0] 5) = .ok (true, quickWord) ∧
      quickWord.m_start = ⟨some [0, 0], 4⟩ ∧ quickWord.m_end = ⟨some [0, 0], 9⟩) ∧
    ∃ s', expandUsingGranularity sampleWorld .WORD (caretAt [0, 0] 5) = .ok (true, s') ∧
      s'.m_base = ⟨some [0, 0], 5⟩ ∧ s'.m_extent = ⟨some [0, 0], 5⟩ ∧
      (s'.m_state ≠ .RANGE →
        s'.m_start = caretDeep sampleWorld (some [0, 0])
          (sampleWorld.findWordBoundary (sampleWorld.nodeValue [0, 0])
            (sampleWorld.nodeValue [0, 0]).length 5).1 ∧
        s'.m_end = caretDeep sampleWorld (some [0, 0])
          (sampleWorld.findWordBoundary (sampleWorld.nodeValue [0, 0])
            (sampleWorld.nodeValue [0, 0]).length 5).2) ∧
      (s'.m_state = .RANGE →
        s'.m_start = sampleWorld.downstream StayInBlock (caretDeep sampleWorld (some [0, 0])
          (sampleWorld.findWordBoundary (sampleWorld.nodeValue [0, 0])
            (sampleWorld.nodeValue [0, 0]).length 5).1) ∧
        s'.m_end = sampleWorld.upstream StayInBlock (caretDeep sampleWorld (some [0, 0])
          (sampleWorld.findWordBoundary (sampleWorld.nodeValue [0, 0])
            (sampleWorld.nodeValue [0, 0]).length 5).2)) :=
  ⟨⟨by decide, by decide, by decide, by decide⟩,
    (expand_word sampleWorld (caretAt [0, 0] 5)).2 [0, 0] 5 (by decide) rfl rfl
      (Or.inl (by decide)) rfl rfl⟩

/-- C11, counterexample: with the start of textB upstream-equivalent to the end of textA,
`Selection(Position(textA, 13), Position(textB, 0))` is left by `validate` in state CARET
with start `(textA, 13)` and end `(textB, 0)`, two different positions. -/
theorem caret_with_distinct_ends :
    Selection.ofBaseExtent seamWorld ⟨some [0, 0], 13⟩ ⟨some [0, 1, 0], 0⟩ = .ok seamCaret ∧
      seamCaret.m_state = .CARET ∧ seamCaret.m_start ≠ seamCaret.m_end ∧
      seamCaret.m_start.node ≠ seamCaret.m_end.node :=
  ⟨by decide, by decide, by decide, by decide⟩

/-- C11, amended: for every Selection left by `validate`, at any granularity, with state
CARET, start and end are not both empty, and start == end or
`start.upstream(StayInBlock) == end.upstream(StayInBlock)`. -/
theorem validate_caret_ends (w : World N R C) (g : ETextGranularity) (s s' : Selection N)
    (h : validate w g s = .ok s') (hs : s'.m_state = .CARET) :
    ¬ (s'.m_start.isEmpty = true ∧ s'.m_end.isEmpty = true) ∧
      (s'.m_start = s'.m_end ∨
        w.upstream StayInBlock s'.m_start = w.upstream StayInBlock s'.m_end) :=
  validate_caret w g s s' h hs

/-- C11, amended, at a concrete input: the caret across the seam of `seamWorld`. -/
theorem validate_caret_ends_witness :
    seamCaret.m_start = seamCaret.m_end ∨
      seamWorld.upstream StayInBlock seamCaret.m_start =
        seamWorld.upstream StayInBlock seamCaret.m_end :=
  (validate_caret_ends seamWorld .CHARACTER
    (Selection.init.assignBaseAndExtent ⟨some [0, 0], 13⟩ ⟨some [0, 1, 0], 0⟩) seamCaret
    (by decide) (by decide)).2

/-- C12: a Selection built from a single Position is never a Range.  Whenever `validate`,
at any granularity, returns for a Selection with base == extent, base == extent after it;
when `Selection(p)` or `moveTo(p)` returns, base == extent and the state is NONE or CARET;
and both return for every Position `p` that is empty or whose node has a document. -/
theorem single_position_not_range (w : World N R C) (p : Position N) :
    (∀ (g : ETextGranularity) (s s' : Selection N), s.m_base = s.m_extent →
      validate w g s = .ok s' → s'.m_base = s'.m_extent) ∧
    (∀ s' : Selection N, Selection.ofPosition w p = .ok s' →
      s'.m_base = s'.m_extent ∧ (s'.m_state = .NONE ∨ s'.m_state = .CARET)) ∧
    (∀ s s' : Selection N, moveToPosition w p s = .ok s' →
      s'.m_base = s'.m_extent ∧ (s'.m_state = .NONE ∨ s'.m_state = .CARET)) ∧
    ((∀ n, p.node = some n → (w.getDocument n).isSome = true) →
      (∃ s', Selection.ofPosition w p = .ok s') ∧
      ∀ s : Selection N, ∃ s', moveToPosition w p s = .ok s') := by
  have key : ∀ s s' : Selection N, s.m_base = s.m_extent →
      validate w .CHARACTER s = .ok s' →
      s'.m_base = s'.m_extent ∧ (s'.m_state = .NONE ∨ s'.m_state = .CARET) := by
    intro s s' heq h
    have hc := validate_character_caret w s s' heq h
    refine ⟨hc.1, ?_⟩
    cases hst : s'.m_state
    · exact Or.inl rfl
    · exact Or.inr rfl
    · exact absurd hst hc.2.2.2.1
  have ret : ∀ s : Selection N, s.m_base = p → s.m_extent = p →
      (∀ n, p.node = some n → (w.getDocument n).isSome = true) →
      ∃ s', validate w .CHARACTER s = .ok s' := by
    intro s hb he hdoc
    obtain ⟨x, hx⟩ := moveToRendered_returns w s (by rw [hb]; exact hdoc) (by rw [he]; exact hdoc)
    have hxe := moveToRendered_equal w s x (by rw [hb, he]) hx
    obtain ⟨s2, h2⟩ := orderAnchors_returns w s.m_base x
      (fun _ _ hne => absurd (by rw [hxe]) hne)
    obtain ⟨s3, h3⟩ := expandStartEnd_returns w (selectionForLine w) .CHARACTER (Or.inl rfl) s2
    exact ⟨_, (validateVia_ok w _ .CHARACTER _ _).2 ⟨_, _, _, hx, h2, h3, rfl⟩⟩
  refine ⟨fun g s s' heq h => validate_equal_anchors w g s s' heq h,
    fun s' h => key _ s' rfl h, fun s s' h => key _ s' rfl h, fun hdoc => ⟨?_, fun s => ?_⟩⟩
  · exact ret _ rfl rfl hdoc
  · exact ret _ rfl rfl hdoc

/-- C12 at a concrete input: `Selection(Position(textA, 5))` in the sample world is the
caret at that position. -/
theorem single_position_not_range_witness :
    Selection.ofPosition sampleWorld ⟨some [0, 0], 5⟩ = .ok (caretAt [0, 0] 5) ∧
      (caretAt [0, 0] 5).m_base = (caretAt [0, 0] 5).m_extent ∧
      ((caretAt [0, 0] 5).m_state = .NONE ∨ (caretAt [0, 0] 5).m_state = .CARET) :=
  ⟨by decide,
    (single_position_not_range sampleWorld ⟨some [0, 0], 5⟩).2.1 (caretAt [0, 0] 5)
      (by decide)⟩

/-- C13: `expandUsingGranularity` returns false exactly when the state was NONE before the
call.  On a Selection in state NONE it returns false and the Selection itself; whenever it
returns, it returns false if and only if the state was NONE, a false return leaves every
field as it was, and a true return yields the result of `validate(granularity)`; and with
a state other than NONE it returns true whenever `validate(granularity)` returns. -/
theorem expandUsingGranularity_result (w : World N R C) (g : ETextGranularity)
    (s : Selection N) :
    (s.m_state = .NONE → expandUsingGranularity w g s = .ok (false, s)) ∧
    (∀ (r : Bool) (s' : Selection N), expandUsingGranularity w g s = .ok (r, s') →
      (r = false ↔ s.m_state = .NONE) ∧ (r = false → s' = s) ∧
      (r = true → validate w g s = .ok s')) ∧
    (s.m_state ≠ .NONE → ∀ s', validate w g s = .ok s' →
      expandUsingGranularity w g s = .ok (true, s')) := by
  refine ⟨fun hn => ?_, fun r s' h => ?_, fun hn s' hv => ?_⟩
  · unfold expandUsingGranularity
    rw [if_pos hn]
  · rcases expandUsingGranularity_ok w g s s' r h with ⟨h1, h2, h3⟩ | ⟨h1, h2, h3⟩
    · subst h2
      exact ⟨⟨fun _ => h1, fun _ => rfl⟩, fun _ => h3, fun hr => (by cases hr)⟩
    · subst h2
      exact ⟨⟨fun hr => (by cases hr), fun hx => absurd hx h1⟩, fun hr => (by cases hr),
        fun _ => h3⟩
  · unfold expandUsingGranularity
    rw [if_neg hn, hv]
    rfl

/-- C13 at concrete inputs: the empty Selection is returned unchanged with false, and the
caret at offset 5 of "The quick fox" is expanded to the word with true. -/
theorem expandUsingGranularity_result_witness :
    expandUsingGranularity sampleWorld .WORD (Selection.init : Selection (List Nat)) =
        .ok (false, Selection.init) ∧
      expandUsingGranularity sampleWorld .WORD (caretAt [0, 0] 5) = .ok (true, quickWord) :=
  ⟨(expandUsingGranularity_result sampleWorld .WORD Selection.init).1 rfl,
    (expandUsingGranularity_result sampleWorld .WORD (caretAt [0, 0] 5)).2.2 (by decide)
      quickWord (by decide)⟩

/-- C14: the degenerate cases of the comparator.  `nodeIsBeforeNode(n1, n2)` returns true,
without entering any loop, whenever `n1` is null, `n2` is null, or `n1 == n2`. -/
theorem nodeIsBeforeNode_degenerate (api : NodeAPI N) (fuel : Nat) (n : Option N) :
    nodeIsBeforeNode api fuel none n = .ok true ∧
      nodeIsBeforeNode api fuel n none = .ok true ∧
      nodeIsBeforeNode api fuel n n = .ok true := by
  unfold nodeIsBeforeNode
  cases n <;> simp

/-- C15: the Word Move starts from the extent, not from the range edge.  On the Range over
"quick" whose base is its end `(textA, 9)` and whose extent is its start `(textA, 4)`, the
candidate of `modify(MOVE, FORWARD, WORD)` is the next word position of the extent,
`(textA, 9)`, not that of end, `(textA, 10)`, which is the candidate for the Range with
the same start and end whose extent is its end. -/
theorem word_move_starts_from_extent :
    Selection.ofBaseExtent wordWorld ⟨some [0, 0], 9⟩ ⟨some [0, 0], 4⟩ =
        .ok (reverseRangeOf [0, 0] 4 [0, 0] 9) ∧
      modifyCandidate wordWorld .MOVE .FORWARD .WORD (reverseRangeOf [0, 0] 4 [0, 0] 9) [] =
        .ok (⟨some [0, 0], 9⟩, reverseRangeOf [0, 0] 4 [0, 0] 9, []) ∧
      wordWorld.caretPosition
          (wordWorld.nextWordPosition (reverseRangeOf [0, 0] 4 [0, 0] 9).m_end) =
        ⟨some [0, 0], 10⟩ ∧
      modifyCandidate wordWorld .MOVE .FORWARD .WORD (rangeOf [0, 0] 4 [0, 0] 9) [] =
        .ok (⟨some [0, 0], 10⟩, rangeOf [0, 0] 4 [0, 0] 9, []) ∧
      (rangeOf [0, 0] 4 [0, 0] 9).m_end = (reverseRangeOf [0, 0] 4 [0, 0] 9).m_end :=
  ⟨by decide, by decide, by decide, by decide, by decide⟩

/-- Where the Move candidate comes from: the candidate of `modify(MOVE, ..)` and the cache
of the part are the same for two Selections with the same state that agree on end (FORWARD/RIGHT) or on start
(BACKWARD/LEFT), for Line, Paragraph, LineBoundary and ParagraphBoundary granularity and
for Character granularity on a Range; for Word granularity, and for Character granularity
on a Selection that is not a Range, they are the same for two Selections with the same
state that agree on extent, the Word candidate being `extent().nextWordPosition()`; for
Document granularity they are the same for two Selections whose start has the same
node. -/
theorem move_candidate_source (w : World N R C) (g : ETextGranularity) (s t : Selection N)
    (c : PartCache) (hstate : s.m_state = t.m_state) :
    ((g = .LINE ∨ g = .PARAGRAPH ∨ g = .LINE_BOUNDARY ∨ g = .PARAGRAPH_BOUNDARY ∨
        (g = .CHARACTER ∧ s.m_state = .RANGE)) →
      (s.m_end = t.m_end →
        candidatePart (modifyCandidate w .MOVE .FORWARD g s c) =
          candidatePart (modifyCandidate w .MOVE .FORWARD g t c) ∧
        candidatePart (modifyCandidate w .MOVE .RIGHT g s c) =
          candidatePart (modifyCandidate w .MOVE .RIGHT g t c)) ∧
      (s.m_start = t.m_start →
        candidatePart (modifyCandidate w .MOVE .BACKWARD g s c) =
          candidatePart (modifyCandidate w .MOVE .BACKWARD g t c) ∧
        candidatePart (modifyCandidate w .MOVE .LEFT g s c) =
          candidatePart (modifyCandidate w .MOVE .LEFT g t c))) ∧
    ((g = .WORD ∨ (g = .CHARACTER ∧ s.m_state ≠ .RANGE)) → s.m_extent = t.m_extent →
      ∀ dir : EDirection,
        candidatePart (modifyCandidate w .MOVE dir g s c) =
          candidatePart (modifyCandidate w .MOVE dir g t c)) ∧
    (g = .DOCUMENT → s.m_start.node = t.m_start.node →
      ∀ dir : EDirection,
        candidatePart (modifyCandidate w .MOVE dir g s c) =
          candidatePart (modifyCandidate w .MOVE dir g t c)) ∧
    candidatePart (modifyCandidate w .MOVE .FORWARD .WORD s c) =
      .ok (w.caretPosition (w.nextWordPosition s.m_extent), c) ∧
    candidatePart (modifyCandidate w .MOVE .BACKWARD .WORD s c) =
      .ok (w.caretPosition (w.previousWordPosition s.m_extent), c) := by
  refine ⟨fun hg => ⟨fun hend => ?_, fun hstart => ?_⟩, fun hg hext dir => ?_,
    fun hg hnode dir => ?_, ?_, ?_⟩
  · have := moveForward_edge w g s t c hg hstate hend
    exact ⟨by simpa [modifyCandidate] using this, by simpa [modifyCandidate] using this⟩
  · have := moveBackward_edge w g s t c hg hstate hstart
    exact ⟨by simpa [modifyCandidate] using this, by simpa [modifyCandidate] using this⟩
  · have := move_extent w g s t c hg hstate hext
    cases dir <;> simp only [modifyCandidate, reduceCtorEq, if_false]
    · exact this.1
    · exact this.2
    · exact this.1
    · exact this.2
  · subst hg
    have := move_document w s t c hnode
    cases dir <;> simp only [modifyCandidate, reduceCtorEq, if_false]
    · exact this.1
    · exact this.2
    · exact this.1
    · exact this.2
  · simp [modifyCandidate, modifyMovingRightForward, candidatePart, bind, Except.bind, pure,
      Except.pure]
  · simp [modifyCandidate, modifyMovingLeftBackward, candidatePart, bind, Except.bind, pure,
      Except.pure]

/-- The Move candidate at a concrete input: moving forward to the line boundary gives the
same candidate for the Range over "quick" whichever of base and extent is its end. -/
theorem move_candidate_source_witness :
    candidatePart (modifyCandidate sampleWorld .MOVE .FORWARD .LINE_BOUNDARY
        (rangeOf [0, 0] 4 [0, 0] 9) []) =
      candidatePart (modifyCandidate sampleWorld .MOVE .FORWARD .LINE_BOUNDARY
        (reverseRangeOf [0, 0] 4 [0, 0] 9) []) :=
  (((move_candidate_source sampleWorld .LINE_BOUNDARY (rangeOf [0, 0] 4 [0, 0] 9)
    (reverseRangeOf [0, 0] 4 [0, 0] 9) [] (by decide)).1
      (Or.inr (Or.inr (Or.inl rfl)))).1 (by decide)).1

/-- C16: Character Move collapses a Range without moving further.  For every Selection in
state RANGE the candidate of `modify(MOVE, FORWARD, CHARACTER)` is the CaretPosition of
end and that of `modify(MOVE, BACKWARD, CHARACTER)` the CaretPosition of start, with no
next or previous step; the call returns false exactly when that CaretPosition is empty,
and when it returns true the Selection is the result of `moveTo` of the deep equivalent of
that position; `m_modifyBiasSet` is false after the call. -/
theorem character_move_collapses (w : World N R C) (s : Selection N) (c : PartCache)
    (hr : s.m_state = .RANGE) :
    modifyCandidate w .MOVE .FORWARD .CHARACTER s c =
        .ok (w.caretPosition s.m_end, { s with m_modifyBiasSet := false }, c) ∧
      modifyCandidate w .MOVE .BACKWARD .CHARACTER s c =
        .ok (w.caretPosition s.m_start, { s with m_modifyBiasSet := false }, c) ∧
      (∀ (r : Bool) (s' : Selection N) (c' : PartCache),
        modify w .MOVE .FORWARD .CHARACTER s c = .ok (r, s', c') →
        s'.m_modifyBiasSet = false ∧
        (r = false ↔ w.caretIsEmpty (w.caretPosition s.m_end) = true) ∧
        (r = true → moveToPosition w (w.caretDeepEquivalent (w.caretPosition s.m_end))
          { s with m_modifyBiasSet := false } = .ok s')) ∧
      (∀ (r : Bool) (s' : Selection N) (c' : PartCache),
        modify w .MOVE .BACKWARD .CHARACTER s c = .ok (r, s', c') →
        s'.m_modifyBiasSet = false ∧
        (r = false ↔ w.caretIsEmpty (w.caretPosition s.m_start) = true) ∧
        (r = true → moveToPosition w (w.caretDeepEquivalent (w.caretPosition s.m_start))
          { s with m_modifyBiasSet := false } = .ok s')) ∧
      (w.caretIsEmpty (w.caretPosition s.m_end) = false →
        ∀ s', moveToPosition w (w.caretDeepEquivalent (w.caretPosition s.m_end))
            { s with m_modifyBiasSet := false } = .ok s' →
          modify w .MOVE .FORWARD .CHARACTER s c = .ok (true, s', c)) ∧
      (w.caretIsEmpty (w.caretPosition s.m_start) = false →
        ∀ s', moveToPosition w (w.caretDeepEquivalent (w.caretPosition s.m_start))
            { s with m_modifyBiasSet := false } = .ok s' →
          modify w .MOVE .BACKWARD .CHARACTER s c = .ok (true, s', c)) := by
  have hf : modifyCandidate w .MOVE .FORWARD .CHARACTER s c =
      .ok (w.caretPosition s.m_end, { s with m_modifyBiasSet := false }, c) := by
    simp [modifyCandidate, modifyMovingRightForward, hr, bind, Except.bind, pure, Except.pure]
  have hb : modifyCandidate w .MOVE .BACKWARD .CHARACTER s c =
      .ok (w.caretPosition s.m_start, { s with m_modifyBiasSet := false }, c) := by
    simp [modifyCandidate, modifyMovingLeftBackward, hr, bind, Except.bind, pure, Except.pure]
  have main : ∀ (dir : EDirection) (pos : C),
      modifyCandidate w .MOVE dir .CHARACTER s c =
        .ok (pos, { s with m_modifyBiasSet := false }, c) →
      ∀ (r : Bool) (s' : Selection N) (c' : PartCache),
        modify w .MOVE dir .CHARACTER s c = .ok (r, s', c') →
        s'.m_modifyBiasSet = false ∧
        (r = false ↔ w.caretIsEmpty pos = true) ∧
        (r = true → moveToPosition w (w.caretDeepEquivalent pos)
          { s with m_modifyBiasSet := false } = .ok s') := by
    intro dir pos hc r s' c' h
    obtain ⟨pos', hc', hfalse, htrue⟩ := modify_ok w .MOVE dir .CHARACTER s s' c c' r h
    rw [hc] at hc'
    have hpos : pos = pos' := (Prod.mk.inj (Except.ok.inj hc')).1
    have hsel : ({ s with m_modifyBiasSet := false } : Selection N) = modifyBias .MOVE dir s :=
      (Prod.mk.inj (Prod.mk.inj (Except.ok.inj hc')).2).1
    subst hpos
    cases r with
    | false =>
      obtain ⟨he, rfl⟩ := hfalse rfl
      exact ⟨by simp [modifyBias], ⟨fun _ => he, fun _ => rfl⟩, fun hx => (by cases hx)⟩
    | true =>
      obtain ⟨he, hm, _⟩ := htrue rfl
      have hm' := hm rfl
      rw [← hsel] at hm'
      have hfr := validate_frame w .CHARACTER _ s' hm'
      refine ⟨by rw [hfr.2.2.1]; rfl, ⟨fun hx => (by cases hx), fun hx => ?_⟩, fun _ => hm'⟩
      rw [he] at hx
      cases hx
  have prod : ∀ (dir : EDirection) (pos : C),
      modifyCandidate w .MOVE dir .CHARACTER s c =
        .ok (pos, { s with m_modifyBiasSet := false }, c) →
      w.caretIsEmpty pos = false →
      ∀ s', moveToPosition w (w.caretDeepEquivalent pos)
          { s with m_modifyBiasSet := false } = .ok s' →
        modify w .MOVE dir .CHARACTER s c = .ok (true, s', c) := by
    intro dir pos hc he s' hm
    unfold modify
    rw [hc]
    simp [bind, Except.bind, pure, Except.pure, he, hm]
  exact ⟨hf, hb, main .FORWARD _ hf, main .BACKWARD _ hb, prod .FORWARD _ hf, prod .BACKWARD _ hb⟩

/-- C16 at a concrete input: `modify(MOVE, FORWARD, CHARACTER)` on the Range over "quick"
leaves the caret at its end, offset 9. -/
theorem character_move_collapses_witness :
    modify sampleWorld .MOVE .FORWARD .CHARACTER (rangeOf [0, 0] 4 [0, 0] 9) [] =
      .ok (true, caretAt [0, 0] 9, []) :=
  (character_move_collapses sampleWorld (rangeOf [0, 0] 4 [0, 0] 9) [] (by decide)).2.2.2.2.1
    (by decide) (caretAt [0, 0] 9) (by decide)

/-- C17: boundary absence.  For every Position whose node is absent or is not a TEXT or
CDATA node `selectionForLine` returns the empty Selection; when base and extent, as
`validate` has resolved them on reaching the `switch`, are both such positions, the LINE
and LINE_BOUNDARY cases leave the Selection as it was, start and end included, so that
`validate` with these granularities is `validate` without the `switch`; and start and end
at the `switch` are those the Selection had before the call unless both anchors resolved
to empty positions. -/
theorem line_boundary_absence (w : World N R C) :
    (∀ p : Position N, offText w p → selectionForLine w p = .ok Selection.init) ∧
    (∀ (g : ETextGranularity) (s : Selection N), (g = .LINE ∨ g = .LINE_BOUNDARY) →
      offText w s.m_base → offText w s.m_extent →
      expandStartEnd w (selectionForLine w) g s = .ok s) ∧
    (∀ (g : ETextGranularity) (s s1 s2 : Selection N), (g = .LINE ∨ g = .LINE_BOUNDARY) →
      moveToRendered w s = .ok s1 → orderAnchors w s.m_base s1 = .ok s2 →
      offText w s2.m_base → offText w s2.m_extent →
      validate w g s = .ok (adjustState w s2) ∧
      (¬ (s1.m_base.isEmpty = true ∧ s1.m_extent.isEmpty = true) →
        s2.m_start = s.m_start ∧ s2.m_end = s.m_end)) := by
  refine ⟨fun p h => selectionForLine_offText w p h,
    fun g s hg hb he => expandStartEnd_line_offText w g hg s hb he,
    fun g s s1 s2 hg h1 h2 hb he => ⟨?_, fun hne => ?_⟩⟩
  · exact (validateVia_ok w _ g s _).2
      ⟨s1, s2, s2, h1, h2, expandStartEnd_line_offText w g hg s2 hb he, rfl⟩
  · have f1 := moveToRendered_frame w s s1 h1
    have f2 := orderAnchors_startEnd w _ s1 s2 hne h2
    exact ⟨by rw [f2.1, f1.1], by rw [f2.2, f1.2.1]⟩

/-- C17 at a concrete input: `validate(LINE)` on the caret at the block element of the
sample document, which is not a text node, leaves start and end where they are. -/
theorem line_boundary_absence_witness :
    validate sampleWorld .LINE (caretAt [0] 0) = .ok (adjustState sampleWorld (caretAt [0] 0)) ∧
      adjustState sampleWorld (caretAt [0] 0) = caretAt [0] 0 :=
  ⟨((line_boundary_absence sampleWorld).2.2 .LINE (caretAt [0] 0) (caretAt [0] 0)
      (caretAt [0] 0) (Or.inl rfl) (by decide) (by decide)
      (fun n h => by cases h; exact ⟨by decide, by decide⟩)
      (fun n h => by cases h; exact ⟨by decide, by decide⟩)).1,
    by decide⟩

/-- C18: `selectionForLine` dereferences a missing renderer.  For the position at the
start of textB, a text node without renderer, `selectionForLine` runs into the null
dereference `renderer->findNextInlineTextBox(..)`; so do `expandUsingGranularity(LINE)`
on the caret there and `modify(MOVE, FORWARD, LINE_BOUNDARY)` on the caret that was put
there while textB still had its renderer.  When every render object above the text
renderer is inline, the loop ends with a null `renderNode`, which
`renderNode->firstChild()` dereferences. -/
theorem selectionForLine_null_renderer :
    unrenderedWorld.nodeType [0, 1, 0] = TEXT_NODE ∧
      unrenderedWorld.renderer [0, 1, 0] = none ∧
      selectionForLine unrenderedWorld ⟨some [0, 1, 0], 0⟩ = .error .nullDeref ∧
      expandUsingGranularity unrenderedWorld .LINE (caretAt [0, 1, 0] 0) =
        .error .nullDeref ∧
      Selection.ofPosition sampleWorld ⟨some [0, 1, 0], 0⟩ = .ok (caretAt [0, 1, 0] 0) ∧
      modify unrenderedWorld .MOVE .FORWARD .LINE_BOUNDARY (caretAt [0, 1, 0] 0) [] =
        .error .nullDeref ∧
      selectionForLine inlineWorld ⟨some [0, 0], 0⟩ = .error .nullDeref :=
  ⟨by decide, by decide, by decide, by decide, by decide, by decide, by decide⟩

/-- C19: `needsCaretRepaint` never repaints the old rectangle.  The caret laid out at offset
3 of "The quick fox" and then moved to offset 5 holds the rectangle of offset 3,
(3, 0, 1, 10), with `m_needsCaretLayout` set; `needsCaretRepaint` passes to
`updateContents` twice the repaint rectangle of the caret at offset 5, (4, -1, 3, 12), and
not first the repaint rectangle of the cached one, (2, -1, 3, 12). -/
theorem needsCaretRepaint_skips_old_rectangle :
    layoutCaret sampleWorld (caretAt [0, 0] 3) = .ok laidOutCaret ∧
      moveToPosition sampleWorld ⟨some [0, 0], 5⟩ laidOutCaret = .ok movedCaret ∧
      movedCaret.m_needsCaretLayout = true ∧ movedCaret.m_caretRect = ⟨3, 0, 1, 10⟩ ∧
      getRepaintRect sampleWorld { movedCaret with m_needsCaretLayout := false } =
        .ok (⟨2, -1, 3, 12⟩, { movedCaret with m_needsCaretLayout := false }) ∧
      needsCaretRepaint sampleWorld movedCaret =
        .ok ({ caretAt [0, 0] 5 with
            m_caretRect := ⟨5, 0, 1, 10⟩, m_needsCaretLayout := false },
          [⟨4, -1, 3, 12⟩, ⟨4, -1, 3, 12⟩]) :=
  ⟨by decide, by decide, by decide, by decide, by decide, by decide⟩

/-- C20: `needsCaretRepaint` does not leave the cache stale for a live caret.  For the
caret at offset 5 of "The quick fox", in the document, with a view and with
`m_needsCaretLayout` true on entry, `m_needsCaretLayout` is false when `needsCaretRepaint`
returns: the `getRepaintRect()` of the last `updateContents` call lays the caret out
again and clears the flag that the statement before had set. -/
theorem needsCaretRepaint_clears_flag :
    movedCaret.m_state = .CARET ∧ movedCaret.m_needsCaretLayout = true ∧
      sampleWorld.inDocument [0, 0] = true ∧
      (sampleWorld.getDocument [0, 0]).bind sampleWorld.view = some 0 ∧
      (needsCaretRepaint sampleWorld movedCaret).toOption.map
        (fun r => r.1.m_needsCaretLayout) = some false :=
  ⟨by decide, by decide, by decide, by decide, by decide⟩

/-- C22: no dangling half-range.  When the rendered-position step of `validate` leaves
exactly one of base and extent empty, the dangling check copies the other one into it and
sets `m_baseIsStart`; at Character granularity `validate` then returns, with base, extent,
start and end all that position, state CARET and `m_needsCaretLayout` set, the other
members as the rendered-position step left them.  `setBase(p)` and `setExtent(p)` are
`validate()` after `assignBase(p)` and `assignExtent(p)`. -/
theorem dangling_anchor_filled (w : World N R C) (s s1 : Selection N)
    (h1 : moveToRendered w s = .ok s1) (hx : s1.m_base.isEmpty ≠ s1.m_extent.isEmpty) :
    orderAnchors w s.m_base s1 =
        .ok { s1 with
          m_base := if s1.m_base.isEmpty then s1.m_extent else s1.m_base
          m_extent := if s1.m_base.isEmpty then s1.m_extent else s1.m_base
          m_baseIsStart := true } ∧
      validate w .CHARACTER s =
        .ok { s1 with
          m_base := if s1.m_base.isEmpty then s1.m_extent else s1.m_base
          m_extent := if s1.m_base.isEmpty then s1.m_extent else s1.m_base
          m_start := if s1.m_base.isEmpty then s1.m_extent else s1.m_base
          m_end := if s1.m_base.isEmpty then s1.m_extent else s1.m_base
          m_state := .CARET
          m_baseIsStart := true
          m_needsCaretLayout := true } := by
  unfold validate validateVia
  rw [h1]
  obtain ⟨⟨bn, bo⟩, ⟨en, eo⟩, st, en2, sta, aff, rect, bis, ncl, bias⟩ := s1
  cases bn <;> cases en <;>
    simp_all [orderAnchors, Position.isEmpty, Selection.assignBase, Selection.assignExtent,
      bind, Except.bind, pure, Except.pure, expandStartEnd, Selection.assignStartAndEnd,
      adjustState]

/-- C22 at a concrete input: `setBase` and `setExtent` with the rendered position
`(textA, 5)` on the empty Selection of the sample world both leave the caret there. -/
theorem dangling_anchor_filled_witness :
    setBase sampleWorld ⟨some [0, 0], 5⟩ Selection.init = .ok (caretAt [0, 0] 5) ∧
      setExtent sampleWorld ⟨some [0, 0], 5⟩ Selection.init = .ok (caretAt [0, 0] 5) :=
  ⟨(dangling_anchor_filled sampleWorld (Selection.init.assignBase ⟨some [0, 0], 5⟩)
      (Selection.init.assignBase ⟨some [0, 0], 5⟩) (by decide) (by decide)).2.trans (by decide),
    (dangling_anchor_filled sampleWorld (Selection.init.assignExtent ⟨some [0, 0], 5⟩)
      (Selection.init.assignExtent ⟨some [0, 0], 5⟩) (by decide) (by decide)).2.trans
      (by decide)⟩

/-- C24: `modify` with the granularity DOCUMENT dereferences the null node of an empty
Selection.  For the default constructed Selection (state NONE, start empty), every alter
and every direction, the `case DOCUMENT` of the helper evaluates
`start().node()->getDocument()` on the null node; `xPosForVerticalArrowNavigation`, which
the LINE cases call, returns 0 on the same Selection before it looks at a node. -/
theorem modify_document_on_empty (w : World N R C) (alter : EAlter) (dir : EDirection)
    (cache : PartCache) :
    (Selection.init : Selection N).m_state = .NONE ∧
      (Selection.init : Selection N).m_start.node = none ∧
      modify w alter dir .DOCUMENT Selection.init cache = .error .nullDeref ∧
      xPosForVerticalArrowNavigation w (Selection.init : Selection N) .START false cache =
        .ok (0, cache) := by
  refine ⟨rfl, rfl, ?_, rfl⟩
  cases alter <;> cases dir <;> rfl

/-- C30: `setStart`, `setEnd` and `setStartAndEnd` do not depend on their arguments.
Each of them runs `validate()` at Character granularity, which overwrites start and end
from base and extent before it reads them: the outcome (every member of the Selection,
or the fault) is that of a plain `validate()` on the Selection. -/
theorem setters_ignore_arguments (w : World N R C) (s : Selection N) (p q : Position N) :
    setStart w p s = validate w .CHARACTER s ∧ setEnd w p s = validate w .CHARACTER s ∧
      setStartAndEnd w p q s = validate w .CHARACTER s :=
  ⟨validate_character_startEnd w s p s.m_end, validate_character_startEnd w s s.m_start p,
    validate_character_startEnd w s p q⟩

/-- C25: the comparator on two nodes neither of which is an ancestor of the other.  In
every finite tree, for nodes `a` and `b` whose paths are not prefixes of one another (so
they are distinct), `nodeIsBeforeNode(a, b)` returns, with enough fuel for the tree, and
is true exactly when `a` is visited before `b` in pre-order; `nodeIsBeforeNode(b, a)` is
the negation.  The two paths part below their lowest common ancestor `c` into the children
`i` and `j` of `c`, and `a` is visited first exactly when `i < j`. -/
theorem nodeIsBeforeNode_preorder_apart (t : Tree) (a b : List Nat) (ha : t.isNode a = true)
    (hb : t.isNode b = true) (hab : ¬ a <+: b) (hba : ¬ b <+: a) :
    nodeIsBeforeNode t.api t.fuel (some a) (some b) = .ok (t.visitedBefore a b) ∧
      nodeIsBeforeNode t.api t.fuel (some b) (some a) = .ok (!t.visitedBefore a b) ∧
      ∃ c i j x y, a = c ++ i :: x ∧ b = c ++ j :: y ∧ i ≠ j ∧
        t.visitedBefore a b = decide (i < j) := by
  obtain ⟨c, i, j, x, y, rfl, rfl, hij⟩ := apart_paths a b hab hba
  have hv := Tree.visitedBefore_apart t c i j x y hij ha hb
  refine ⟨?_, ?_, c, i, j, x, y, rfl, rfl, hij, hv⟩
  · rw [hv]
    exact Tree.comparator_apart t c i j x y hij ha hb
  · rw [hv, Tree.comparator_apart t c j i y x (Ne.symm hij) hb ha]
    congr 1
    rw [← decide_not, decide_eq_decide]
    omega

/-- C25 at a concrete input: textA and textB of the sample document, whose lowest common
ancestor is the block. -/
theorem nodeIsBeforeNode_preorder_apart_witness :
    nodeIsBeforeNode sampleTree.api sampleTree.fuel (some [0, 0]) (some [0, 1, 0]) =
        .ok (sampleTree.visitedBefore [0, 0] [0, 1, 0]) ∧
      sampleTree.visitedBefore [0, 0] [0, 1, 0] = true ∧
      nodeIsBeforeNode sampleTree.api sampleTree.fuel (some [0, 1, 0]) (some [0, 0]) =
        .ok false :=
  have h := nodeIsBeforeNode_preorder_apart sampleTree [0, 0] [0, 1, 0] (by decide) (by decide)
    (by decide) (by decide)
  ⟨h.1, by decide, h.2.1.trans (by decide)⟩

/-- C28: on a proper ancestor `a` of a node `b` the comparator does not depend on the
argument order.  In every finite tree `nodeIsBeforeNode(a, b)` and `nodeIsBeforeNode(b, a)`
both return, and both are true when `a` has a parent and false when `a` is the root. -/
theorem nodeIsBeforeNode_on_ancestor (t : Tree) (a b : List Nat) (hb : t.isNode b = true)
    (hab : a <+: b) (hne : a ≠ b) :
    nodeIsBeforeNode t.api t.fuel (some a) (some b) = .ok (t.api.parentNode a).isSome ∧
      nodeIsBeforeNode t.api t.fuel (some b) (some a) = .ok (t.api.parentNode a).isSome := by
  obtain ⟨r, rfl⟩ := hab
  have ha : t.isNode a = true := Tree.isNode_prefix t a r hb
  have e1 : a.take (a ++ r).length = a := by
    rw [List.take_of_length_le (by simp)]
  have e2 : (a ++ r).take a.length = a := by simp
  have e3 : (t.api.parentNode a).isSome = decide (a ≠ []) := by
    simp only [Tree.api]
    by_cases h : a = [] <;> simp [h]
  rw [e3]
  exact ⟨Tree.comparator_ancestor t a (a ++ r) a (a ++ r) ha hb hne e1 e2 ha,
    Tree.comparator_ancestor t a a (a ++ r) a hb ha (Ne.symm hne) e2 e1 ha⟩

/-- C28 at a concrete input: the element `b` of the sample document and its text child. -/
theorem nodeIsBeforeNode_on_ancestor_witness :
    nodeIsBeforeNode sampleTree.api sampleTree.fuel (some [0, 1]) (some [0, 1, 0]) = .ok true ∧
      nodeIsBeforeNode sampleTree.api sampleTree.fuel (some [0, 1, 0]) (some [0, 1]) = .ok true :=
  nodeIsBeforeNode_on_ancestor sampleTree [0, 1] [0, 1, 0] (by decide) (by decide) (by decide)

/-- C29: `nodeIsBeforeNode` is total and null-safe.  For a node graph whose parent links
are acyclic (`rk` decreases along them) and whose sibling chains are acyclic (`sr` decreases
along `nextSibling`), both bounded by the fuel, as in every finite forest, the call on two
non-null nodes returns a value: neither of the two faults of the embedding occurs, that is,
none of the depth loops, climbing loops, the common-parent loop and the sibling scan runs
out of fuel, and none of them evaluates `parentNode`, `firstChild` or `nextSibling` on a
null node.  The two nodes need not be in one tree. -/
theorem nodeIsBeforeNode_total (api : NodeAPI N) (fuel : Nat) (rk sr : N → Nat)
    (hp : ∀ n p, api.parentNode n = some p → rk p < rk n)
    (hs : ∀ n m, api.nextSibling n = some m → sr m < sr n)
    (hf : ∀ n, rk n < fuel ∧ sr n + 1 < fuel) (a b : N) :
    ∃ r, nodeIsBeforeNode api fuel (some a) (some b) = .ok r := by
  by_cases hab : a = b
  · exact ⟨true, by simp [nodeIsBeforeNode, hab]⟩
  obtain ⟨ka, hka, lea⟩ := hasDepth_exists api rk hp a
  obtain ⟨kb, hkb, leb⟩ := hasDepth_exists api rk hp b
  have fa := (hf a).1
  have fb := (hf b).1
  obtain ⟨b1, hb1, db1⟩ := climbLoop_hasDepth api b kb hkb ka
  obtain ⟨a1, ha1, da1⟩ := climbLoop_hasDepth api a ka hka kb
  rw [Nat.min_comm] at db1
  obtain ⟨⟨x, y⟩, hxy⟩ := commonParentLoop_hasDepth api (min ka kb) a1 b1 da1 db1 fuel
    (by omega)
  obtain ⟨r, hr⟩ := scanLoop_returns api sr hs x y fuel
    (match api.parentNode x with
      | some p => api.firstChild p
      | none => api.firstChild x) (by omega) (fun m _ => (hf m).2)
  refine ⟨r, ?_⟩
  simp only [nodeIsBeforeNode, hab, if_false, bind, Except.bind]
  rw [depthLoop_hasDepth api a ka hka fuel 0 (by omega),
    depthLoop_hasDepth api b kb hkb fuel 0 (by omega)]
  simp only [Nat.zero_add, hb1, ha1, hxy]
  rw [← hr]
  try (cases api.parentNode x <;> rfl)

/-- C29 at a concrete input: textA and textB of the sample document, and textB with the
text child of a detached element, a node of another tree. -/
theorem nodeIsBeforeNode_total_witness :
    (∃ r, nodeIsBeforeNode forestApi 10 (some 2) (some 4) = .ok r) ∧
      (∃ r, nodeIsBeforeNode forestApi 10 (some 4) (some 7) = .ok r) :=
  ⟨nodeIsBeforeNode_total forestApi 10 forestRank forestSiblingRank (by decide) (by decide)
      (by decide) 2 4,
    nodeIsBeforeNode_total forestApi 10 forestRank forestSiblingRank (by decide) (by decide)
      (by decide) 4 7⟩

/-- C21, counterexample: `getRepaintRect` returns the outset of a stale rectangle for a
Selection that is not a live in-document caret.  The caret laid out at offset 3 of
"The quick fox" holds the rectangle (3, 0, 1, 10) with `m_needsCaretLayout` clear: once
its node is out of the document, `getRepaintRect` still returns (2, -1, 3, 12); and after
`setExtent` has made the Selection a Range and `setNeedsLayout(false)` has cleared the
flag, `getRepaintRect` returns (2, -1, 3, 12) as well.  With the flag set the same Range
gives the empty rectangle. -/
theorem repaint_rect_of_stale_cache :
    layoutCaret sampleWorld (caretAt [0, 0] 3) = .ok laidOutCaret ∧
      detachedWorld.inDocument [0, 0] = false ∧
      getRepaintRect detachedWorld laidOutCaret = .ok (⟨2, -1, 3, 12⟩, laidOutCaret) ∧
      setExtent sampleWorld ⟨some [0, 0], 5⟩ laidOutCaret = .ok staleRange ∧
      staleRange.m_state = .RANGE ∧
      getRepaintRect sampleWorld (setNeedsLayout false staleRange) =
        .ok (⟨2, -1, 3, 12⟩, setNeedsLayout false staleRange) ∧
      getRepaintRect sampleWorld staleRange =
        .ok (QRect.null, { staleRange with m_caretRect := QRect.null }) :=
  ⟨by decide, by decide, by decide, by decide, by decide, by decide, by decide⟩

/-- C21, amended: `getRepaintRect` returns the rectangle cached after layout-on-demand,
outset by one unit on each side, or the empty rectangle when that one is empty.  With
`m_needsCaretLayout` clear it is the outset of the rectangle already cached, whatever the
state, and the Selection is left alone; with the flag set the rectangle is that of
`layoutCaret()`: the call returns the empty rectangle when the state is not CARET or the
node of start is not in the document, and for a caret in the document with a renderer it
returns the outset of the rectangle of the render collaborator and clears the flag. -/
theorem getRepaintRect_outset (w : World N R C) (s : Selection N) :
    (s.m_needsCaretLayout = false → getRepaintRect w s = .ok (s.m_caretRect.outset, s)) ∧
      (s.m_needsCaretLayout = true →
        getRepaintRect w s = (layoutCaret w s).map (fun t => (t.m_caretRect.outset, t))) ∧
      (s.m_needsCaretLayout = true →
        (s.m_state ≠ .CARET ∨ ∃ n, s.m_start.node = some n ∧ w.inDocument n = false) →
        getRepaintRect w s = .ok (QRect.null, { s with m_caretRect := QRect.null })) ∧
      (∀ n r, s.m_needsCaretLayout = true → s.m_state = .CARET → s.m_start.node = some n →
        w.inDocument n = true → w.renderer n = some r →
        getRepaintRect w s =
          .ok ((w.caretRect r s.m_start.offset).outset,
            { s with m_caretRect := w.caretRect r s.m_start.offset,
                     m_needsCaretLayout := false })) := by
  have key : ∀ t : Selection N,
      (if t.m_caretRect.isEmpty = true then (pure (QRect.null, t) : Run (QRect × Selection N))
        else pure (⟨t.m_caretRect.left - 1, t.m_caretRect.top - 1, t.m_caretRect.width + 2,
          t.m_caretRect.height + 2⟩, t)) = .ok (t.m_caretRect.outset, t) := by
    intro t
    unfold QRect.outset
    split <;> rfl
  have hl : s.m_needsCaretLayout = true →
      getRepaintRect w s = (layoutCaret w s).map (fun t => (t.m_caretRect.outset, t)) := by
    intro h
    unfold getRepaintRect
    simp only [h, if_true, bind, Except.bind]
    cases layoutCaret w s with
    | error e => rfl
    | ok t => exact key t
  refine ⟨?_, hl, ?_, ?_⟩
  · intro h
    unfold getRepaintRect
    simp only [h, Bool.false_eq_true, if_false, bind, Except.bind, pure, Except.pure]
    exact key s
  · intro h hn
    rw [hl h]
    have : layoutCaret w s = .ok { s with m_caretRect := QRect.null } := by
      unfold layoutCaret
      rcases hn with hn | ⟨n, h1, h2⟩
      · simp [hn]
      · by_cases hc : s.m_state ≠ .CARET ∨ s.isEmpty = true
        · simp [hc]
        · simp [hc, h1, deref, h2, bind, Except.bind, pure, Except.pure]
    rw [this]
    rfl
  · intro n r h hc h1 h2 h3
    rw [hl h]
    have : layoutCaret w s =
        .ok { s with
          m_caretRect := w.caretRect r s.m_start.offset
          m_needsCaretLayout := false } := by
      unfold layoutCaret
      simp [hc, Selection.isEmpty, h1, deref, h2, h3, bind, Except.bind, pure, Except.pure]
    rw [this]
    rfl

/-- C21, amended, at concrete inputs: the caret at offset 5 of "The quick fox", whose
rectangle is (5, 0, 1, 10), and a Range. -/
theorem getRepaintRect_outset_witness :
    getRepaintRect sampleWorld (caretAt [0, 0] 5) =
        .ok (⟨4, -1, 3, 12⟩,
          { caretAt [0, 0] 5 with m_caretRect := ⟨5, 0, 1, 10⟩, m_needsCaretLayout := false }) ∧
      getRepaintRect sampleWorld (rangeOf [0, 0] 3 [0, 0] 5) =
        .ok (QRect.null, rangeOf [0, 0] 3 [0, 0] 5) :=
  ⟨((getRepaintRect_outset sampleWorld (caretAt [0, 0] 5)).2.2.2 [0, 0] [0, 0] (by decide)
      (by decide) (by decide) (by decide) (by decide)).trans (by decide),
    ((getRepaintRect_outset sampleWorld (rangeOf [0, 0] 3 [0, 0] 5)).2.2.1 (by decide)
      (Or.inl (by decide))).trans (by decide)⟩

/-- C23, counterexample: a failing EXTEND leaves base and extent out of step with
`m_baseIsStart`.  The Selection built from base `(textC, 5)` and extent `(textC, 3)` has
`m_baseIsStart` false and is consistent; `modify(EXTEND, FORWARD, CHARACTER)` finds no
character after the end of the document and returns false, after the helper has assigned
(base, extent) from (start, end).  In the Selection it leaves, state RANGE, the first of
(extent, base) is `(textC, 5)`, whose downstream position is not start `(textC, 3)`. -/
theorem failed_extend_breaks_consistency :
    Selection.ofBaseExtent sampleWorld ⟨some [0, 2], 5⟩ ⟨some [0, 2], 3⟩ =
        .ok backwardSelection ∧
      Consistent sampleWorld backwardSelection ∧
      modify sampleWorld .EXTEND .FORWARD .CHARACTER backwardSelection [] =
        .ok (false, pinnedSelection, []) ∧
      Reachable sampleWorld (fun g => decide (g = .CHARACTER)) pinnedSelection ∧
      pinnedSelection.m_state = .RANGE ∧ pinnedSelection.m_baseIsStart = false ∧
      pinnedSelection.m_start = ⟨some [0, 2], 3⟩ ∧
      sampleWorld.downstream StayInBlock pinnedSelection.m_extent = ⟨some [0, 2], 5⟩ ∧
      ¬ Consistent sampleWorld pinnedSelection := by
  refine ⟨by decide, ?_, by decide, ?_, by decide, by decide, by decide, by decide, ?_⟩
  · exact validate_character_consistent sampleWorld _ _
      (show validate sampleWorld .CHARACTER
        (Selection.init.assignBaseAndExtent ⟨some [0, 2], 5⟩ ⟨some [0, 2], 3⟩) =
          .ok backwardSelection by decide)
  · exact Reachable.modify .EXTEND .FORWARD .CHARACTER backwardSelection pinnedSelection [] []
      false (Reachable.ofBaseExtent ⟨some [0, 2], 5⟩ ⟨some [0, 2], 3⟩ backwardSelection
        (by decide)) (by decide)
  · intro h
    have h1 := (h.2 (by decide)).1
    revert h1
    decide

/-- C23, amended: for every Selection reachable through the constructors and the public
operations at Character granularity, start and end are consistent with base, extent and
`m_baseIsStart`, or (base, extent) is (start, end) or (end, start), as a failing EXTEND
leaves them.  Every `validate()` at Character granularity, so every constructor, `set*`,
`moveTo`, `clear` and every `modify` that returns true, establishes consistency; a `modify`
that returns false keeps it when it is a MOVE or is entered with `m_modifyBiasSet` set; an
EXTEND that returns false and is entered with the flag clear leaves `m_baseIsStart` as it
was and base, extent pinned to start, end. -/
theorem reachable_consistent (w : World N R C) (allow : ETextGranularity → Bool)
    (hall : ∀ g, allow g = true → g = .CHARACTER) (s : Selection N)
    (h : Reachable w allow s) :
    (Consistent w s ∨ Pinned s) ∧
      (∀ t s', validate w .CHARACTER t = .ok s' → Consistent w s') ∧
      (∀ alter dir g cache s' c', modify w alter dir g s cache = .ok (true, s', c') →
        Consistent w s') ∧
      (∀ alter dir g cache s' c', modify w alter dir g s cache = .ok (false, s', c') →
        (alter = .MOVE ∨ s.m_modifyBiasSet = true) → Consistent w s → Consistent w s') ∧
      (∀ alter dir g cache s' c', modify w alter dir g s cache = .ok (false, s', c') →
        alter = .EXTEND → s.m_modifyBiasSet = false →
        s'.m_baseIsStart = s.m_baseIsStart ∧ Pinned s') := by
  refine ⟨reachable_pinned w allow hall s h, fun t s' ht => validate_character_consistent w t s' ht,
    ?_, ?_, ?_⟩
  · intro alter dir g cache s' c' hm
    obtain ⟨pos, _, _, ht⟩ := modify_ok w alter dir g s s' cache c' true hm
    obtain ⟨_, h1, h2⟩ := ht rfl
    cases alter with
    | MOVE => exact validate_character_consistent w _ s' (h1 rfl)
    | EXTEND => exact validate_character_consistent w _ s' (h2 rfl)
  · intro alter dir g cache s' c' hm hcase hc
    obtain ⟨pos, _, hf, _⟩ := modify_ok w alter dir g s s' cache c' false hm
    obtain ⟨_, rfl⟩ := hf rfl
    rcases hcase with rfl | hb
    · exact hc
    · cases alter
      · exact hc
      · simp only [modifyBias, hb, if_true]
        exact hc
  · intro alter dir g cache s' c' hm ha hb
    obtain ⟨pos, _, hf, _⟩ := modify_ok w alter dir g s s' cache c' false hm
    obtain ⟨_, rfl⟩ := hf rfl
    subst ha
    cases dir <;> simp [Pinned, modifyBias, hb, Selection.assignBaseAndExtent]

/-- C23, amended, at a concrete input: the Selection built from base `(textC, 5)` and
extent `(textC, 3)` in the sample world, and the caret at `(textA, 5)`. -/
theorem reachable_consistent_witness :
    Reachable sampleWorld (fun g => decide (g = .CHARACTER)) backwardSelection ∧
      Consistent sampleWorld (caretAt [0, 0] 5) ∧
      (Consistent sampleWorld backwardSelection ∨ Pinned backwardSelection) :=
  have hr : Reachable sampleWorld (fun g => decide (g = .CHARACTER)) backwardSelection :=
    Reachable.ofBaseExtent ⟨some [0, 2], 5⟩ ⟨some [0, 2], 3⟩ backwardSelection (by decide)
  have h := reachable_consistent sampleWorld (fun g => decide (g = .CHARACTER))
    (fun g hg => by simpa using hg) backwardSelection hr
  ⟨hr, h.2.1 (Selection.init.assignBaseAndExtent ⟨some [0, 0], 5⟩ ⟨some [0, 0], 5⟩)
    (caretAt [0, 0] 5) (by decide), h.1⟩

/-- C27: `toRange` does not always hand over a start that the comparator puts before the
end.  For the Range built from base `(document, 0)` and extent `(textA, 3)`, start is
`(textA, 3)` and end `(document, 0)`; `toRange` swaps them, and for the pair it hands on,
`(document, 0)` and `(textA, 3)`, `nodeIsBeforeNode(document, textA)` is false.  For the
Range built from base `(textB, 2)` and extent `(b, 0)`, where `b` is the parent of textB,
the comparator is true in both orders, nothing is swapped, and the start handed on is on
textB, which comes after `b` in document order. -/
theorem toRange_start_not_before_end :
    Selection.ofBaseExtent sampleWorld ⟨some [], 0⟩ ⟨some [0, 0], 3⟩ =
        .ok (reverseRangeOf [0, 0] 3 [] 0) ∧
      (reverseRangeOf [0, 0] 3 [] 0).m_state = .RANGE ∧
      toRangeEnds sampleWorld (reverseRangeOf [0, 0] 3 [] 0) =
        .ok (⟨some [], 0⟩, ⟨some [0, 0], 3⟩) ∧
      nodeIsBeforeNode sampleWorld.dom sampleWorld.loopFuel (some []) (some [0, 0]) =
        .ok false ∧
      toRange sampleWorld (reverseRangeOf [0, 0] 3 [] 0) =
        .ok (some ⟨some [], 0, some [0, 0], 3⟩) ∧
      Selection.ofBaseExtent sampleWorld ⟨some [0, 1, 0], 2⟩ ⟨some [0, 1], 0⟩ =
        .ok (rangeOf [0, 1, 0] 2 [0, 1] 0) ∧
      toRangeEnds sampleWorld (rangeOf [0, 1, 0] 2 [0, 1] 0) =
        .ok (⟨some [0, 1, 0], 2⟩, ⟨some [0, 1], 0⟩) ∧
      sampleTree.visitedBefore [0, 1] [0, 1, 0] = true :=
  ⟨by decide, by decide, by decide, by decide, by decide, by decide, by decide, by decide⟩

/-- C26, counterexample: a matching text box of a text renderer without element is not
reported.  With the renderer of textB anonymous, its box on line 0 is the only run in the
chain that starts at textB, yet `startOfFirstRunAt` and `endOfLastRunAt` return Positions
with a null node, which are empty; and in the chain that starts at `b`, whose walk is
`b`, textB, textC, the first run met is that of textB, but the recursive call sees an
empty Position there and `startOfFirstRunAt` goes on to return the start of textC. -/
theorem run_of_anonymous_text :
    anonymousWorld.rIsText [0, 1, 0] = true ∧ anonymousWorld.rElement [0, 1, 0] = none ∧
      sampleTree.chainWalk [0, 1, 0] = [[0, 1, 0]] ∧
      runsAt anonymousWorld 0 (sampleTree.chainWalk [0, 1, 0]) = [([0, 1, 0], ⟨0, 0, 5⟩)] ∧
      startOfFirstRunAt anonymousWorld 0 anonymousWorld.loopFuel (some [0, 1, 0]) =
        .ok ⟨none, 0⟩ ∧
      endOfLastRunAt anonymousWorld 0 anonymousWorld.loopFuel (some [0, 1, 0]) =
        .ok ⟨none, 5⟩ ∧
      sampleTree.chainWalk [0, 1] = [[0, 1], [0, 1, 0], [0, 2]] ∧
      (runsAt anonymousWorld 0 (sampleTree.chainWalk [0, 1])).head? =
        some ([0, 1, 0], ⟨0, 0, 5⟩) ∧
      startOfFirstRunAt anonymousWorld 0 anonymousWorld.loopFuel (some [0, 1]) =
        .ok ⟨some [0, 2], 0⟩ :=
  ⟨by decide, by decide, by decide, by decide, by decide, by decide, by decide, by decide,
    by decide⟩

/-- C26, amended: the line span search on a finite render tree whose text renderers all
have an element.  For every node `first` of the tree and every `y`, with fuel above the
size of the tree, `startOfFirstRunAt(first, y)` returns `(element, box.m_start)` for the
first inline text box with `m_y == y` met in the forward depth-first walk of the sibling
chain that starts at `first`, and `endOfLastRunAt(first, y)` returns
`(element, box.m_start + box.m_len)` for the last such box of that walk; each returns the
empty Position exactly when the walk meets no such box. -/
theorem line_run_search (t : Tree) (w : World N (List Nat) C) (y : Int) (first : List Nat)
    (fuel : Nat) (hn : t.isNode first = true)
    (hel : ∀ r, w.rIsText r = true → (w.rElement r).isSome = true)
    (hf : t.kids.size + 1 < fuel) (hl : t.kids.size + 1 < w.loopFuel) :
    startOfFirstRunAt (renderTreeWorld t w) y fuel (some first) =
        .ok (firstRunStart w (runsAt w y (t.chainWalk first))) ∧
      endOfLastRunAt (renderTreeWorld t w) y fuel (some first) =
        .ok (lastRunEnd w (runsAt w y (t.chainWalk first))) ∧
      ((firstRunStart w (runsAt w y (t.chainWalk first)) : Position N).isEmpty = true ↔
        runsAt w y (t.chainWalk first) = []) ∧
      ((lastRunEnd w (runsAt w y (t.chainWalk first)) : Position N).isEmpty = true ↔
        runsAt w y (t.chainWalk first) = []) :=
  have h := run_search_on_tree t w hel y first fuel hn hf hl
  ⟨h.1, h.2, (firstRunStart_empty w hel y _).1, lastRunEnd_isEmpty w hel y _⟩

/-- C26, amended, at a concrete input: the line of the sample document, searched from
textA, runs from the start of textA to the end of textC; no run has `m_y == 7`. -/
theorem line_run_search_witness :
    startOfFirstRunAt (renderTreeWorld sampleTree sampleWorld) 0 sampleTree.fuel
        (some [0, 0]) = .ok ⟨some [0, 0], 0⟩ ∧
      endOfLastRunAt (renderTreeWorld sampleTree sampleWorld) 0 sampleTree.fuel
        (some [0, 0]) = .ok ⟨some [0, 2], 5⟩ ∧
      startOfFirstRunAt (renderTreeWorld sampleTree sampleWorld) 7 sampleTree.fuel
        (some [0, 0]) = .ok emptyPosition :=
  have h := line_run_search sampleTree sampleWorld 0 [0, 0] sampleTree.fuel (by decide)
    (fun _ _ => rfl) (by decide) (by decide)
  have h7 := line_run_search sampleTree sampleWorld 7 [0, 0] sampleTree.fuel (by decide)
    (fun _ _ => rfl) (by decide) (by decide)
  ⟨h.1.trans (by decide), h.2.1.trans (by decide), h7.1.trans (by decide)⟩

end Claims

end DOM
